import Mathlib

/-!
# Transport networks for biased sampling and Wasserstein distance

A shallow embedding of `stealth-sampling/src/main.cc` and `wasserstein/src/main.cc`:
the sparse `distance`, the construction of the min-cost-flow instances of `biasedSampling`
and `wasserstein`, and what these functions read back from the solver's flow.

Conventions of the embedding:
* `double` is modelled by exact rationals (no rounding, no NaN, no infinity); a division by
  zero yields `none`;
* an `int` product or sum is the exact result wrapped to 32 bits (`wrap32`); the conversion
  `int N = data.size()` is taken to be exact;
* the LEMON graph is a node count and the list of its arcs in creation order, each arc
  carrying its entries of the maps `capacity` and `cost`; an arc map such as `flow` is a
  function of the arc id;
* the solver `NetworkSimplex` is external: a flow it may return is any arc map that satisfies
  `Feasible`, and `totalCost` is the cost it reports for that flow;
* in `NNDescent` the values of `rand()` are a list of draws, an `unordered_map` is the list
  of its entries in order of insertion, and `partial_sort` is a stable sort of which the
  first `k` entries are read; `none` stands for a run that uses up every draw without
  finishing, or that indexes a vector outside its bounds.
-/

namespace StealthSampling

/-- Sparse vector `MyFeature = vector<pair<int, double>>`; `double` values are
modelled by exact rationals. -/
abbrev MyFeature := List (Int × ℚ)

/-- The lambda `square` of `distance`. -/
def square (t : ℚ) : ℚ := t * t

/-- The merge loop of `distance`: the first list is `x` from position `i` on, the
second is `y` from position `j` on, the third argument is `score`. -/
def distanceLoop : MyFeature → MyFeature → ℚ → ℚ
  | [], [], score => score
  | [], yj :: ys, score => distanceLoop [] ys (score + square yj.2)
  | xi :: xs, [], score => distanceLoop xs [] (score + square xi.2)
  | xi :: xs, yj :: ys, score =>
    if xi.1 < yj.1 then distanceLoop xs (yj :: ys) (score + square xi.2)
    else if xi.1 > yj.1 then distanceLoop (xi :: xs) ys (score + square yj.2)
    else distanceLoop xs ys (score + square (xi.2 - yj.2))
termination_by x y _ => x.length + y.length

/-- Function `distance(MyFeature x, MyFeature y)`. -/
def distance (x y : MyFeature) : ℚ := distanceLoop x y 0

/-- Value of the sparse vector `x` at index `k`; an index missing from `x` has value 0. -/
def valueAt (x : MyFeature) (k : Int) : ℚ := (x.lookup k).getD 0

/-- The set of indices stored in the sparse vector `x`. -/
def indexSet (x : MyFeature) : Finset Int := (x.map Prod.fst).toFinset

/-- Reference value of the spec: the sum over the union of the indices of the squared
differences of the values. -/
def distanceRef (x y : MyFeature) : ℚ :=
  ∑ k in indexSet x ∪ indexSet y, (valueAt x k - valueAt y k) ^ 2

/-- The indices of the sparse vector are strictly increasing. -/
def StrictlyIncreasing (x : MyFeature) : Prop := (x.map Prod.fst).Pairwise (· < ·)

instance (x : MyFeature) : Decidable (StrictlyIncreasing x) := by
  unfold StrictlyIncreasing; infer_instance

/-- Struct `MyDatum`. -/
structure MyDatum where
  label : Int
  feature : MyFeature

/-- Value of a 32-bit `int` expression whose exact result is `z` (two's complement
wrap-around). -/
def wrap32 (z : Int) : Int := (z + 2147483648) % 4294967296 - 2147483648

/-- An arc of the graph together with its entries `capacity[a]` and `cost[a]` of the two
arc maps. -/
structure Arc where
  source : Nat
  target : Nat
  capacity : Int
  cost : ℚ
deriving DecidableEq

/-- The `SmartDigraph g` under construction: nodes are numbered `0 .. nodeNum - 1` in the
order of `addNode`, arcs are numbered by their position in `arcs`, the order of `addArc`. -/
structure SmartDigraph where
  nodeNum : Nat
  arcs : List Arc
deriving DecidableEq

/-- Method `g.addNode()`: the new graph and the id of the new node. -/
def SmartDigraph.addNode (g : SmartDigraph) : SmartDigraph × Nat :=
  ({ g with nodeNum := g.nodeNum + 1 }, g.nodeNum)

/-- Method `g.addArc(u, v)` followed by the two assignments `capacity[a] = cap` and
`cost[a] = c`: the new graph and the id of the new arc. -/
def SmartDigraph.addArc (g : SmartDigraph) (u v : Nat) (cap : Int) (c : ℚ) :
    SmartDigraph × Nat :=
  ({ g with arcs := g.arcs ++ [⟨u, v, cap, c⟩] }, g.arcs.length)

/-- The problem instance handed to `NetworkSimplex`: the graph with `upperMap(capacity)` and
`costMap(cost)`, the two terminals and the amount of `stSupply(s, t, supply)`; `incomming`
lists the arc ids collected in the vector of that name. -/
structure Network where
  graph : SmartDigraph
  s : Nat
  t : Nat
  supply : Int
  incomming : List Nat
deriving DecidableEq

/-- Loop `for (i < sizes.size()) K += sizes[i]` of `biasedSampling`, from `K = 0`. -/
def sumSizes (sizes : List Int) : Int :=
  sizes.foldl (fun K sz => wrap32 (K + sz)) 0

/-- Loop of `biasedSampling` over `sizes` that adds the intermediate vertices: the state is
the graph and the vector `intermediate`. -/
def addIntermediate (N : Int) (s : Nat) :
    List Int → SmartDigraph × List Nat → SmartDigraph × List Nat
  | [], st => st
  | sz :: rest, (g, intermediate) =>
    let (g1, u) := g.addNode
    let (g2, _) := g1.addArc s u (wrap32 (N * sz)) 0
    addIntermediate N s rest (g2, intermediate ++ [u])

/-- Loop of `biasedSampling` over `data` that adds the left vertices: the state is the
graph and the vectors `left` and `incomming`. The lookup `intermediate[data[i].label]` has
a value only for an index inside the vector; outside it the result is `none`. -/
def addLeft (N : Int) (intermediate : List Nat) :
    List MyDatum → SmartDigraph × List Nat × List Nat → Option (SmartDigraph × List Nat × List Nat)
  | [], st => some st
  | d :: rest, (g, left, incomming) =>
    let (g1, l) := g.addNode
    if 0 ≤ d.label then
      match intermediate[d.label.toNat]? with
      | none => none
      | some u =>
        let (g2, a) := g1.addArc u l N 0
        addLeft N intermediate rest (g2, left ++ [l], incomming ++ [a])
    else none

/-- Loop over `data` that adds the right vertices, each with its arc to `t` of capacity
`cap`: the state is the graph and the vector `right`. -/
def addRight (cap : Int) (t : Nat) :
    List MyDatum → SmartDigraph × List Nat → SmartDigraph × List Nat
  | [], st => st
  | _ :: rest, (g, right) =>
    let (g1, r) := g.addNode
    let (g2, _) := g1.addArc r t cap 0
    addRight cap t rest (g2, right ++ [r])

/-- Inner loop `for (j < right.size())` for a fixed left vertex `li` with feature `fi`;
the list pairs `right[j]` with the datum `j` of the right side. -/
def addCrossRow (cap : Int) (li : Nat) (fi : MyFeature) :
    List (Nat × MyDatum) → SmartDigraph → SmartDigraph
  | [], g => g
  | (rj, dj) :: rest, g =>
    addCrossRow cap li fi rest (g.addArc li rj cap (distance fi dj.feature)).1

/-- Outer loop `for (i < left.size())`; the list pairs `left[i]` with `data[i]`. -/
def addCross (cap : Int) (rights : List (Nat × MyDatum)) :
    List (Nat × MyDatum) → SmartDigraph → SmartDigraph
  | [], g => g
  | (li, di) :: rest, g =>
    addCross cap rights rest (addCrossRow cap li di.feature rights g)

/-- The network `biasedSampling(data, sizes)` builds and hands to the solver. -/
def biasedSamplingNetwork (data : List MyDatum) (sizes : List Int) : Option Network :=
  let K : Int := sumSizes sizes
  let N : Int := data.length
  let g : SmartDigraph := ⟨0, []⟩
  let (g, s) := g.addNode
  let (g, t) := g.addNode
  let (g, intermediate) := addIntermediate N s sizes (g, [])
  match addLeft N intermediate data (g, [], []) with
  | none => none
  | some (g, left, incomming) =>
    let (g, right) := addRight K t data (g, [])
    let g := addCross (wrap32 (N * K)) (right.zip data) (left.zip data) g
    some ⟨g, s, t, wrap32 (N * K), incomming⟩

/-- The final loop of `biasedSampling`, `weight[i] = flow[incomming[i]]`, on the arc map
`flow` the solver has filled in. -/
def biasedSamplingWeights (net : Network) (flow : Nat → Int) : List ℚ :=
  net.incomming.map (fun a => (flow a : ℚ))

/-- Function `biasedSampling(data, sizes)`: the vector `weight` it returns when `flow` is the
arc map the solver has filled in for the network built. -/
def biasedSampling (data : List MyDatum) (sizes : List Int) (flow : Nat → Int) :
    Option (List ℚ) :=
  (biasedSamplingNetwork data sizes).map (fun net => biasedSamplingWeights net flow)

/-- Loop of `wasserstein` over `data1` that adds the left vertices, each with its arc from
`s` of capacity `cap`: the state is the graph and the vectors `left` and `incomming`. -/
def addLeftW (cap : Int) (s : Nat) :
    List MyDatum → SmartDigraph × List Nat × List Nat → SmartDigraph × List Nat × List Nat
  | [], st => st
  | _ :: rest, (g, left, incomming) =>
    let (g1, l) := g.addNode
    let (g2, a) := g1.addArc s l cap 0
    addLeftW cap s rest (g2, left ++ [l], incomming ++ [a])

/-- The network `wasserstein(data1, data2)` builds and hands to the solver. -/
def wassersteinNetwork (data1 data2 : List MyDatum) : Network :=
  let N1 : Int := data1.length
  let N2 : Int := data2.length
  let g : SmartDigraph := ⟨0, []⟩
  let (g, s) := g.addNode
  let (g, t) := g.addNode
  let (g, left, incomming) := addLeftW N2 s data1 (g, [], [])
  let (g, right) := addRight N1 t data2 (g, [])
  let g := addCross (wrap32 (N1 * N2)) (right.zip data2) (left.zip data1) g
  ⟨g, s, t, wrap32 (N1 * N2), incomming⟩

/-- The layered network of mode A with the capacities left open: `capS sz` on the arc from
`s` to the intermediate vertex of a label of size `sz`, `capL` on the arc entering a left
vertex, `capR` on the arc from a right vertex to `t`, `capX` on the arcs from left to right
vertices and as the supply. Nodes: `s = 0`, `t = 1`, the intermediate vertex of label `c`
is `2 + c`, the left vertex of item `i` is `2 + L + i`, the right vertex of item `j` is
`2 + L + n + j`. -/
def layeredNetwork (data : List MyDatum) (sizes : List Int) (capS : Int → Int)
    (capL capR capX : Int) : Network :=
  let L := sizes.length
  let n := data.length
  { graph :=
      { nodeNum := 2 + L + n + n
        arcs :=
          (sizes.enumFrom 2).map (fun p => ⟨0, p.1, capS p.2, 0⟩)
          ++ (data.enumFrom (2 + L)).map (fun p => ⟨2 + p.2.label.toNat, p.1, capL, 0⟩)
          ++ (data.enumFrom (2 + L + n)).map (fun p => ⟨p.1, 1, capR, 0⟩)
          ++ (data.enumFrom (2 + L)).flatMap (fun p =>
              (data.enumFrom (2 + L + n)).map (fun q =>
                ⟨p.1, q.1, capX, distance p.2.feature q.2.feature⟩)) }
    s := 0
    t := 1
    supply := capX
    incomming := List.range' L n }

/-- Sum over the arcs of a list, the first of which has id `k`, of a quantity `φ a (f id)`
that depends on the arc and on the value of the arc map `f` at its id. -/
def arcSumFrom {M : Type} [AddCommMonoid M] (φ : Arc → Int → M) (f : Nat → Int) :
    Nat → List Arc → M
  | _, [] => 0
  | k, a :: rest => φ a (f k) + arcSumFrom φ f (k + 1) rest

/-- What an arc carrying `x` units contributes to the net outflow of node `v`. -/
def netOut (v : Nat) (a : Arc) (x : Int) : Int :=
  (if a.source = v then x else 0) - (if a.target = v then x else 0)

/-- Net amount that leaves node `v` under the arc map `f`: the flow on the arcs out of `v`
minus the flow on the arcs into `v`. -/
def excess (net : Network) (f : Nat → Int) (v : Nat) : Int :=
  arcSumFrom (netOut v) f 0 net.graph.arcs

/-- Modelled from the spec: the solver `NetworkSimplex` is an external library whose code is
not among the sources. Its `totalCost()` is the total realized cost of the flow, the sum
over the arcs of flow times cost. -/
def totalCost (net : Network) (f : Nat → Int) : ℚ :=
  arcSumFrom (fun a x => (x : ℚ) * a.cost) f 0 net.graph.arcs

/-- Every arc of the list, the first of which has id `k`, carries a flow between the lower
bound 0 and its capacity. -/
def respectsFrom (f : Nat → Int) : Nat → List Arc → Prop
  | _, [] => True
  | k, a :: rest => (0 ≤ f k ∧ f k ≤ a.capacity) ∧ respectsFrom f (k + 1) rest

instance decidableRespectsFrom (f : Nat → Int) :
    (k : Nat) → (l : List Arc) → Decidable (respectsFrom f k l)
  | _, [] => isTrue trivial
  | k, a :: rest =>
    have := decidableRespectsFrom f (k + 1) rest
    inferInstanceAs (Decidable ((0 ≤ f k ∧ f k ≤ a.capacity) ∧ respectsFrom f (k + 1) rest))

/-- Modelled from the spec: the solver `NetworkSimplex` is an external library whose code is
not among the sources. The arc map `f` is a flow that ships `value` units from `s` to `t`:
it is non-negative and within the capacity on every arc, the net outflow is `value` at `s`
and `-value` at `t`, and flow is conserved at every other node. -/
def IsFlow (net : Network) (f : Nat → Int) (value : Int) : Prop :=
  respectsFrom f 0 net.graph.arcs ∧
  excess net f net.s = value ∧
  excess net f net.t = -value ∧
  ∀ v, v < net.graph.nodeNum → v ≠ net.s → v ≠ net.t → excess net f v = 0

instance (net : Network) (f : Nat → Int) (value : Int) : Decidable (IsFlow net f value) := by
  unfold IsFlow; infer_instance

/-- Modelled from the spec: what the external solver may report as feasible on the instance
it was handed, a flow that ships the supply set by `stSupply`. -/
def Feasible (net : Network) (f : Nat → Int) : Prop := IsFlow net f net.supply

instance (net : Network) (f : Nat → Int) : Decidable (Feasible net f) := by
  unfold Feasible; infer_instance

/-- Label of item `i` of the dataset, as an index into `intermediate`. -/
def labelAt (data : List MyDatum) (i : Nat) : Nat := (data.getD i ⟨0, []⟩).label.toNat

/-- The system of equations and bounds that says `f` is a flow of the given value on the
layered network. -/
def LayeredFlow (data : List MyDatum) (sizes : List Int) (capS : Int → Int)
    (capL capR capX : Int) (f : Nat → Int) (value : Int) : Prop :=
  ((∀ c, c < sizes.length → 0 ≤ f c ∧ f c ≤ capS (sizes.getD c 0)) ∧
    (∀ i, i < data.length → 0 ≤ f (sizes.length + i) ∧ f (sizes.length + i) ≤ capL) ∧
    (∀ j, j < data.length →
      0 ≤ f (sizes.length + data.length + j) ∧ f (sizes.length + data.length + j) ≤ capR) ∧
    (∀ i, i < data.length → ∀ j, j < data.length →
      0 ≤ f (sizes.length + data.length + data.length + i * data.length + j) ∧
      f (sizes.length + data.length + data.length + i * data.length + j) ≤ capX)) ∧
  (∑ c in Finset.range sizes.length, f c = value) ∧
  (∑ j in Finset.range data.length, f (sizes.length + data.length + j) = value) ∧
  (∀ c, c < sizes.length →
    (∑ i in Finset.range data.length,
      if labelAt data i = c then f (sizes.length + i) else 0) = f c) ∧
  (∀ i, i < data.length →
    (∑ j in Finset.range data.length,
      f (sizes.length + data.length + data.length + i * data.length + j))
      = f (sizes.length + i)) ∧
  (∀ j, j < data.length →
    (∑ i in Finset.range data.length,
      f (sizes.length + data.length + data.length + i * data.length + j))
      = f (sizes.length + data.length + j))

/-- Number of items among the first `m` of the dataset that carry label `c`. -/
def countBefore (data : List MyDatum) (c m : Nat) : Int :=
  ∑ i in Finset.range m, if labelAt data i = c then 1 else 0

/-- Item `i` is among the first `sizes[c]` items of its own label `c`. -/
def selected (data : List MyDatum) (sizes : List Int) (i : Nat) : Prop :=
  countBefore data (labelAt data i) i < sizes.getD (labelAt data i) 0

instance (data : List MyDatum) (sizes : List Int) (i : Nat) : Decidable (selected data sizes i) := by
  unfold selected; infer_instance

/-- A flow on the layered network, by arc id: every arc out of `s` and every arc into `t`
is saturated, a left vertex receives `n` units when it is selected and none otherwise, and
passes one unit to every right vertex. -/
def selectionFlow (data : List MyDatum) (sizes : List Int) (k : Nat) : Int :=
  let L := sizes.length
  let n := data.length
  if k < L then n * sizes.getD k 0
  else if k < L + n then (if selected data sizes (k - L) then n else 0)
  else if k < L + n + n then sizes.sum
  else if selected data sizes ((k - (L + n + n)) / n) then 1 else 0

/-- The bipartite network of mode B with the capacities left open: `capL` on the arc from
`s` to a left vertex, `capR` on the arc from a right vertex to `t`, `capX` on the arcs from
left to right vertices and as the supply. Nodes: `s = 0`, `t = 1`, the left vertex of item
`i` of the first dataset is `2 + i`, the right vertex of item `j` of the second dataset is
`2 + n1 + j`. -/
def bipartiteNetwork (data1 data2 : List MyDatum) (capL capR capX : Int) : Network :=
  let n1 := data1.length
  { graph :=
      { nodeNum := 2 + n1 + data2.length
        arcs :=
          (data1.enumFrom 2).map (fun p => ⟨0, p.1, capL, 0⟩)
          ++ (data2.enumFrom (2 + n1)).map (fun q => ⟨q.1, 1, capR, 0⟩)
          ++ (data1.enumFrom 2).flatMap (fun p =>
              (data2.enumFrom (2 + n1)).map (fun q =>
                ⟨p.1, q.1, capX, distance p.2.feature q.2.feature⟩)) }
    s := 0
    t := 1
    supply := capX
    incomming := List.range' 0 n1 }

/-- Feature of item `i` of a dataset. -/
def featureAt (data : List MyDatum) (i : Nat) : MyFeature := (data.getD i ⟨0, []⟩).feature

/-- Function `wasserstein(data1, data2)` once the solver has filled the arc map `flow`: the
total cost divided by `N1 * N2`. A division by zero gives no number (`none`). -/
def wasserstein (data1 data2 : List MyDatum) (flow : Nat → Int) : Option ℚ :=
  let N1 : Int := data1.length
  let N2 : Int := data2.length
  if wrap32 (N1 * N2) = 0 then none
  else some (totalCost (wassersteinNetwork data1 data2) flow / (wrap32 (N1 * N2) : Int))

/-- The system of equations and bounds that says `f` is a flow of the given value on the
bipartite network. -/
def BipartiteFlow (n1 n2 : Nat) (capL capR capX : Int) (f : Nat → Int) (value : Int) : Prop :=
  ((∀ i, i < n1 → 0 ≤ f i ∧ f i ≤ capL) ∧
    (∀ j, j < n2 → 0 ≤ f (n1 + j) ∧ f (n1 + j) ≤ capR) ∧
    (∀ i, i < n1 → ∀ j, j < n2 →
      0 ≤ f (n1 + n2 + i * n2 + j) ∧ f (n1 + n2 + i * n2 + j) ≤ capX)) ∧
  (∑ i in Finset.range n1, f i = value) ∧
  (∑ j in Finset.range n2, f (n1 + j) = value) ∧
  (∀ i, i < n1 → (∑ j in Finset.range n2, f (n1 + n2 + i * n2 + j)) = f i) ∧
  (∀ j, j < n2 → (∑ i in Finset.range n1, f (n1 + n2 + i * n2 + j)) = f (n1 + j))

/-- The exact value `z` is representable in a 32-bit `int`. -/
def fits32 (z : Int) : Prop := -2147483648 ≤ z ∧ z ≤ 2147483647

instance (z : Int) : Decidable (fits32 z) := by unfold fits32; infer_instance

/-- The identity transport on the network of `wasserstein(D, D)` for a dataset of `n` items,
by arc id: `n` units on every arc out of `s` and into `t` and on every arc from `left[i]`
to `right[i]`, nothing on the other arcs. -/
def identityTransport (n : Nat) (k : Nat) : Int :=
  if k < n + n then n
  else if (k - (n + n)) / n = (k - (n + n)) % n then n else 0

/-- The network of mode A as the spec describes it, with exact integer arithmetic, for a
dataset of `N` items and `L` class sizes summing to `K`. Nodes: `S = 0`, `T = 1`, the
intermediate node of label `c` is `2 + c`, `left[i]` is `2 + L + i`, `right[j]` is
`2 + L + N + j`. Arcs, in this order: `S -> intermediate[c]` with capacity `N * sizes[c]`
and cost 0 for each label `c`; `intermediate[label(i)] -> left[i]` with capacity `N` and
cost 0 for each item `i`; `right[j] -> T` with capacity `K` and cost 0 for each item `j`;
`left[i] -> right[j]` with capacity `N * K` and cost `distance(feature[i], feature[j])` for
every pair `(i, j)`. The supply from `S` to `T` is `N * K`; the arc entering `left[i]` has
id `L + i`. -/
def modeANetwork (data : List MyDatum) (sizes : List Int) : Network :=
  let N : Int := data.length
  let K : Int := sizes.sum
  let L := sizes.length
  let n := data.length
  { graph :=
      { nodeNum := 2 + L + n + n
        arcs :=
          (sizes.enumFrom 2).map (fun p => ⟨0, p.1, N * p.2, 0⟩)
          ++ (data.enumFrom (2 + L)).map (fun p => ⟨2 + p.2.label.toNat, p.1, N, 0⟩)
          ++ (data.enumFrom (2 + L + n)).map (fun p => ⟨p.1, 1, K, 0⟩)
          ++ (data.enumFrom (2 + L)).flatMap (fun p =>
              (data.enumFrom (2 + L + n)).map (fun q =>
                ⟨p.1, q.1, N * K, distance p.2.feature q.2.feature⟩)) }
    s := 0
    t := 1
    supply := N * K
    incomming := List.range' L n }

/-- The network of mode B as the spec describes it, with exact integer arithmetic, for
datasets of `N1` and `N2` items. Nodes: `S = 0`, `T = 1`, `left[i]` is `2 + i`, `right[j]`
is `2 + N1 + j`. Arcs, in this order: `S -> left[i]` with capacity `N2` and cost 0 for each
`i`; `right[j] -> T` with capacity `N1` and cost 0 for each `j`; `left[i] -> right[j]` with
capacity `N1 * N2` and cost `distance(feature1[i], feature2[j])` for every pair `(i, j)`.
The supply from `S` to `T` is `N1 * N2`. -/
def modeBNetwork (data1 data2 : List MyDatum) : Network :=
  let N1 : Int := data1.length
  let N2 : Int := data2.length
  let n1 := data1.length
  { graph :=
      { nodeNum := 2 + n1 + data2.length
        arcs :=
          (data1.enumFrom 2).map (fun p => ⟨0, p.1, N2, 0⟩)
          ++ (data2.enumFrom (2 + n1)).map (fun q => ⟨q.1, 1, N1, 0⟩)
          ++ (data1.enumFrom 2).flatMap (fun p =>
              (data2.enumFrom (2 + n1)).map (fun q =>
                ⟨p.1, q.1, N1 * N2, distance p.2.feature q.2.feature⟩)) }
    s := 0
    t := 1
    supply := N1 * N2
    incomming := List.range' 0 n1 }

/-- The 32-bit `int` computations of `biasedSampling` are exact on this input: the sum `K` of
the sizes, every product `N * sizes[c]`, and the product `N * K`. -/
def NoOverflow (data : List MyDatum) (sizes : List Int) : Prop :=
  fits32 sizes.sum ∧ (∀ sz ∈ sizes, fits32 (data.length * sz)) ∧
    fits32 (data.length * sizes.sum)

instance (data : List MyDatum) (sizes : List Int) : Decidable (NoOverflow data sizes) := by
  unfold NoOverflow; infer_instance

/-- Number of items of the dataset that carry label `c`. -/
def classCount (data : List MyDatum) (c : Nat) : Nat :=
  data.countP (fun d => decide (d.label = (c : Int)))

/-- The scenario of the spec: three points with labels 0, 0, 1. -/
def threePoints : List MyDatum :=
  [⟨0, [(0, 0)]⟩, ⟨0, [(0, 1)]⟩, ⟨1, [(0, 2)]⟩]

/-- A flow on the network of `threePoints` with class sizes `[2, 1]`, by arc id. -/
def threePointsFlow (k : Nat) : Int :=
  [6, 3, 3, 3, 3, 3, 3, 3, 1, 1, 1, 1, 1, 1, 1, 1, 1].getD k 0

/-- Two points of the single label 0. -/
def twoPoints : List MyDatum := [⟨0, [(0, 1)]⟩, ⟨0, [(1, 2)]⟩]

/-- A flow on the network of `twoPoints` with class sizes `[2]`, by arc id. -/
def twoPointsFlow (k : Nat) : Int := [4, 2, 2, 2, 2, 1, 1, 1, 1].getD k 0

/-- One point of label 0 without features. -/
def onePoint : List MyDatum := [⟨0, []⟩]

/-- The all-zero arc map. -/
def zeroFlow (_ : Nat) : Int := 0

/-- A dataset of 65536 copies of one point. -/
def manyPoints : List MyDatum := List.replicate 65536 ⟨0, []⟩

/-- A dataset of 32768 copies of one point. -/
def halfAsManyPoints : List MyDatum := List.replicate 32768 ⟨0, []⟩

/-- A dataset of 46341 copies of one point of label 0. -/
def singleClassPoints : List MyDatum := List.replicate 46341 ⟨0, []⟩

/-- What the statement `if (!res) cerr << "infeasible" << endl;` writes to the error stream,
`res` being the value of `ns.run()`. -/
def infeasibleMessage (res : Bool) : List String := if res then [] else ["infeasible"]

/-- Function `biasedSampling(data, sizes)` with the outcome of the solver: `res` is what
`ns.run()` reports and `flow` the arc map read by `ns.flowMap(flow)`. The result holds the
lines written to the error stream and the vector `weight` returned to the caller. -/
def biasedSamplingRun (data : List MyDatum) (sizes : List Int) (res : Bool)
    (flow : Nat → Int) : Option (List String × List ℚ) :=
  (biasedSamplingNetwork data sizes).map
    (fun net => (infeasibleMessage res, biasedSamplingWeights net flow))

/-- Function `wasserstein(data1, data2)` with the outcome of the solver: the lines written
to the error stream and the value returned to the caller. -/
def wassersteinRun (data1 data2 : List MyDatum) (res : Bool) (flow : Nat → Int) :
    List String × Option ℚ :=
  (infeasibleMessage res, wasserstein data1 data2 flow)

/-- Node `v` has at least one incoming arc. -/
def hasIncoming (net : Network) (v : Nat) : Prop := ∃ a ∈ net.graph.arcs, a.target = v

/-- Node `v` has at least one outgoing arc. -/
def hasOutgoing (net : Network) (v : Nat) : Prop := ∃ a ∈ net.graph.arcs, a.source = v

instance (net : Network) (v : Nat) : Decidable (hasIncoming net v) := by
  unfold hasIncoming; infer_instance

instance (net : Network) (v : Nat) : Decidable (hasOutgoing net v) := by
  unfold hasOutgoing; infer_instance

/-- Every node other than the source and the sink has at least one incoming arc and at least
one outgoing arc. -/
def InnerNodesConnected (net : Network) : Prop :=
  ∀ v, v < net.graph.nodeNum → v ≠ net.s → v ≠ net.t → hasIncoming net v ∧ hasOutgoing net v

instance (net : Network) : Decidable (InnerNodesConnected net) := by
  unfold InnerNodesConnected; infer_instance

/-- Type `node = pair<size_t, double>` of `NNDescent`: a neighbor index with a distance. -/
abbrev Node := Nat × ℚ

/-- An `unordered_map<size_t, double>`: its entries, with pairwise different keys. The order
in which the C++ map is traversed is unspecified; the model keeps the order of insertion. -/
abbrev NbhMap := List Node

/-- Member `count` of the map: whether the key is present. -/
def mapCount (m : NbhMap) (key : Nat) : Bool := m.any (fun e => e.1 == key)

/-- Assignment `m[key] = v`: overwrite the entry of the key, or insert a new entry. -/
def mapAssign (m : NbhMap) (key : Nat) (v : ℚ) : NbhMap :=
  if mapCount m key then m.map (fun e => if e.1 = key then (key, v) else e)
  else m ++ [(key, v)]

/-- Assignment `nbh[i][key] = v` in the vector of maps; `none` when `i` is outside the
vector. -/
def assignAt (nbh : List NbhMap) (i key : Nat) (v : ℚ) : Option (List NbhMap) :=
  if i < nbh.length then some (nbh.set i (mapAssign (nbh.getD i []) key v)) else none

/-- Statement `if (!nbh[i].count(j)) nbh[i][j] = nbh[j][i] = v;` of `update`: the right
assignment is made first. -/
def linkPair (nbh : List NbhMap) (i j : Nat) (v : ℚ) : Option (List NbhMap) :=
  match nbh[i]? with
  | none => none
  | some m =>
    if mapCount m j then some nbh
    else (assignAt nbh j i v).bind (fun t => assignAt t i j v)

/-- Inner loop `for (b < a)` of `update` for the neighbor `j = adj[i][a].first`: the list
holds the entries `adj[i][0 .. a-1]`. -/
def joinEarlier (d : Nat → Nat → ℚ) (j : Nat) : List Node → List NbhMap → Option (List NbhMap)
  | [], nbh => some nbh
  | e :: rest, nbh => (linkPair nbh j e.1 (d j e.1)).bind (joinEarlier d j rest)

/-- Loop `for (a < adj[i].size())` of `update` for item `i`: the first list holds the
entries of `adj[i]` already visited, the second those still to visit. -/
def gatherItem (d : Nat → Nat → ℚ) (i : Nat) :
    List Node → List Node → List NbhMap → Option (List NbhMap)
  | _, [], nbh => some nbh
  | earlier, e :: rest, nbh =>
    (linkPair nbh i e.1 e.2).bind (fun t =>
      (joinEarlier d e.1 earlier t).bind (gatherItem d i (earlier ++ [e]) rest))

/-- First loop `for (i < n)` of `update`, from item `i` on: the list holds `adj[i ..]`. -/
def gatherFrom (d : Nat → Nat → ℚ) : Nat → List (List Node) → List NbhMap → Option (List NbhMap)
  | _, [], nbh => some nbh
  | i, row :: rows, nbh => (gatherItem d i [] row nbh).bind (gatherFrom d (i + 1) rows)

/-- The candidate pools `nbh` that `update` gathers from the candidate sets `adj`, where
`n = adj.size()`. -/
def gatherPools (d : Nat → Nat → ℚ) (adj : List (List Node)) : Option (List NbhMap) :=
  gatherFrom d 0 adj (List.replicate adj.length [])

/-- Order of two nodes by distance: the comparator of `partial_sort` is its strict part. -/
def byDistance (a b : Node) : Prop := a.2 ≤ b.2

instance : DecidableRel byDistance := fun a b => inferInstanceAs (Decidable (a.2 ≤ b.2))

instance : IsTotal Node byDistance := ⟨fun a b => le_total a.2 b.2⟩

instance : IsTrans Node byDistance := ⟨fun _ _ _ h₁ h₂ => le_trans h₁ h₂⟩

/-- Call `partial_sort(knbh.begin(), knbh.begin() + k, knbh.end(), cmp)`: the first `k`
places receive the `k` entries of least distance in non-decreasing order; `none` when the
vector has fewer than `k` entries. The order the C++ leaves among equal distances and behind
place `k` is unspecified; the model sorts the whole vector, equal distances in the order
they had. -/
def partialSort (k : Nat) (knbh : List Node) : Option (List Node) :=
  if k ≤ knbh.length then some (List.insertionSort byDistance knbh) else none

/-- Loop `for (j < k)` of `update` for one item: `cont` becomes true when a distance stored
in `adj[i][j]` differs from the one of `knbh[j]`, and `adj[i][j] = knbh[j]`; `none` when
`adj[i]` has fewer than `k` entries. -/
def overwriteFirst (k : Nat) (row knbh : List Node) : Option (List Node × Bool) :=
  if k ≤ row.length then
    some (knbh.take k ++ row.drop k,
      (List.zip (row.take k) (knbh.take k)).any (fun p => decide (p.1.2 ≠ p.2.2)))
  else none

/-- Body of the second loop of `update` for one item with candidate set `row` and pool
`pool`. -/
def selectItem (k : Nat) (row : List Node) (pool : NbhMap) : Option (List Node × Bool) :=
  (partialSort k pool).bind (overwriteFirst k row)

/-- Second loop `for (i < n)` of `update`: the new candidate sets and the flag `cont`. -/
def selectAll (k : Nat) : List (List Node) → List NbhMap → Option (List (List Node) × Bool)
  | [], _ => some ([], false)
  | _ :: _, [] => none
  | row :: rows, pool :: pools =>
    (selectItem k row pool).bind (fun r =>
      (selectAll k rows pools).map (fun rs => (r.1 :: rs.1, r.2 || rs.2)))

/-- Method `NNDescent::update()` on the candidate sets `adj`: the new candidate sets and the
returned flag; `none` when an index leaves its vector. -/
def update (k : Nat) (d : Nat → Nat → ℚ) (adj : List (List Node)) :
    Option (List (List Node) × Bool) :=
  (gatherPools d adj).bind (selectAll k adj)

/-- Loop `while (adj[i].size() < k)` of the constructor for item `i`: `draws` are the values
`rand()` returns, in order, and the result holds `adj[i]` and the draws not used. The
result is `none` when the draws run out before `adj[i]` has `k` entries. -/
def initItem (n k : Nat) (d : Nat → Nat → ℚ) (i : Nat) : List Nat → List Node →
    Option (List Node × List Nat)
  | [], cur => if cur.length < k then none else some (cur, [])
  | r :: rest, cur =>
    if cur.length < k then
      if i ≠ r % n then initItem n k d i rest (cur ++ [(r % n, d i (r % n))])
      else initItem n k d i rest cur
    else some (cur, r :: rest)

/-- Loop `for (i < n)` of the constructor over the items `i, i + 1, ...`, `m` of them. -/
def initFrom (n k : Nat) (d : Nat → Nat → ℚ) : Nat → Nat → List Nat →
    Option (List (List Node) × List Nat)
  | 0, _, draws => some ([], draws)
  | m + 1, i, draws =>
    (initItem n k d i draws []).bind (fun r =>
      (initFrom n k d m (i + 1) r.2).map (fun rs => (r.1 :: rs.1, rs.2)))

/-- The random initialization of the constructor: the candidate sets `adj` of the `n`
items. -/
def initAdj (n k : Nat) (d : Nat → Nat → ℚ) (draws : List Nat) : Option (List (List Node)) :=
  (initFrom n k d n 0 draws).map Prod.fst

/-- Loop `for (iter = 0; iter < cap && update(); ++iter);` of the constructor, with `cap`
rounds still allowed. -/
def refineLoop (k : Nat) (d : Nat → Nat → ℚ) : Nat → List (List Node) → Option (List (List Node))
  | 0, adj => some adj
  | cap + 1, adj =>
    match update k d adj with
    | none => none
    | some (adj', cont) => if cont then refineLoop k d cap adj' else some adj'

/-- Constructor `NNDescent(n, k, d)`: the candidate sets `adj` it leaves, for the values
`draws` of `rand()`. -/
def NNDescent (n k : Nat) (d : Nat → Nat → ℚ) (draws : List Nat) : Option (List (List Node)) :=
  (initAdj n k d draws).bind (refineLoop k d 20)

/-- Method `nbh(i)`: the neighbor indices of item `i`. -/
def NNDescent.nbh (adj : List (List Node)) (i : Nat) : List Nat :=
  (adj.getD i []).map Prod.fst

/-- The keys of a list of nodes: the neighbor indices. -/
def keys (m : List Node) : List Nat := m.map Prod.fst

/-- The entries of `row`, the candidate set or the pool of item `i` among `n` items, have
pairwise distinct neighbor indices, all different from `i` and below `n`, each with the
distance `d(i, j)`. -/
def RowOk (n : Nat) (d : Nat → Nat → ℚ) (i : Nat) (row : List Node) : Prop :=
  (keys row).Nodup ∧ ∀ e ∈ row, e.1 ≠ i ∧ e.1 < n ∧ e.2 = d i e.1

instance (n : Nat) (d : Nat → Nat → ℚ) (i : Nat) (row : List Node) :
    Decidable (RowOk n d i row) := by
  unfold RowOk; infer_instance

/-- Every candidate set of `adj`, one per item, holds exactly `k` entries `(j, d(i, j))`
with pairwise distinct neighbor indices, all different from `i`. -/
def CandidateInv (n k : Nat) (d : Nat → Nat → ℚ) (adj : List (List Node)) : Prop :=
  adj.length = n ∧ ∀ i, i < n → (adj.getD i []).length = k ∧ RowOk n d i (adj.getD i [])

instance (n k : Nat) (d : Nat → Nat → ℚ) (adj : List (List Node)) :
    Decidable (CandidateInv n k d adj) := by
  unfold CandidateInv; infer_instance

/-- Every pool of `nbh`, one per item, holds entries `(j, d(i, j))` with pairwise distinct
neighbor indices, all different from `i`. -/
def PoolsInv (n : Nat) (d : Nat → Nat → ℚ) (nbh : List NbhMap) : Prop :=
  nbh.length = n ∧ ∀ i, i < n → RowOk n d i (nbh.getD i [])

/-- No key is lost from `nbh` to `nbh'`. -/
def KeysLe (nbh nbh' : List NbhMap) : Prop :=
  ∀ i key, key ∈ keys (nbh.getD i []) → key ∈ keys (nbh'.getD i [])

/-- The candidate set `row'` is a selection of the `k` entries of least distance of `pool`,
in non-decreasing order of distance: the pool is `row'` followed, in some order, by entries
each at least as far as every entry kept. -/
def SelectedFrom (k : Nat) (row' : List Node) (pool : NbhMap) : Prop :=
  row'.length = k ∧ List.Sorted byDistance row' ∧
    ∃ rest, List.Perm pool (row' ++ rest) ∧ ∀ e ∈ rest, ∀ e' ∈ row', e'.2 ≤ e.2

/-- Every candidate set of `adj` has exactly `k` entries. -/
def RowsLen (k : Nat) (adj : List (List Node)) : Prop := ∀ row ∈ adj, row.length = k

instance (k : Nat) (adj : List (List Node)) : Decidable (RowsLen k adj) := by
  unfold RowsLen; infer_instance

/-- What the random initialization guarantees: one candidate set per item, each of exactly
`k` entries `(j, d(i, j))` with `j` an item other than `i`. -/
def InitOk (n k : Nat) (d : Nat → Nat → ℚ) (adj : List (List Node)) : Prop :=
  adj.length = n ∧ ∀ i, i < n → (adj.getD i []).length = k ∧
    ∀ e ∈ adj.getD i [], e.1 ≠ i ∧ e.1 < n ∧ e.2 = d i e.1

/-- The state after `m` calls of `update()` in a row, with the flag the last call returned
(the flag given when `m = 0`). -/
def roundsFrom (k : Nat) (d : Nat → Nat → ℚ) : Nat → List (List Node) × Bool →
    Option (List (List Node) × Bool)
  | 0, s => some s
  | m + 1, s => (update k d s.1).bind (roundsFrom k d m)

/-- The distance stored at place `j` of a candidate set. -/
def distanceAt (row : List Node) (j : Nat) : ℚ := (row.getD j (0, 0)).2

/-- The `k`-th smallest distance of a candidate set. -/
def kthSmallest (k : Nat) (row : List Node) : ℚ :=
  distanceAt (List.insertionSort byDistance row) (k - 1)

/-- The largest distance of a candidate set (0 for the empty set). -/
def maxDistance (row : List Node) : ℚ :=
  match row with
  | [] => 0
  | e :: rest => rest.foldl (fun m x => max m x.2) e.2

/-- The squared difference of two indices, a symmetric distance on the items. -/
def dSq (i j : Nat) : ℚ := (((i : Int) - j) * ((i : Int) - j) : Int)

/-- Values of `rand()` for three items and `k = 2` that give item 0 the neighbor 1 twice. -/
def repeatedDraws : List Nat := [1, 1, 0, 2, 0, 1]

/-- The candidate sets the initialization leaves on `repeatedDraws`. -/
def repeatedAdj : List (List Node) := [[(1, 1), (1, 1)], [(0, 1), (2, 1)], [(0, 4), (1, 1)]]

/-- Values of `rand()` for three items and `k = 2` that give every item its two neighbors,
item 0 the farther one first. -/
def distinctDraws : List Nat := [2, 1, 0, 2, 0, 1]

/-- The candidate sets the initialization leaves on `distinctDraws`. -/
def distinctAdj : List (List Node) := [[(2, 4), (1, 1)], [(0, 1), (2, 1)], [(0, 4), (1, 1)]]

/-- The candidate sets after one round from `distinctAdj`. -/
def sortedAdj : List (List Node) := [[(1, 1), (2, 4)], [(0, 1), (2, 1)], [(1, 1), (0, 4)]]

theorem distanceLoop_self (x : MyFeature) (s : ℚ) : distanceLoop x x s = s := by
  induction x generalizing s with
  | nil => simp [distanceLoop]
  | cons a t ih => 
    rw [distanceLoop]
    simp [square, ih]

theorem distanceLoop_comm (x y : MyFeature) (s : ℚ) :
    distanceLoop x y s = distanceLoop y x s := by
  induction x, y, s using distanceLoop.induct with
  | case1 s => rfl
  | case2 yj ys s ih =>
    conv_lhs => rw [distanceLoop]
    conv_rhs => rw [distanceLoop]
    exact ih
  | case3 xi xs s ih =>
    conv_lhs => rw [distanceLoop]
    conv_rhs => rw [distanceLoop]
    exact ih
  | case4 xi xs yj ys s h ih =>
    conv_lhs => rw [distanceLoop, if_pos h, ih]
    conv_rhs => rw [distanceLoop]
    have h1 : ¬ yj.1 < xi.1 := by omega
    simp [h1, h]
  | case5 xi xs yj ys s h h2 ih =>
    conv_lhs => rw [distanceLoop, if_neg h, if_pos h2, ih]
    conv_rhs => rw [distanceLoop]
    have h1 : yj.1 < xi.1 := by omega
    simp [h1]
  | case6 xi xs yj ys s h h2 ih =>
    conv_lhs => rw [distanceLoop, if_neg h, if_neg h2, ih]
    conv_rhs => rw [distanceLoop]
    have h1 : ¬ yj.1 < xi.1 := by omega
    have h3 : ¬ yj.1 > xi.1 := by omega
    rw [if_neg h1, if_neg h3]
    congr 2
    simp only [square]; ring

theorem valueAt_of_not_mem (x : MyFeature) (k : Int) (h : k ∉ indexSet x) :
    valueAt x k = 0 := by
  induction x with
  | nil => simp [valueAt]
  | cons a t ih =>
    obtain ⟨i, v⟩ := a
    simp only [indexSet, List.map_cons, List.toFinset_cons, Finset.mem_insert, not_or] at h
    have hne : (k == i) = false := by simpa using h.1
    have := ih (by simpa [indexSet] using h.2)
    simpa [valueAt, List.lookup_cons, hne] using this

theorem valueAt_cons_self (i : Int) (v : ℚ) (t : MyFeature) :
    valueAt ((i, v) :: t) i = v := by
  simp [valueAt, List.lookup_cons]

theorem valueAt_cons_of_ne (i : Int) (v : ℚ) (t : MyFeature) (k : Int) (h : k ≠ i) :
    valueAt ((i, v) :: t) k = valueAt t k := by
  have hne : (k == i) = false := by simpa using h
  simp [valueAt, List.lookup_cons, hne]

theorem indexSet_cons (a : Int × ℚ) (t : MyFeature) :
    indexSet (a :: t) = insert a.1 (indexSet t) := by
  simp [indexSet]

theorem StrictlyIncreasing.tail {a : Int × ℚ} {t : MyFeature}
    (h : StrictlyIncreasing (a :: t)) : StrictlyIncreasing t := by
  unfold StrictlyIncreasing at h ⊢
  simp only [List.map_cons, List.pairwise_cons] at h
  exact h.2

theorem StrictlyIncreasing.head_lt {a : Int × ℚ} {t : MyFeature}
    (h : StrictlyIncreasing (a :: t)) : ∀ k ∈ indexSet t, a.1 < k := by
  unfold StrictlyIncreasing at h
  simp only [List.map_cons, List.pairwise_cons] at h
  intro k hk
  exact h.1 k (by simpa [indexSet] using hk)

theorem distanceRef_cons_left (a : Int × ℚ) (xs y : MyFeature)
    (hx : a.1 ∉ indexSet xs) (hy : a.1 ∉ indexSet y) :
    distanceRef (a :: xs) y = a.2 ^ 2 + distanceRef xs y := by
  obtain ⟨i, v⟩ := a
  simp only at hx hy
  unfold distanceRef
  rw [indexSet_cons, Finset.insert_union, Finset.sum_insert (by simp [hx, hy])]
  rw [valueAt_cons_self, valueAt_of_not_mem y i hy, sub_zero]
  congr 1
  apply Finset.sum_congr rfl
  intro k hk
  have hne : k ≠ i := by
    rintro rfl
    rcases Finset.mem_union.1 hk with h | h
    · exact hx h
    · exact hy h
  rw [valueAt_cons_of_ne i v xs k hne]

theorem distanceRef_cons_right (b : Int × ℚ) (x ys : MyFeature)
    (hx : b.1 ∉ indexSet x) (hy : b.1 ∉ indexSet ys) :
    distanceRef x (b :: ys) = b.2 ^ 2 + distanceRef x ys := by
  obtain ⟨i, v⟩ := b
  simp only at hx hy
  unfold distanceRef
  rw [indexSet_cons, Finset.union_insert, Finset.sum_insert (by simp [hx, hy])]
  rw [valueAt_cons_self, valueAt_of_not_mem x i hx, zero_sub, neg_sq]
  congr 1
  apply Finset.sum_congr rfl
  intro k hk
  have hne : k ≠ i := by
    rintro rfl
    rcases Finset.mem_union.1 hk with h | h
    · exact hx h
    · exact hy h
  rw [valueAt_cons_of_ne i v ys k hne]

theorem distanceRef_cons_both (i : Int) (v w : ℚ) (xs ys : MyFeature)
    (hx : i ∉ indexSet xs) (hy : i ∉ indexSet ys) :
    distanceRef ((i, v) :: xs) ((i, w) :: ys) = (v - w) ^ 2 + distanceRef xs ys := by
  unfold distanceRef
  rw [indexSet_cons, indexSet_cons, Finset.insert_union, Finset.union_insert,
    Finset.insert_idem, Finset.sum_insert (by simp [hx, hy])]
  rw [valueAt_cons_self, valueAt_cons_self]
  congr 1
  apply Finset.sum_congr rfl
  intro k hk
  have hne : k ≠ i := by
    rintro rfl
    rcases Finset.mem_union.1 hk with h | h
    · exact hx h
    · exact hy h
  rw [valueAt_cons_of_ne i v xs k hne, valueAt_cons_of_ne i w ys k hne]

theorem StrictlyIncreasing.head_not_mem {a : Int × ℚ} {t : MyFeature}
    (h : StrictlyIncreasing (a :: t)) : a.1 ∉ indexSet t := fun hk =>
  lt_irrefl _ (h.head_lt _ hk)

theorem distanceLoop_eq_ref (x y : MyFeature) (s : ℚ)
    (hx : StrictlyIncreasing x) (hy : StrictlyIncreasing y) :
    distanceLoop x y s = s + distanceRef x y := by
  induction x, y, s using distanceLoop.induct with
  | case1 s => simp [distanceLoop, distanceRef, indexSet]
  | case2 yj ys s ih =>
    rw [distanceLoop, ih hx hy.tail,
      distanceRef_cons_right yj [] ys (by simp [indexSet]) hy.head_not_mem]
    simp only [square]; ring
  | case3 xi xs s ih =>
    rw [distanceLoop, ih hx.tail hy,
      distanceRef_cons_left xi xs [] hx.head_not_mem (by simp [indexSet])]
    simp only [square]; ring
  | case4 xi xs yj ys s h ih =>
    rw [distanceLoop, if_pos h, ih hx.tail hy]
    have hn : xi.1 ∉ indexSet (yj :: ys) := by
      rw [indexSet_cons, Finset.mem_insert, not_or]
      exact ⟨ne_of_lt h, fun hk => lt_asymm h (hy.head_lt _ hk)⟩
    rw [distanceRef_cons_left xi xs _ hx.head_not_mem hn]
    simp only [square]; ring
  | case5 xi xs yj ys s h h2 ih =>
    rw [distanceLoop, if_neg h, if_pos h2, ih hx hy.tail]
    have hn : yj.1 ∉ indexSet (xi :: xs) := by
      rw [indexSet_cons, Finset.mem_insert, not_or]
      exact ⟨ne_of_lt h2, fun hk => lt_asymm h2 (hx.head_lt _ hk)⟩
    rw [distanceRef_cons_right yj _ ys hn hy.head_not_mem]
    simp only [square]; ring
  | case6 xi xs yj ys s h h2 ih =>
    rw [distanceLoop, if_neg h, if_neg h2, ih hx.tail hy.tail]
    obtain ⟨i, v⟩ := xi
    obtain ⟨j, w⟩ := yj
    have hij : i = j := by simp only at h h2; omega
    subst hij
    rw [distanceRef_cons_both i v w xs ys hx.head_not_mem hy.head_not_mem]
    simp only [square]; ring

theorem addIntermediate_eq (N : Int) (s : Nat) (sizes : List Int) (g : SmartDigraph)
    (inter : List Nat) :
    addIntermediate N s sizes (g, inter) =
      (⟨g.nodeNum + sizes.length,
        g.arcs ++ (sizes.enumFrom g.nodeNum).map (fun p => ⟨s, p.1, wrap32 (N * p.2), 0⟩)⟩,
       inter ++ List.range' g.nodeNum sizes.length) := by
  induction sizes generalizing g inter with
  | nil => simp [addIntermediate]
  | cons sz rest ih =>
    simp only [addIntermediate, SmartDigraph.addNode, SmartDigraph.addArc, ih]
    simp [List.range'_succ, Nat.add_assoc, Nat.add_comm 1]

theorem addLeft_eq (N : Int) (inter : List Nat) (base : Nat) (data : List MyDatum)
    (h : ∀ d ∈ data, 0 ≤ d.label ∧ inter[d.label.toNat]? = some (base + d.label.toNat))
    (g : SmartDigraph) (left inc : List Nat) :
    addLeft N inter data (g, left, inc) =
      some (⟨g.nodeNum + data.length,
        g.arcs ++ (data.enumFrom g.nodeNum).map
          (fun p => ⟨base + p.2.label.toNat, p.1, N, 0⟩)⟩,
       left ++ List.range' g.nodeNum data.length,
       inc ++ List.range' g.arcs.length data.length) := by
  induction data generalizing g left inc with
  | nil => simp [addLeft]
  | cons d rest ih =>
    have hd := h d (List.mem_cons_self _ _)
    have hrest : ∀ e ∈ rest, 0 ≤ e.label ∧ inter[e.label.toNat]? = some (base + e.label.toNat) :=
      fun e he => h e (List.mem_cons_of_mem _ he)
    simp only [addLeft, SmartDigraph.addNode, SmartDigraph.addArc, hd.1, if_true, hd.2,
      ih hrest]
    simp [List.range'_succ, Nat.add_assoc, Nat.add_comm 1]

theorem addRight_eq (cap : Int) (t : Nat) (data : List MyDatum) (g : SmartDigraph)
    (right : List Nat) :
    addRight cap t data (g, right) =
      (⟨g.nodeNum + data.length,
        g.arcs ++ (data.enumFrom g.nodeNum).map (fun p => ⟨p.1, t, cap, 0⟩)⟩,
       right ++ List.range' g.nodeNum data.length) := by
  induction data generalizing g right with
  | nil => simp [addRight]
  | cons d rest ih =>
    simp only [addRight, SmartDigraph.addNode, SmartDigraph.addArc, ih]
    simp [List.range'_succ, Nat.add_assoc, Nat.add_comm 1]

theorem addLeftW_eq (cap : Int) (s : Nat) (data : List MyDatum) (g : SmartDigraph)
    (left inc : List Nat) :
    addLeftW cap s data (g, left, inc) =
      (⟨g.nodeNum + data.length,
        g.arcs ++ (data.enumFrom g.nodeNum).map (fun p => ⟨s, p.1, cap, 0⟩)⟩,
       left ++ List.range' g.nodeNum data.length,
       inc ++ List.range' g.arcs.length data.length) := by
  induction data generalizing g left inc with
  | nil => simp [addLeftW]
  | cons d rest ih =>
    simp only [addLeftW, SmartDigraph.addNode, SmartDigraph.addArc, ih]
    simp [List.range'_succ, Nat.add_assoc, Nat.add_comm 1]

theorem addCrossRow_eq (cap : Int) (li : Nat) (fi : MyFeature) (rights : List (Nat × MyDatum))
    (g : SmartDigraph) :
    addCrossRow cap li fi rights g =
      ⟨g.nodeNum, g.arcs ++ rights.map (fun q => ⟨li, q.1, cap, distance fi q.2.feature⟩)⟩ := by
  induction rights generalizing g with
  | nil => simp [addCrossRow]
  | cons q rest ih =>
    obtain ⟨rj, dj⟩ := q
    simp [addCrossRow, SmartDigraph.addArc, ih]

theorem addCross_eq (cap : Int) (rights lefts : List (Nat × MyDatum)) (g : SmartDigraph) :
    addCross cap rights lefts g =
      ⟨g.nodeNum, g.arcs ++ lefts.flatMap (fun p => rights.map (fun q =>
        ⟨p.1, q.1, cap, distance p.2.feature q.2.feature⟩))⟩ := by
  induction lefts generalizing g with
  | nil => simp [addCross]
  | cons p rest ih =>
    obtain ⟨li, di⟩ := p
    simp [addCross, addCrossRow_eq, ih]

theorem zip_rangeFrom_eq_enumFrom (b : Nat) (data : List MyDatum) :
    (List.range' b data.length).zip data = data.enumFrom b := by
  rw [List.enumFrom_eq_zip_range']

theorem getElem_rangeFrom_two (L c : Nat) (h : c < L) :
    (List.range' 2 L)[c]? = some (2 + c) := by
  simp [List.getElem?_range', h]

theorem biasedSamplingNetwork_eq (data : List MyDatum) (sizes : List Int)
    (hlab : ∀ d ∈ data, 0 ≤ d.label ∧ d.label < sizes.length) :
    biasedSamplingNetwork data sizes =
      some (layeredNetwork data sizes (fun sz => wrap32 (data.length * sz)) data.length
        (sumSizes sizes) (wrap32 (data.length * sumSizes sizes))) := by
  have h : ∀ d ∈ data, 0 ≤ d.label ∧
      (List.range' 2 sizes.length)[d.label.toNat]? = some (2 + d.label.toNat) := by
    intro d hd
    obtain ⟨h0, h1⟩ := hlab d hd
    exact ⟨h0, getElem_rangeFrom_two _ _ (by omega)⟩
  simp only [biasedSamplingNetwork, SmartDigraph.addNode, addIntermediate_eq, List.nil_append,
    addLeft_eq _ _ 2 data h, addRight_eq, addCross_eq, zip_rangeFrom_eq_enumFrom, layeredNetwork]
  simp [Nat.add_assoc]

theorem arcSumFrom_append {M : Type} [AddCommMonoid M] (φ : Arc → Int → M) (f : Nat → Int)
    (k : Nat) (l₁ l₂ : List Arc) :
    arcSumFrom φ f k (l₁ ++ l₂) = arcSumFrom φ f k l₁ + arcSumFrom φ f (k + l₁.length) l₂ := by
  induction l₁ generalizing k with
  | nil => simp [arcSumFrom]
  | cons a t ih =>
    have h : k + (t.length + 1) = k + 1 + t.length := by omega
    show arcSumFrom φ f k (a :: (t ++ l₂)) = _
    rw [arcSumFrom, arcSumFrom, ih, List.length_cons, h]
    exact (add_assoc _ _ _).symm

theorem arcSumFrom_map_enumFrom {M : Type} [AddCommMonoid M] {α : Type} (d : α)
    (φ : Arc → Int → M) (f : Nat → Int) (A : Nat × α → Arc) (l : List α) (b k : Nat) :
    arcSumFrom φ f k ((l.enumFrom b).map A) =
      ∑ i in Finset.range l.length, φ (A (b + i, l.getD i d)) (f (k + i)) := by
  induction l generalizing b k with
  | nil => simp [arcSumFrom]
  | cons a t ih =>
    have hb : ∀ i, b + 1 + i = b + (i + 1) := fun i => by omega
    have hk : ∀ i, k + 1 + i = k + (i + 1) := fun i => by omega
    simp only [List.enumFrom_cons, List.map_cons, arcSumFrom, ih, List.length_cons, hb, hk]
    rw [Finset.sum_range_succ', add_comm]
    simp

theorem arcSumFrom_flatMap_enumFrom {M : Type} [AddCommMonoid M] {α β : Type} (d : α) (e : β)
    (φ : Arc → Int → M) (f : Nat → Int) (A : Nat × α → Nat × β → Arc)
    (l₁ : List α) (l₂ : List β) (b₁ b₂ k : Nat) :
    arcSumFrom φ f k ((l₁.enumFrom b₁).flatMap (fun p => (l₂.enumFrom b₂).map (A p))) =
      ∑ i in Finset.range l₁.length, ∑ j in Finset.range l₂.length,
        φ (A (b₁ + i, l₁.getD i d) (b₂ + j, l₂.getD j e)) (f (k + i * l₂.length + j)) := by
  induction l₁ generalizing b₁ k with
  | nil => simp [arcSumFrom]
  | cons a t ih =>
    have hb : ∀ i, b₁ + 1 + i = b₁ + (i + 1) := fun i => by omega
    have hk : ∀ i, k + l₂.length + i * l₂.length = k + (i + 1) * l₂.length := fun i => by ring
    simp only [List.enumFrom_cons, List.flatMap_cons, arcSumFrom_append, ih, List.length_cons,
      List.length_map, List.enumFrom_length, arcSumFrom_map_enumFrom e, hb, hk]
    rw [Finset.sum_range_succ', add_comm]
    simp

theorem excess_layered (data : List MyDatum) (sizes : List Int) (capS : Int → Int)
    (capL capR capX : Int) (f : Nat → Int) (v : Nat) :
    excess (layeredNetwork data sizes capS capL capR capX) f v =
      (∑ c in Finset.range sizes.length,
        ((if 0 = v then f c else 0) - (if 2 + c = v then f c else 0)))
      + (∑ i in Finset.range data.length,
        ((if 2 + labelAt data i = v then f (sizes.length + i) else 0)
          - (if 2 + sizes.length + i = v then f (sizes.length + i) else 0)))
      + (∑ j in Finset.range data.length,
        ((if 2 + sizes.length + data.length + j = v then f (sizes.length + data.length + j)
            else 0)
          - (if 1 = v then f (sizes.length + data.length + j) else 0)))
      + (∑ i in Finset.range data.length, ∑ j in Finset.range data.length,
        ((if 2 + sizes.length + i = v
            then f (sizes.length + data.length + data.length + i * data.length + j) else 0)
          - (if 2 + sizes.length + data.length + j = v
            then f (sizes.length + data.length + data.length + i * data.length + j)
            else 0))) := by
  simp only [excess, layeredNetwork, arcSumFrom_append, List.length_append, List.length_map,
    List.enumFrom_length, arcSumFrom_map_enumFrom (0 : Int), arcSumFrom_map_enumFrom (⟨0, []⟩ : MyDatum),
    arcSumFrom_flatMap_enumFrom (⟨0, []⟩ : MyDatum) (⟨0, []⟩ : MyDatum), netOut, labelAt,
    Nat.zero_add]

theorem excess_layered_source (data : List MyDatum) (sizes : List Int) (capS : Int → Int)
    (capL capR capX : Int) (f : Nat → Int) :
    excess (layeredNetwork data sizes capS capL capR capX) f 0 =
      ∑ c in Finset.range sizes.length, f c := by
  rw [excess_layered]
  have h1 : ∀ x : Nat, ¬ (2 + x = 0) := fun x => by omega
  have h2 : ∀ x y : Nat, ¬ (2 + x + y = 0) := fun x y => by omega
  have h3 : ∀ x y z : Nat, ¬ (2 + x + y + z = 0) := fun x y z => by omega
  simp [h1, h2, h3]

theorem excess_layered_sink (data : List MyDatum) (sizes : List Int) (capS : Int → Int)
    (capL capR capX : Int) (f : Nat → Int) :
    excess (layeredNetwork data sizes capS capL capR capX) f 1 =
      - ∑ j in Finset.range data.length, f (sizes.length + data.length + j) := by
  rw [excess_layered]
  have h1 : ∀ x : Nat, ¬ (2 + x = 1) := fun x => by omega
  have h2 : ∀ x y : Nat, ¬ (2 + x + y = 1) := fun x y => by omega
  have h3 : ∀ x y z : Nat, ¬ (2 + x + y + z = 1) := fun x y z => by omega
  simp [h1, h2, h3]

theorem excess_layered_inter (data : List MyDatum) (sizes : List Int) (capS : Int → Int)
    (capL capR capX : Int) (f : Nat → Int) (c : Nat) (hc : c < sizes.length) :
    excess (layeredNetwork data sizes capS capL capR capX) f (2 + c) =
      (∑ i in Finset.range data.length,
        if labelAt data i = c then f (sizes.length + i) else 0) - f c := by
  rw [excess_layered]
  have h1 : ∀ x : Nat, ¬ (0 = 2 + x) := fun x => by omega
  have h2 : ∀ x : Nat, ¬ (1 = 2 + x) := fun x => by omega
  have h3 : ∀ y : Nat, ¬ (2 + sizes.length + y = 2 + c) := fun y => by omega
  have h4 : ∀ y z : Nat, ¬ (2 + sizes.length + y + z = 2 + c) := fun y z => by omega
  simp only [h1, h2, h3, h4, if_false, sub_zero, Finset.sum_const_zero, add_zero,
    add_right_inj, zero_sub, Finset.sum_neg_distrib, Finset.sum_ite_eq', Finset.mem_range, hc,
    if_true]
  ring

theorem excess_layered_left (data : List MyDatum) (sizes : List Int) (capS : Int → Int)
    (capL capR capX : Int) (f : Nat → Int) (hlab : ∀ i < data.length, labelAt data i < sizes.length)
    (i : Nat) (hi : i < data.length) :
    excess (layeredNetwork data sizes capS capL capR capX) f (2 + sizes.length + i) =
      (∑ j in Finset.range data.length,
        f (sizes.length + data.length + data.length + i * data.length + j))
      - f (sizes.length + i) := by
  rw [excess_layered]
  have h1 : ¬ (0 = 2 + sizes.length + i) := by omega
  have h2 : ¬ (1 = 2 + sizes.length + i) := by omega
  have h3 : ∀ x ∈ Finset.range sizes.length, ¬ (2 + x = 2 + sizes.length + i) := fun x hx => by
    have := Finset.mem_range.1 hx; omega
  have h4 : ∀ x ∈ Finset.range data.length, ¬ (2 + labelAt data x = 2 + sizes.length + i) :=
    fun x hx => by
      have := hlab x (Finset.mem_range.1 hx); omega
  have h5 : ∀ y : Nat, ¬ (2 + sizes.length + data.length + y = 2 + sizes.length + i) :=
    fun y => by omega
  have e1 : (∑ c in Finset.range sizes.length,
      ((if 0 = 2 + sizes.length + i then f c else 0)
        - (if 2 + c = 2 + sizes.length + i then f c else 0))) = 0 :=
    Finset.sum_eq_zero (fun x hx => by simp [h1, h3 x hx])
  have e2 : (∑ x in Finset.range data.length,
      ((if 2 + labelAt data x = 2 + sizes.length + i then f (sizes.length + x) else 0)
        - (if 2 + sizes.length + x = 2 + sizes.length + i then f (sizes.length + x) else 0)))
      = - f (sizes.length + i) := by
    rw [Finset.sum_congr rfl (fun x hx => by rw [if_neg (h4 x hx), zero_sub])]
    simp [Finset.sum_ite_eq', hi]
  rw [e1, e2]
  simp only [h2, h5, if_false, sub_zero, Finset.sum_const_zero, add_zero, add_right_inj,
    Finset.sum_ite_irrel, Finset.sum_ite_eq', Finset.mem_range, hi, if_true]
  ring

theorem excess_layered_right (data : List MyDatum) (sizes : List Int) (capS : Int → Int)
    (capL capR capX : Int) (f : Nat → Int) (hlab : ∀ i < data.length, labelAt data i < sizes.length)
    (j : Nat) (hj : j < data.length) :
    excess (layeredNetwork data sizes capS capL capR capX) f
        (2 + sizes.length + data.length + j) =
      f (sizes.length + data.length + j)
      - ∑ i in Finset.range data.length,
        f (sizes.length + data.length + data.length + i * data.length + j) := by
  rw [excess_layered]
  have h1 : ¬ (0 = 2 + sizes.length + data.length + j) := by omega
  have h2 : ¬ (1 = 2 + sizes.length + data.length + j) := by omega
  have h3 : ∀ x ∈ Finset.range sizes.length,
      ¬ (2 + x = 2 + sizes.length + data.length + j) := fun x hx => by
    have := Finset.mem_range.1 hx; omega
  have h4 : ∀ x ∈ Finset.range data.length,
      ¬ (2 + labelAt data x = 2 + sizes.length + data.length + j) :=
    fun x hx => by
      have := hlab x (Finset.mem_range.1 hx); omega
  have h5 : ∀ x ∈ Finset.range data.length,
      ¬ (2 + sizes.length + x = 2 + sizes.length + data.length + j) :=
    fun x hx => by
      have := Finset.mem_range.1 hx; omega
  have e1 : (∑ c in Finset.range sizes.length,
      ((if 0 = 2 + sizes.length + data.length + j then f c else 0)
        - (if 2 + c = 2 + sizes.length + data.length + j then f c else 0))) = 0 :=
    Finset.sum_eq_zero (fun x hx => by simp [h1, h3 x hx])
  have e2 : (∑ x in Finset.range data.length,
      ((if 2 + labelAt data x = 2 + sizes.length + data.length + j
          then f (sizes.length + x) else 0)
        - (if 2 + sizes.length + x = 2 + sizes.length + data.length + j
          then f (sizes.length + x) else 0))) = 0 :=
    Finset.sum_eq_zero (fun x hx => by simp [h4 x hx, h5 x hx])
  have e4 : (∑ i in Finset.range data.length, ∑ y in Finset.range data.length,
      ((if 2 + sizes.length + i = 2 + sizes.length + data.length + j
          then f (sizes.length + data.length + data.length + i * data.length + y) else 0)
        - (if 2 + sizes.length + data.length + y = 2 + sizes.length + data.length + j
          then f (sizes.length + data.length + data.length + i * data.length + y) else 0)))
      = - ∑ i in Finset.range data.length,
        f (sizes.length + data.length + data.length + i * data.length + j) := by
    rw [← Finset.sum_neg_distrib]
    apply Finset.sum_congr rfl
    intro i hi
    rw [Finset.sum_congr rfl (fun y _ => by rw [if_neg (h5 i hi), zero_sub])]
    simp [Finset.sum_ite_eq', hj]
  rw [e1, e2, e4]
  simp only [h2, if_false, sub_zero, add_right_inj, Finset.sum_ite_eq', Finset.mem_range, hj,
    if_true]
  ring

theorem respectsFrom_append (f : Nat → Int) (k : Nat) (l₁ l₂ : List Arc) :
    respectsFrom f k (l₁ ++ l₂) ↔
      respectsFrom f k l₁ ∧ respectsFrom f (k + l₁.length) l₂ := by
  induction l₁ generalizing k with
  | nil => simp [respectsFrom]
  | cons a t ih =>
    have h : k + (t.length + 1) = k + 1 + t.length := by omega
    show respectsFrom f k (a :: (t ++ l₂)) ↔ _
    rw [respectsFrom, respectsFrom, ih, List.length_cons, h]
    tauto

theorem respectsFrom_map_enumFrom {α : Type} (d : α) (f : Nat → Int) (A : Nat × α → Arc)
    (l : List α) (b k : Nat) :
    respectsFrom f k ((l.enumFrom b).map A) ↔
      ∀ i, i < l.length → 0 ≤ f (k + i) ∧ f (k + i) ≤ (A (b + i, l.getD i d)).capacity := by
  induction l generalizing b k with
  | nil => simp [respectsFrom]
  | cons a t ih =>
    have hb : ∀ i, b + 1 + i = b + (i + 1) := fun i => by omega
    have hk : ∀ i, k + 1 + i = k + (i + 1) := fun i => by omega
    simp only [List.enumFrom_cons, List.map_cons, respectsFrom, ih, List.length_cons, hb, hk]
    constructor
    · rintro ⟨h0, h1⟩ i hi
      cases i with
      | zero => simpa using h0
      | succ i => simpa using h1 i (by omega)
    · intro h
      refine ⟨by simpa using h 0 (by omega), fun i hi => ?_⟩
      simpa using h (i + 1) (by omega)

theorem respectsFrom_flatMap_enumFrom {α β : Type} (d : α) (e : β) (f : Nat → Int)
    (A : Nat × α → Nat × β → Arc) (l₁ : List α) (l₂ : List β) (b₁ b₂ k : Nat) :
    respectsFrom f k ((l₁.enumFrom b₁).flatMap (fun p => (l₂.enumFrom b₂).map (A p))) ↔
      ∀ i, i < l₁.length → ∀ j, j < l₂.length →
        0 ≤ f (k + i * l₂.length + j) ∧
        f (k + i * l₂.length + j) ≤
          (A (b₁ + i, l₁.getD i d) (b₂ + j, l₂.getD j e)).capacity := by
  induction l₁ generalizing b₁ k with
  | nil => simp [respectsFrom]
  | cons a t ih =>
    have hb : ∀ i, b₁ + 1 + i = b₁ + (i + 1) := fun i => by omega
    have hk : ∀ i, k + l₂.length + i * l₂.length = k + (i + 1) * l₂.length := fun i => by ring
    simp only [List.enumFrom_cons, List.flatMap_cons, respectsFrom_append, ih, List.length_cons,
      List.length_map, List.enumFrom_length, respectsFrom_map_enumFrom e, hb, hk]
    constructor
    · rintro ⟨h0, h1⟩ i hi
      cases i with
      | zero => simpa using h0
      | succ i => simpa using h1 i (by omega)
    · intro h
      refine ⟨by simpa using h 0 (by omega), fun i hi => ?_⟩
      simpa using h (i + 1) (by omega)

theorem respects_layered (data : List MyDatum) (sizes : List Int) (capS : Int → Int)
    (capL capR capX : Int) (f : Nat → Int) :
    respectsFrom f 0 (layeredNetwork data sizes capS capL capR capX).graph.arcs ↔
      (∀ c, c < sizes.length → 0 ≤ f c ∧ f c ≤ capS (sizes.getD c 0)) ∧
      (∀ i, i < data.length → 0 ≤ f (sizes.length + i) ∧ f (sizes.length + i) ≤ capL) ∧
      (∀ j, j < data.length →
        0 ≤ f (sizes.length + data.length + j) ∧ f (sizes.length + data.length + j) ≤ capR) ∧
      (∀ i, i < data.length → ∀ j, j < data.length →
        0 ≤ f (sizes.length + data.length + data.length + i * data.length + j) ∧
        f (sizes.length + data.length + data.length + i * data.length + j) ≤ capX) := by
  simp only [layeredNetwork, respectsFrom_append, List.length_append, List.length_map,
    List.enumFrom_length, respectsFrom_map_enumFrom (0 : Int),
    respectsFrom_map_enumFrom (⟨0, []⟩ : MyDatum),
    respectsFrom_flatMap_enumFrom (⟨0, []⟩ : MyDatum) (⟨0, []⟩ : MyDatum), Nat.zero_add, and_assoc]

theorem labelAt_lt (data : List MyDatum) (L : Nat)
    (hlab : ∀ d ∈ data, 0 ≤ d.label ∧ d.label < L) :
    ∀ i, i < data.length → labelAt data i < L := by
  intro i hi
  have hmem : data.getD i ⟨0, []⟩ ∈ data := by
    rw [List.getD_eq_getElem _ _ hi]
    exact List.getElem_mem hi
  have := hlab _ hmem
  unfold labelAt
  omega

theorem isFlow_layered_iff (data : List MyDatum) (sizes : List Int) (capS : Int → Int)
    (capL capR capX : Int) (f : Nat → Int) (value : Int)
    (hlab : ∀ i, i < data.length → labelAt data i < sizes.length) :
    IsFlow (layeredNetwork data sizes capS capL capR capX) f value ↔
      LayeredFlow data sizes capS capL capR capX f value := by
  unfold IsFlow LayeredFlow
  rw [respects_layered]
  have hs : (layeredNetwork data sizes capS capL capR capX).s = 0 := rfl
  have ht : (layeredNetwork data sizes capS capL capR capX).t = 1 := rfl
  have hn : (layeredNetwork data sizes capS capL capR capX).graph.nodeNum
      = 2 + sizes.length + data.length + data.length := rfl
  rw [hs, ht, hn, excess_layered_source, excess_layered_sink, neg_inj]
  refine and_congr_right (fun _ => and_congr_right (fun _ => and_congr_right (fun _ => ?_)))
  constructor
  · intro h
    refine ⟨fun c hc => ?_, fun i hi => ?_, fun j hj => ?_⟩
    · have := h (2 + c) (by omega) (by omega) (by omega)
      rw [excess_layered_inter _ _ _ _ _ _ _ _ hc] at this
      linarith
    · have := h (2 + sizes.length + i) (by omega) (by omega) (by omega)
      rw [excess_layered_left _ _ _ _ _ _ _ hlab _ hi] at this
      linarith
    · have := h (2 + sizes.length + data.length + j) (by omega) (by omega) (by omega)
      rw [excess_layered_right _ _ _ _ _ _ _ hlab _ hj] at this
      linarith
  · rintro ⟨h1, h2, h3⟩ v hv hv0 hv1
    by_cases hc : v < 2 + sizes.length
    · obtain ⟨c, rfl⟩ : ∃ c, v = 2 + c := ⟨v - 2, by omega⟩
      rw [excess_layered_inter _ _ _ _ _ _ _ _ (by omega), h1 c (by omega)]
      ring
    · by_cases hi : v < 2 + sizes.length + data.length
      · obtain ⟨i, rfl⟩ : ∃ i, v = 2 + sizes.length + i := ⟨v - (2 + sizes.length), by omega⟩
        rw [excess_layered_left _ _ _ _ _ _ _ hlab _ (by omega), h2 i (by omega)]
        ring
      · obtain ⟨j, rfl⟩ : ∃ j, v = 2 + sizes.length + data.length + j :=
          ⟨v - (2 + sizes.length + data.length), by omega⟩
        rw [excess_layered_right _ _ _ _ _ _ _ hlab _ (by omega), h3 j (by omega)]
        ring

theorem sum_map_rangeFrom {M : Type} [AddCommMonoid M] (g : Nat → M) (b n : Nat) :
    ((List.range' b n).map g).sum = ∑ i in Finset.range n, g (b + i) := by
  induction n generalizing b with
  | zero => simp
  | succ n ih =>
    rw [List.range'_succ, List.map_cons, List.sum_cons, ih, Finset.sum_range_succ', add_comm]
    have hb : ∀ i, b + 1 + i = b + (i + 1) := fun i => by omega
    simp [hb]

theorem layeredFlow_weights_sum (data : List MyDatum) (sizes : List Int) (capS : Int → Int)
    (capL capR capX : Int) (f : Nat → Int) (value : Int)
    (hlab : ∀ i, i < data.length → labelAt data i < sizes.length)
    (h : LayeredFlow data sizes capS capL capR capX f value) :
    ∑ i in Finset.range data.length, f (sizes.length + i) = value := by
  obtain ⟨_, hS, _, hI, _, _⟩ := h
  rw [← hS, Finset.sum_congr rfl (fun c hc => (hI c (Finset.mem_range.1 hc)).symm),
    Finset.sum_comm]
  apply Finset.sum_congr rfl
  intro i hi
  rw [Finset.sum_ite_eq, if_pos (Finset.mem_range.2 (hlab i (Finset.mem_range.1 hi)))]

theorem weights_layered_sum (data : List MyDatum) (sizes : List Int) (capS : Int → Int)
    (capL capR capX : Int) (f : Nat → Int) (value : Int)
    (hlab : ∀ d ∈ data, 0 ≤ d.label ∧ d.label < sizes.length)
    (h : IsFlow (layeredNetwork data sizes capS capL capR capX) f value) :
    (biasedSamplingWeights (layeredNetwork data sizes capS capL capR capX) f).sum = value := by
  have hl := labelAt_lt data sizes.length hlab
  rw [isFlow_layered_iff _ _ _ _ _ _ _ _ hl] at h
  have := layeredFlow_weights_sum _ _ _ _ _ _ _ _ hl h
  show ((List.range' sizes.length data.length).map (fun a => (f a : ℚ))).sum = value
  rw [sum_map_rangeFrom, ← this]
  push_cast
  rfl

theorem flow_eq_of_sum_eq (n : Nat) (g : Nat → Int) (c : Int)
    (hle : ∀ i, i < n → g i ≤ c) (hsum : ∑ i in Finset.range n, g i = n * c) :
    ∀ i, i < n → g i = c := by
  have h0 : ∑ i in Finset.range n, (c - g i) = 0 := by
    rw [Finset.sum_sub_distrib, hsum]; simp
  have h1 := (Finset.sum_eq_zero_iff_of_nonneg
    (fun i hi => sub_nonneg.2 (hle i (Finset.mem_range.1 hi)))).1 h0
  intro i hi
  have := h1 i (Finset.mem_range.2 hi)
  linarith

theorem weights_layered_single (data : List MyDatum) (capS : Int → Int)
    (capR capX : Int) (f : Nat → Int)
    (hlab : ∀ d ∈ data, d.label = 0)
    (h : IsFlow (layeredNetwork data [(data.length : Int)] capS data.length capR capX) f
      (data.length * data.length)) :
    biasedSamplingWeights (layeredNetwork data [(data.length : Int)] capS data.length capR capX) f
      = List.replicate data.length (data.length : ℚ) := by
  have hlab' : ∀ d ∈ data, 0 ≤ d.label ∧ d.label < ([(data.length : Int)] : List Int).length :=
    fun d hd => by simp [hlab d hd]
  have hl := labelAt_lt data _ hlab'
  rw [isFlow_layered_iff _ _ _ _ _ _ _ _ hl] at h
  have hsum := layeredFlow_weights_sum _ _ _ _ _ _ _ _ hl h
  have hall := flow_eq_of_sum_eq data.length
    (fun i => f (([(data.length : Int)] : List Int).length + i)) data.length
    (fun i hi => (h.1.2.1 i hi).2) hsum
  show (List.range' 1 data.length).map (fun a => (f a : ℚ)) = _
  rw [List.eq_replicate_iff]
  refine ⟨by simp, ?_⟩
  intro b hb
  obtain ⟨a, ha, rfl⟩ := List.mem_map.1 hb
  rw [List.mem_range'_1] at ha
  have := hall (a - 1) (by omega)
  have h1 : ([(data.length : Int)] : List Int).length + (a - 1) = a := by
    simp only [List.length_singleton]; omega
  simp only [h1] at this
  rw [this]
  simp

theorem countBefore_nonneg (data : List MyDatum) (c m : Nat) : 0 ≤ countBefore data c m :=
  Finset.sum_nonneg (fun i _ => by split_ifs <;> simp)

theorem countBefore_succ (data : List MyDatum) (c m : Nat) :
    countBefore data c (m + 1) = countBefore data c m + if labelAt data m = c then 1 else 0 := by
  unfold countBefore
  rw [Finset.sum_range_succ]

theorem count_selected (data : List MyDatum) (c : Nat) (s : Int) (hs : 0 ≤ s) (m : Nat) :
    (∑ i in Finset.range m,
      if labelAt data i = c ∧ countBefore data (labelAt data i) i < s then (1 : Int) else 0)
      = min s (countBefore data c m) := by
  induction m with
  | zero =>
    simp [countBefore, hs]
  | succ m ih =>
    have h0 := countBefore_nonneg data c m
    rw [Finset.sum_range_succ, ih, countBefore_succ]
    by_cases hc : labelAt data m = c
    · rw [hc]
      simp only [true_and, if_true]
      by_cases hlt : countBefore data c m < s
      · rw [if_pos hlt, min_eq_right (le_of_lt hlt), min_eq_right (by omega)]
      · rw [if_neg hlt, min_eq_left (by omega), min_eq_left (by omega)]; simp
    · simp [hc]

theorem sum_getD_range (sizes : List Int) :
    ∑ c in Finset.range sizes.length, sizes.getD c 0 = sizes.sum := by
  induction sizes with
  | nil => simp
  | cons a t ih =>
    rw [List.length_cons, Finset.sum_range_succ', List.sum_cons, add_comm]
    simp only [List.getD_cons_succ, List.getD_cons_zero, ih]

theorem sum_selected (data : List MyDatum) (sizes : List Int)
    (hlab : ∀ i, i < data.length → labelAt data i < sizes.length)
    (hnn : ∀ c, c < sizes.length → 0 ≤ sizes.getD c 0)
    (hle : ∀ c, c < sizes.length → sizes.getD c 0 ≤ countBefore data c data.length) :
    (∑ i in Finset.range data.length, if selected data sizes i then (1 : Int) else 0)
      = sizes.sum := by
  rw [← sum_getD_range]
  have h1 : ∀ i ∈ Finset.range data.length,
      (if selected data sizes i then (1 : Int) else 0) =
        ∑ c in Finset.range sizes.length,
          if labelAt data i = c ∧ countBefore data (labelAt data i) i < sizes.getD c 0
            then (1 : Int) else 0 := by
    intro i hi
    have hl := hlab i (Finset.mem_range.1 hi)
    rw [Finset.sum_eq_single (labelAt data i)]
    · simp [selected]
    · intro c _ hne
      rw [if_neg]
      exact fun h => hne h.1.symm
    · intro h
      exact absurd (Finset.mem_range.2 hl) h
  rw [Finset.sum_congr rfl h1, Finset.sum_comm]
  apply Finset.sum_congr rfl
  intro c hc
  have hc' := Finset.mem_range.1 hc
  rw [count_selected data c _ (hnn c hc'), min_eq_left (hle c hc')]

theorem sum_selected_class (data : List MyDatum) (sizes : List Int) (c : Nat)
    (hnn : 0 ≤ sizes.getD c 0)
    (hle : sizes.getD c 0 ≤ countBefore data c data.length) (x : Int) :
    (∑ i in Finset.range data.length,
      if labelAt data i = c then (if selected data sizes i then x else 0) else 0)
      = x * sizes.getD c 0 := by
  have h1 : ∀ i ∈ Finset.range data.length,
      (if labelAt data i = c then (if selected data sizes i then x else 0) else 0) =
        x * (if labelAt data i = c ∧ countBefore data (labelAt data i) i < sizes.getD c 0
          then (1 : Int) else 0) := by
    intro i _
    by_cases h : labelAt data i = c
    · subst h
      by_cases h2 : countBefore data (labelAt data i) i < sizes.getD (labelAt data i) 0
      · simp [selected, h2]
      · simp [selected, h2]
    · simp [h]
  rw [Finset.sum_congr rfl h1, ← Finset.mul_sum, count_selected data c _ hnn,
    min_eq_left hle]

theorem selectionFlow_source (data : List MyDatum) (sizes : List Int) (c : Nat)
    (hc : c < sizes.length) :
    selectionFlow data sizes c = data.length * sizes.getD c 0 := by
  simp [selectionFlow, hc]

theorem selectionFlow_left (data : List MyDatum) (sizes : List Int) (i : Nat)
    (hi : i < data.length) :
    selectionFlow data sizes (sizes.length + i) =
      if selected data sizes i then (data.length : Int) else 0 := by
  simp [selectionFlow, hi]

theorem selectionFlow_right (data : List MyDatum) (sizes : List Int) (j : Nat)
    (hj : j < data.length) :
    selectionFlow data sizes (sizes.length + data.length + j) = sizes.sum := by
  have h1 : ¬ (sizes.length + data.length + j < sizes.length) := by omega
  have h2 : ¬ (sizes.length + data.length + j < sizes.length + data.length) := by omega
  have h3 : sizes.length + data.length + j < sizes.length + data.length + data.length := by omega
  simp only [selectionFlow, h1, h2, h3, if_false, if_true]

theorem selectionFlow_cross (data : List MyDatum) (sizes : List Int) (i j : Nat)
    (hj : j < data.length) :
    selectionFlow data sizes (sizes.length + data.length + data.length + i * data.length + j) =
      if selected data sizes i then 1 else 0 := by
  have h1 : ¬ (sizes.length + data.length + data.length + i * data.length + j
      < sizes.length) := by omega
  have h2 : ¬ (sizes.length + data.length + data.length + i * data.length + j
      < sizes.length + data.length) := by omega
  have h3 : ¬ (sizes.length + data.length + data.length + i * data.length + j
      < sizes.length + data.length + data.length) := by omega
  have h4 : (sizes.length + data.length + data.length + i * data.length + j
      - (sizes.length + data.length + data.length)) / data.length = i := by
    have : sizes.length + data.length + data.length + i * data.length + j
      - (sizes.length + data.length + data.length) = j + i * data.length := by omega
    rw [this, Nat.add_mul_div_right _ _ (by omega), Nat.div_eq_of_lt hj, Nat.zero_add]
  simp only [selectionFlow, h1, h2, h3, h4, if_false]

theorem selected_pos (data : List MyDatum) (sizes : List Int) (i : Nat)
    (h : selected data sizes i) : 0 < sizes.getD (labelAt data i) 0 :=
  lt_of_le_of_lt (countBefore_nonneg _ _ _) h

theorem getD_le_sum (sizes : List Int) (hnn : ∀ c, c < sizes.length → 0 ≤ sizes.getD c 0)
    (c : Nat) (hc : c < sizes.length) : sizes.getD c 0 ≤ sizes.sum := by
  rw [← sum_getD_range]
  exact Finset.single_le_sum (f := fun c => sizes.getD c 0)
    (fun i hi => hnn i (Finset.mem_range.1 hi)) (Finset.mem_range.2 hc)

theorem selectionFlow_layered (data : List MyDatum) (sizes : List Int) (capS : Int → Int)
    (capR capX : Int)
    (hlab : ∀ i, i < data.length → labelAt data i < sizes.length)
    (hnn : ∀ c, c < sizes.length → 0 ≤ sizes.getD c 0)
    (hle : ∀ c, c < sizes.length → sizes.getD c 0 ≤ countBefore data c data.length)
    (hS : ∀ c, c < sizes.length → capS (sizes.getD c 0) = data.length * sizes.getD c 0)
    (hR : capR = sizes.sum) (hX : capX = data.length * sizes.sum) :
    LayeredFlow data sizes capS data.length capR capX (selectionFlow data sizes)
      (data.length * sizes.sum) := by
  have hK : 0 ≤ sizes.sum := by
    rw [← sum_getD_range]
    exact Finset.sum_nonneg (fun c hc => hnn c (Finset.mem_range.1 hc))
  refine ⟨⟨?_, ?_, ?_, ?_⟩, ?_, ?_, ?_, ?_, ?_⟩
  · intro c hc
    rw [selectionFlow_source _ _ _ hc, hS c hc]
    exact ⟨mul_nonneg (by positivity) (hnn c hc), le_refl _⟩
  · intro i hi
    rw [selectionFlow_left _ _ _ hi]
    split_ifs
    · exact ⟨by positivity, le_refl _⟩
    · exact ⟨le_refl _, by positivity⟩
  · intro j hj
    rw [selectionFlow_right _ _ _ hj, hR]
    exact ⟨hK, le_refl _⟩
  · intro i hi j hj
    rw [selectionFlow_cross _ _ _ _ hj, hX]
    split_ifs with h
    · refine ⟨by norm_num, ?_⟩
      have h1 := selected_pos _ _ _ h
      have h2 := getD_le_sum sizes hnn _ (hlab i hi)
      have h3 : (1 : Int) ≤ data.length := by exact_mod_cast (by omega : 1 ≤ data.length)
      nlinarith
    · exact ⟨le_refl _, mul_nonneg (by positivity) hK⟩
  · rw [Finset.sum_congr rfl (fun c hc => selectionFlow_source _ _ _ (Finset.mem_range.1 hc)),
      ← Finset.mul_sum, sum_getD_range]
  · rw [Finset.sum_congr rfl (fun j hj => selectionFlow_right _ _ _ (Finset.mem_range.1 hj))]
    simp
  · intro c hc
    rw [selectionFlow_source _ _ _ hc,
      Finset.sum_congr rfl (fun i hi => by rw [selectionFlow_left _ _ _ (Finset.mem_range.1 hi)])]
    exact sum_selected_class data sizes c (hnn c hc) (hle c hc) _
  · intro i hi
    rw [selectionFlow_left _ _ _ hi,
      Finset.sum_congr rfl (fun j hj => selectionFlow_cross _ _ i j (Finset.mem_range.1 hj))]
    split_ifs <;> simp
  · intro j hj
    rw [selectionFlow_right _ _ _ hj,
      Finset.sum_congr rfl (fun i _ => selectionFlow_cross _ _ i j hj)]
    exact sum_selected data sizes hlab hnn hle

theorem wassersteinNetwork_eq (data1 data2 : List MyDatum) :
    wassersteinNetwork data1 data2 =
      bipartiteNetwork data1 data2 data2.length data1.length
        (wrap32 (data1.length * data2.length)) := by
  simp only [wassersteinNetwork, SmartDigraph.addNode, addLeftW_eq, List.nil_append,
    addRight_eq, addCross_eq, zip_rangeFrom_eq_enumFrom, bipartiteNetwork]
  simp [Nat.add_assoc]

theorem excess_bipartite (data1 data2 : List MyDatum) (capL capR capX : Int) (f : Nat → Int)
    (v : Nat) :
    excess (bipartiteNetwork data1 data2 capL capR capX) f v =
      (∑ i in Finset.range data1.length,
        ((if 0 = v then f i else 0) - (if 2 + i = v then f i else 0)))
      + (∑ j in Finset.range data2.length,
        ((if 2 + data1.length + j = v then f (data1.length + j) else 0)
          - (if 1 = v then f (data1.length + j) else 0)))
      + (∑ i in Finset.range data1.length, ∑ j in Finset.range data2.length,
        ((if 2 + i = v then f (data1.length + data2.length + i * data2.length + j) else 0)
          - (if 2 + data1.length + j = v
            then f (data1.length + data2.length + i * data2.length + j) else 0))) := by
  simp only [excess, bipartiteNetwork, arcSumFrom_append, List.length_append, List.length_map,
    List.enumFrom_length, arcSumFrom_map_enumFrom (⟨0, []⟩ : MyDatum),
    arcSumFrom_flatMap_enumFrom (⟨0, []⟩ : MyDatum) (⟨0, []⟩ : MyDatum), netOut, Nat.zero_add]

theorem totalCost_bipartite (data1 data2 : List MyDatum) (capL capR capX : Int)
    (f : Nat → Int) :
    totalCost (bipartiteNetwork data1 data2 capL capR capX) f =
      ∑ i in Finset.range data1.length, ∑ j in Finset.range data2.length,
        (f (data1.length + data2.length + i * data2.length + j) : ℚ)
          * distance (featureAt data1 i) (featureAt data2 j) := by
  simp only [totalCost, bipartiteNetwork, arcSumFrom_append, List.length_append, List.length_map,
    List.enumFrom_length, arcSumFrom_map_enumFrom (⟨0, []⟩ : MyDatum),
    arcSumFrom_flatMap_enumFrom (⟨0, []⟩ : MyDatum) (⟨0, []⟩ : MyDatum), Nat.zero_add,
    mul_zero, Finset.sum_const_zero, zero_add, featureAt]

theorem respects_bipartite (data1 data2 : List MyDatum) (capL capR capX : Int)
    (f : Nat → Int) :
    respectsFrom f 0 (bipartiteNetwork data1 data2 capL capR capX).graph.arcs ↔
      (∀ i, i < data1.length → 0 ≤ f i ∧ f i ≤ capL) ∧
      (∀ j, j < data2.length → 0 ≤ f (data1.length + j) ∧ f (data1.length + j) ≤ capR) ∧
      (∀ i, i < data1.length → ∀ j, j < data2.length →
        0 ≤ f (data1.length + data2.length + i * data2.length + j) ∧
        f (data1.length + data2.length + i * data2.length + j) ≤ capX) := by
  simp only [bipartiteNetwork, respectsFrom_append, List.length_append, List.length_map,
    List.enumFrom_length, respectsFrom_map_enumFrom (⟨0, []⟩ : MyDatum),
    respectsFrom_flatMap_enumFrom (⟨0, []⟩ : MyDatum) (⟨0, []⟩ : MyDatum), Nat.zero_add,
    and_assoc]

theorem excess_bipartite_source (data1 data2 : List MyDatum) (capL capR capX : Int)
    (f : Nat → Int) :
    excess (bipartiteNetwork data1 data2 capL capR capX) f 0 =
      ∑ i in Finset.range data1.length, f i := by
  rw [excess_bipartite]
  have h1 : ∀ x : Nat, ¬ (2 + x = 0) := fun x => by omega
  have h2 : ∀ x y : Nat, ¬ (2 + x + y = 0) := fun x y => by omega
  simp [h1, h2]

theorem excess_bipartite_sink (data1 data2 : List MyDatum) (capL capR capX : Int)
    (f : Nat → Int) :
    excess (bipartiteNetwork data1 data2 capL capR capX) f 1 =
      - ∑ j in Finset.range data2.length, f (data1.length + j) := by
  rw [excess_bipartite]
  have h1 : ∀ x : Nat, ¬ (2 + x = 1) := fun x => by omega
  have h2 : ∀ x y : Nat, ¬ (2 + x + y = 1) := fun x y => by omega
  simp [h1, h2]

theorem excess_bipartite_left (data1 data2 : List MyDatum) (capL capR capX : Int)
    (f : Nat → Int) (i : Nat) (hi : i < data1.length) :
    excess (bipartiteNetwork data1 data2 capL capR capX) f (2 + i) =
      (∑ j in Finset.range data2.length,
        f (data1.length + data2.length + i * data2.length + j)) - f i := by
  rw [excess_bipartite]
  have h1 : ∀ x : Nat, ¬ (0 = 2 + x) := fun x => by omega
  have h2 : ∀ x : Nat, ¬ (1 = 2 + x) := fun x => by omega
  have h3 : ∀ y : Nat, ¬ (2 + data1.length + y = 2 + i) := fun y => by omega
  simp only [h1, h2, h3, if_false, sub_zero, Finset.sum_const_zero, add_zero, zero_add,
    add_right_inj, zero_sub, Finset.sum_neg_distrib, Finset.sum_ite_eq', Finset.mem_range, hi,
    if_true, Finset.sum_ite_irrel]
  ring

theorem excess_bipartite_right (data1 data2 : List MyDatum) (capL capR capX : Int)
    (f : Nat → Int) (j : Nat) (hj : j < data2.length) :
    excess (bipartiteNetwork data1 data2 capL capR capX) f (2 + data1.length + j) =
      f (data1.length + j)
      - ∑ i in Finset.range data1.length,
        f (data1.length + data2.length + i * data2.length + j) := by
  rw [excess_bipartite]
  have h1 : ¬ (0 = 2 + data1.length + j) := by omega
  have h2 : ¬ (1 = 2 + data1.length + j) := by omega
  have h3 : ∀ x ∈ Finset.range data1.length, ¬ (2 + x = 2 + data1.length + j) :=
    fun x hx => by
      have := Finset.mem_range.1 hx; omega
  have e1 : (∑ i in Finset.range data1.length,
      ((if 0 = 2 + data1.length + j then f i else 0)
        - (if 2 + i = 2 + data1.length + j then f i else 0))) = 0 :=
    Finset.sum_eq_zero (fun x hx => by simp [h1, h3 x hx])
  have e3 : (∑ i in Finset.range data1.length, ∑ y in Finset.range data2.length,
      ((if 2 + i = 2 + data1.length + j
          then f (data1.length + data2.length + i * data2.length + y) else 0)
        - (if 2 + data1.length + y = 2 + data1.length + j
          then f (data1.length + data2.length + i * data2.length + y) else 0)))
      = - ∑ i in Finset.range data1.length,
        f (data1.length + data2.length + i * data2.length + j) := by
    rw [← Finset.sum_neg_distrib]
    apply Finset.sum_congr rfl
    intro i hi
    rw [Finset.sum_congr rfl (fun y _ => by rw [if_neg (h3 i hi), zero_sub])]
    simp [Finset.sum_ite_eq', hj]
  rw [e1, e3]
  simp only [h2, if_false, sub_zero, add_right_inj, Finset.sum_ite_eq', Finset.mem_range, hj,
    if_true]
  ring

theorem isFlow_bipartite_iff (data1 data2 : List MyDatum) (capL capR capX : Int)
    (f : Nat → Int) (value : Int) :
    IsFlow (bipartiteNetwork data1 data2 capL capR capX) f value ↔
      BipartiteFlow data1.length data2.length capL capR capX f value := by
  unfold IsFlow BipartiteFlow
  rw [respects_bipartite]
  have hs : (bipartiteNetwork data1 data2 capL capR capX).s = 0 := rfl
  have ht : (bipartiteNetwork data1 data2 capL capR capX).t = 1 := rfl
  have hn : (bipartiteNetwork data1 data2 capL capR capX).graph.nodeNum
      = 2 + data1.length + data2.length := rfl
  rw [hs, ht, hn, excess_bipartite_source, excess_bipartite_sink, neg_inj]
  refine and_congr_right (fun _ => and_congr_right (fun _ => and_congr_right (fun _ => ?_)))
  constructor
  · intro h
    refine ⟨fun i hi => ?_, fun j hj => ?_⟩
    · have := h (2 + i) (by omega) (by omega) (by omega)
      rw [excess_bipartite_left _ _ _ _ _ _ _ hi] at this
      linarith
    · have := h (2 + data1.length + j) (by omega) (by omega) (by omega)
      rw [excess_bipartite_right _ _ _ _ _ _ _ hj] at this
      linarith
  · rintro ⟨h1, h2⟩ v hv hv0 hv1
    by_cases hi : v < 2 + data1.length
    · obtain ⟨i, rfl⟩ : ∃ i, v = 2 + i := ⟨v - 2, by omega⟩
      rw [excess_bipartite_left _ _ _ _ _ _ _ (by omega), h1 i (by omega)]
      ring
    · obtain ⟨j, rfl⟩ : ∃ j, v = 2 + data1.length + j := ⟨v - (2 + data1.length), by omega⟩
      rw [excess_bipartite_right _ _ _ _ _ _ _ (by omega), h2 j (by omega)]
      ring

theorem wrap32_of_fits (z : Int) (h : fits32 z) : wrap32 z = z := by
  unfold fits32 at h
  unfold wrap32
  omega

theorem wrap32_add_wrap32 (a b : Int) : wrap32 (wrap32 a + b) = wrap32 (a + b) := by
  unfold wrap32
  omega

theorem foldl_wrap32 (l : List Int) (a : Int) :
    l.foldl (fun K sz => wrap32 (K + sz)) (wrap32 a) = wrap32 (a + l.sum) := by
  induction l generalizing a with
  | nil => simp
  | cons x t ih =>
    rw [List.foldl_cons, wrap32_add_wrap32, ih, List.sum_cons, add_assoc]

theorem sumSizes_eq (sizes : List Int) : sumSizes sizes = wrap32 sizes.sum := by
  have h := foldl_wrap32 sizes 0
  have h0 : wrap32 0 = 0 := by decide
  rw [h0, zero_add] at h
  exact h

theorem distanceLoop_ge (x y : MyFeature) (s : ℚ) : s ≤ distanceLoop x y s := by
  induction x, y, s using distanceLoop.induct with
  | case1 s => rw [distanceLoop]
  | case2 yj ys s ih =>
    rw [distanceLoop]
    exact le_trans (by simp only [square]; nlinarith [mul_self_nonneg yj.2]) ih
  | case3 xi xs s ih =>
    rw [distanceLoop]
    exact le_trans (by simp only [square]; nlinarith [mul_self_nonneg xi.2]) ih
  | case4 xi xs yj ys s h ih =>
    rw [distanceLoop, if_pos h]
    exact le_trans (by simp only [square]; nlinarith [mul_self_nonneg xi.2]) ih
  | case5 xi xs yj ys s h h2 ih =>
    rw [distanceLoop, if_neg h, if_pos h2]
    exact le_trans (by simp only [square]; nlinarith [mul_self_nonneg yj.2]) ih
  | case6 xi xs yj ys s h h2 ih =>
    rw [distanceLoop, if_neg h, if_neg h2]
    exact le_trans (by simp only [square]; nlinarith [mul_self_nonneg (xi.2 - yj.2)]) ih

theorem distance_nonneg (x y : MyFeature) : 0 ≤ distance x y := distanceLoop_ge x y 0

theorem cost_nonneg_bipartite (data1 data2 : List MyDatum) (capL capR capX : Int) :
    ∀ a ∈ (bipartiteNetwork data1 data2 capL capR capX).graph.arcs, 0 ≤ a.cost := by
  intro a ha
  simp only [bipartiteNetwork, List.mem_append, List.mem_map, List.mem_flatMap] at ha
  rcases ha with (⟨p, _, rfl⟩ | ⟨q, _, rfl⟩) | ⟨p, _, q, _, rfl⟩
  · exact le_refl _
  · exact le_refl _
  · exact distance_nonneg _ _

theorem arcSumFrom_nonneg (f : Nat → Int) (k : Nat) (l : List Arc)
    (hr : respectsFrom f k l) (hc : ∀ a ∈ l, 0 ≤ a.cost) :
    0 ≤ arcSumFrom (fun a x => (x : ℚ) * a.cost) f k l := by
  induction l generalizing k with
  | nil => simp [arcSumFrom]
  | cons a t ih =>
    rw [arcSumFrom]
    obtain ⟨⟨h0, _⟩, ht⟩ := hr
    have h1 : (0 : ℚ) ≤ (f k : ℚ) := by exact_mod_cast h0
    exact add_nonneg (mul_nonneg h1 (hc a (List.mem_cons_self _ _)))
      (ih (k + 1) ht (fun b hb => hc b (List.mem_cons_of_mem _ hb)))

theorem totalCost_nonneg (net : Network) (f : Nat → Int) (value : Int)
    (hf : IsFlow net f value) (hc : ∀ a ∈ net.graph.arcs, 0 ≤ a.cost) :
    0 ≤ totalCost net f :=
  arcSumFrom_nonneg f 0 _ hf.1 hc

theorem identityTransport_cross (n i j : Nat) (hj : j < n) :
    identityTransport n (n + n + i * n + j) = if i = j then (n : Int) else 0 := by
  have h1 : ¬ (n + n + i * n + j < n + n) := by omega
  have h2 : n + n + i * n + j - (n + n) = j + i * n := by omega
  have h3 : (j + i * n) / n = i := by
    rw [Nat.add_mul_div_right _ _ (by omega), Nat.div_eq_of_lt hj, Nat.zero_add]
  have h4 : (j + i * n) % n = j := by
    rw [Nat.add_mul_mod_self_right, Nat.mod_eq_of_lt hj]
  simp only [identityTransport, h1, h2, h3, h4, if_false]

theorem identityTransport_bipartite (n : Nat) (capX : Int) (hX : (n : Int) ≤ capX) :
    BipartiteFlow n n n n capX (identityTransport n) (n * n) := by
  have hl : ∀ i, i < n → identityTransport n i = n := fun i hi => by
    simp only [identityTransport]; rw [if_pos (by omega)]
  have hr : ∀ j, j < n → identityTransport n (n + j) = n := fun j hj => by
    simp only [identityTransport]; rw [if_pos (by omega)]
  have hn : (0 : Int) ≤ n := by positivity
  refine ⟨⟨?_, ?_, ?_⟩, ?_, ?_, ?_, ?_⟩
  · intro i hi
    rw [hl i hi]; exact ⟨hn, le_refl _⟩
  · intro j hj
    rw [hr j hj]; exact ⟨hn, le_refl _⟩
  · intro i _ j hj
    rw [identityTransport_cross n i j hj]
    split_ifs
    · exact ⟨hn, hX⟩
    · exact ⟨le_refl _, le_trans hn hX⟩
  · rw [Finset.sum_congr rfl (fun i hi => hl i (Finset.mem_range.1 hi))]
    simp
  · rw [Finset.sum_congr rfl (fun j hj => hr j (Finset.mem_range.1 hj))]
    simp
  · intro i hi
    rw [hl i hi, Finset.sum_congr rfl
      (fun j hj => identityTransport_cross n i j (Finset.mem_range.1 hj))]
    simp [hi]
  · intro j hj
    rw [hr j hj, Finset.sum_congr rfl (fun i _ => identityTransport_cross n i j hj)]
    simp [hj]

theorem identityTransport_cost (data : List MyDatum) (capL capR capX : Int) :
    totalCost (bipartiteNetwork data data capL capR capX) (identityTransport data.length) = 0 := by
  rw [totalCost_bipartite]
  apply Finset.sum_eq_zero
  intro i _
  apply Finset.sum_eq_zero
  intro j hj
  rw [identityTransport_cross _ i j (Finset.mem_range.1 hj)]
  split_ifs with h
  · subst h
    simp [distance, distanceLoop_self]
  · simp

theorem modeANetwork_eq_layered (data : List MyDatum) (sizes : List Int) :
    modeANetwork data sizes =
      layeredNetwork data sizes (fun sz => data.length * sz) data.length sizes.sum
        (data.length * sizes.sum) := rfl

theorem modeBNetwork_eq_bipartite (data1 data2 : List MyDatum) :
    modeBNetwork data1 data2 =
      bipartiteNetwork data1 data2 data2.length data1.length (data1.length * data2.length) :=
  rfl

theorem layeredNetwork_congr (data : List MyDatum) (sizes : List Int) (capS capS' : Int → Int)
    (capL capR capX : Int) (h : ∀ sz ∈ sizes, capS sz = capS' sz) :
    layeredNetwork data sizes capS capL capR capX =
      layeredNetwork data sizes capS' capL capR capX := by
  unfold layeredNetwork
  have : (sizes.enumFrom 2).map (fun p => (⟨0, p.1, capS p.2, 0⟩ : Arc)) =
      (sizes.enumFrom 2).map (fun p => (⟨0, p.1, capS' p.2, 0⟩ : Arc)) :=
    List.map_congr_left (fun p hp => by rw [h p.2 (List.snd_mem_of_mem_enumFrom hp)])
  simp only [this]

theorem biasedSamplingNetwork_exact (data : List MyDatum) (sizes : List Int)
    (hlab : ∀ d ∈ data, 0 ≤ d.label ∧ d.label < sizes.length)
    (hfit : NoOverflow data sizes) :
    biasedSamplingNetwork data sizes = some (modeANetwork data sizes) := by
  obtain ⟨hK, hS, hX⟩ := hfit
  rw [biasedSamplingNetwork_eq data sizes hlab, modeANetwork_eq_layered, sumSizes_eq,
    wrap32_of_fits _ hK, wrap32_of_fits _ hX,
    layeredNetwork_congr data sizes _ (fun sz => data.length * sz) _ _ _
      (fun sz hsz => wrap32_of_fits _ (hS sz hsz))]

/-- C1: for sparse vectors `x` and `y` with strictly increasing indices, `distance(x, y)` is
the sum over the union of their indices of the squared difference of their values, an index
missing from a vector counting as value 0. -/
theorem distance_eq_distanceRef (x y : MyFeature)
    (hx : StrictlyIncreasing x) (hy : StrictlyIncreasing y) :
    distance x y = distanceRef x y := by
  rw [distance, distanceLoop_eq_ref x y 0 hx hy, zero_add]

theorem distance_eq_distanceRef_witness :
    StrictlyIncreasing [(0, 1), (2, 3)] ∧ StrictlyIncreasing [(1, 2), (2, 1), (5, 4)] ∧
      distance [(0, 1), (2, 3)] [(1, 2), (2, 1), (5, 4)]
        = distanceRef [(0, 1), (2, 3)] [(1, 2), (2, 1), (5, 4)] :=
  ⟨by decide, by decide, distance_eq_distanceRef _ _ (by decide) (by decide)⟩

/-- C2: `distance(x, y) == distance(y, x)` for all sparse vectors `x` and `y`. -/
theorem distance_comm (x y : MyFeature) : distance x y = distance y x :=
  distanceLoop_comm x y 0

/-- C3: `distance(x, x) == 0` for every sparse vector `x`. -/
theorem distance_self (x : MyFeature) : distance x x = 0 :=
  distanceLoop_self x 0

/-- C4, as amended: when all labels are non-negative and below the number of class sizes
and the 32-bit computations of `K`, `N * sizes[c]` and `N * K` are exact, `biasedSampling`
builds exactly the network of the spec. -/
theorem biasedSampling_builds_modeANetwork (data : List MyDatum) (sizes : List Int)
    (hlab : ∀ d ∈ data, 0 ≤ d.label ∧ d.label < sizes.length)
    (hfit : NoOverflow data sizes) :
    biasedSamplingNetwork data sizes = some (modeANetwork data sizes) :=
  biasedSamplingNetwork_exact data sizes hlab hfit

theorem biasedSampling_builds_modeANetwork_witness :
    (∀ d ∈ threePoints, 0 ≤ d.label ∧ d.label < ([2, 1] : List Int).length) ∧
      NoOverflow threePoints [2, 1] ∧
      biasedSamplingNetwork threePoints [2, 1] = some (modeANetwork threePoints [2, 1]) :=
  ⟨by decide, by decide,
    biasedSampling_builds_modeANetwork threePoints [2, 1] (by decide) (by decide)⟩

/-- C4 fails as stated: for two items of label 0 and the single class size `2 ^ 30` the
product `N * K = 2 ^ 31` does not fit the `int` the code computes it in; the supply handed
to the solver is `-2 ^ 31`, not `N * K`, and the network differs from the one of the
spec. -/
theorem biasedSampling_network_overflow :
    (∀ d ∈ twoPoints, 0 ≤ d.label ∧ d.label < ([1073741824] : List Int).length) ∧
      (biasedSamplingNetwork twoPoints [1073741824]).map Network.supply
        = some (-2147483648) ∧
      (modeANetwork twoPoints [1073741824]).supply = 2147483648 ∧
      biasedSamplingNetwork twoPoints [1073741824]
        ≠ some (modeANetwork twoPoints [1073741824]) := by
  have hlab : ∀ d ∈ twoPoints, 0 ≤ d.label ∧ d.label < ([1073741824] : List Int).length := by
    decide
  have h1 : (biasedSamplingNetwork twoPoints [1073741824]).map Network.supply
      = some (-2147483648) := by
    rw [biasedSamplingNetwork_eq _ _ hlab]
    decide
  have h2 : (modeANetwork twoPoints [1073741824]).supply = 2147483648 := by decide
  refine ⟨hlab, h1, h2, fun h => ?_⟩
  rw [h] at h1
  simp only [Option.map_some', h2] at h1
  exact absurd h1 (by decide)

theorem wassersteinNetwork_exact (data1 data2 : List MyDatum)
    (hfit : (data1.length : Int) * data2.length ≤ 2147483647) :
    wassersteinNetwork data1 data2 = modeBNetwork data1 data2 := by
  have h0 : (0 : Int) ≤ (data1.length : Int) * data2.length := by positivity
  rw [wassersteinNetwork_eq, modeBNetwork_eq_bipartite,
    wrap32_of_fits _ ⟨by omega, hfit⟩]

theorem wassersteinNetwork_supply (data1 data2 : List MyDatum) :
    (wassersteinNetwork data1 data2).supply = wrap32 (data1.length * data2.length) := by
  rw [wassersteinNetwork_eq]
  rfl

/-- C5, as amended: when the product `N1 * N2` fits a 32-bit `int`, `wasserstein` builds
exactly the network of the spec, and the value it returns for the solver's flow is the total
cost divided by `N1 * N2` (no number when `N1 * N2 = 0`). -/
theorem wasserstein_builds_modeBNetwork (data1 data2 : List MyDatum) (flow : Nat → Int)
    (hfit : (data1.length : Int) * data2.length ≤ 2147483647) :
    wassersteinNetwork data1 data2 = modeBNetwork data1 data2 ∧
      wasserstein data1 data2 flow =
        if (data1.length : Int) * data2.length = 0 then none
        else some (totalCost (modeBNetwork data1 data2) flow
          / (((data1.length : Int) * data2.length : Int) : ℚ)) := by
  have h0 : (0 : Int) ≤ (data1.length : Int) * data2.length := by positivity
  refine ⟨wassersteinNetwork_exact data1 data2 hfit, ?_⟩
  unfold wasserstein
  simp only [wassersteinNetwork_exact data1 data2 hfit, wrap32_of_fits _ ⟨by omega, hfit⟩]

theorem wasserstein_builds_modeBNetwork_witness :
    ((threePoints.length : Int) * twoPoints.length ≤ 2147483647) ∧
      wassersteinNetwork threePoints twoPoints = modeBNetwork threePoints twoPoints ∧
      wasserstein threePoints twoPoints zeroFlow =
        if (threePoints.length : Int) * twoPoints.length = 0 then none
        else some (totalCost (modeBNetwork threePoints twoPoints) zeroFlow
          / (((threePoints.length : Int) * twoPoints.length : Int) : ℚ)) :=
  ⟨by decide, wasserstein_builds_modeBNetwork threePoints twoPoints zeroFlow (by decide)⟩

/-- C5 fails as stated: for datasets of 65536 and 32768 items the product
`N1 * N2 = 2 ^ 31` does not fit the `int` the code computes it in; the supply handed to the
solver is `-2 ^ 31`, not `N1 * N2`, and the network differs from the one of the spec. -/
theorem wasserstein_network_overflow :
    (wassersteinNetwork manyPoints halfAsManyPoints).supply = -2147483648 ∧
      (modeBNetwork manyPoints halfAsManyPoints).supply = 2147483648 ∧
      wassersteinNetwork manyPoints halfAsManyPoints
        ≠ modeBNetwork manyPoints halfAsManyPoints := by
  have l1 : manyPoints.length = 65536 := List.length_replicate _ _
  have l2 : halfAsManyPoints.length = 32768 := List.length_replicate _ _
  have h1 : (wassersteinNetwork manyPoints halfAsManyPoints).supply = -2147483648 := by
    rw [wassersteinNetwork_supply, l1, l2]
    decide
  have h2 : (modeBNetwork manyPoints halfAsManyPoints).supply = 2147483648 := by
    show (manyPoints.length : Int) * halfAsManyPoints.length = 2147483648
    rw [l1, l2]
    decide
  refine ⟨h1, h2, fun h => ?_⟩
  rw [h, h2] at h1
  exact absurd h1 (by decide)

/-- C6: for a dataset whose labels are non-negative and below the number of class sizes,
every flow on the network built by `biasedSampling` that respects the capacities, conserves
flow at every node other than `S` and `T` and ships `N * K` units from `S` to `T` makes
`biasedSampling` return `N` weights, in dataset order, that sum to exactly `N * K`. -/
theorem biasedSampling_weights_sum (data : List MyDatum) (sizes : List Int)
    (hlab : ∀ d ∈ data, 0 ≤ d.label ∧ d.label < sizes.length)
    (net : Network) (hnet : biasedSamplingNetwork data sizes = some net)
    (f : Nat → Int) (hf : IsFlow net f (data.length * sizes.sum)) :
    ∃ weight, biasedSampling data sizes f = some weight ∧
      weight = net.incomming.map (fun a => (f a : ℚ)) ∧
      weight.length = data.length ∧
      weight.sum = ((data.length * sizes.sum : Int) : ℚ) := by
  refine ⟨biasedSamplingWeights net f, by simp [biasedSampling, hnet], rfl, ?_, ?_⟩
  · rw [biasedSamplingNetwork_eq data sizes hlab, Option.some.injEq] at hnet
    subst hnet
    simp [biasedSamplingWeights, layeredNetwork]
  · rw [biasedSamplingNetwork_eq data sizes hlab, Option.some.injEq] at hnet
    subst hnet
    exact weights_layered_sum _ _ _ _ _ _ _ _ hlab hf

theorem biasedSampling_weights_sum_witness :
    (∀ d ∈ threePoints, 0 ≤ d.label ∧ d.label < ([2, 1] : List Int).length) ∧
      biasedSamplingNetwork threePoints [2, 1] = some (modeANetwork threePoints [2, 1]) ∧
      IsFlow (modeANetwork threePoints [2, 1]) threePointsFlow 9 ∧
      ∃ weight, biasedSampling threePoints [2, 1] threePointsFlow = some weight ∧
        weight.sum = 9 := by
  have hlab : ∀ d ∈ threePoints, 0 ≤ d.label ∧ d.label < ([2, 1] : List Int).length := by
    decide
  have hnet := biasedSamplingNetwork_exact threePoints [2, 1] hlab (by decide)
  have hf : IsFlow (modeANetwork threePoints [2, 1]) threePointsFlow 9 := by decide
  obtain ⟨w, hw, _, _, hsum⟩ :=
    biasedSampling_weights_sum threePoints [2, 1] hlab _ hnet threePointsFlow hf
  refine ⟨hlab, hnet, hf, w, hw, ?_⟩
  rw [hsum]
  decide

/-- C7: for a dataset whose items all carry label 0, with class sizes `[N]`, every flow of
value `N * K = N * N` on the network built by `biasedSampling` puts exactly `N` units on
the arc entering each left vertex: every weight `biasedSampling` returns is `N = K`. -/
theorem biasedSampling_single_class (data : List MyDatum)
    (hlab : ∀ d ∈ data, d.label = 0)
    (net : Network) (hnet : biasedSamplingNetwork data [(data.length : Int)] = some net)
    (f : Nat → Int) (hf : IsFlow net f (data.length * data.length)) :
    net.incomming.map f = List.replicate data.length (data.length : Int) ∧
      biasedSampling data [(data.length : Int)] f
        = some (List.replicate data.length (data.length : ℚ)) := by
  have hlab' : ∀ d ∈ data, 0 ≤ d.label ∧ d.label < ([(data.length : Int)] : List Int).length :=
    fun d hd => by simp [hlab d hd]
  have hw : biasedSamplingWeights net f = List.replicate data.length (data.length : ℚ) := by
    rw [biasedSamplingNetwork_eq data _ hlab', Option.some.injEq] at hnet
    subst hnet
    exact weights_layered_single data _ _ _ f hlab hf
  refine ⟨?_, by simp [biasedSampling, hnet, hw]⟩
  have hlen : (net.incomming.map f).length = data.length := by
    have := congrArg List.length hw
    simpa [biasedSamplingWeights] using this
  rw [List.eq_replicate_iff]
  refine ⟨hlen, fun b hb => ?_⟩
  obtain ⟨a, ha, rfl⟩ := List.mem_map.1 hb
  have hmem : ((f a : Int) : ℚ) ∈ biasedSamplingWeights net f :=
    List.mem_map.2 ⟨a, ha, rfl⟩
  rw [hw] at hmem
  exact_mod_cast (List.eq_of_mem_replicate hmem)

theorem biasedSampling_single_class_witness :
    (∀ d ∈ twoPoints, d.label = 0) ∧
      biasedSamplingNetwork twoPoints [(twoPoints.length : Int)]
        = some (modeANetwork twoPoints [2]) ∧
      IsFlow (modeANetwork twoPoints [2]) twoPointsFlow (twoPoints.length * twoPoints.length) ∧
      biasedSampling twoPoints [(twoPoints.length : Int)] twoPointsFlow
        = some (List.replicate twoPoints.length (twoPoints.length : ℚ)) := by
  have hlab : ∀ d ∈ twoPoints, d.label = 0 := by decide
  have hnet : biasedSamplingNetwork twoPoints [(twoPoints.length : Int)]
      = some (modeANetwork twoPoints [2]) :=
    biasedSamplingNetwork_exact twoPoints [2] (by decide) (by decide)
  have hf : IsFlow (modeANetwork twoPoints [2]) twoPointsFlow
      (twoPoints.length * twoPoints.length) := by decide
  exact ⟨hlab, hnet, hf,
    (biasedSampling_single_class twoPoints hlab _ hnet twoPointsFlow hf).2⟩

theorem modeB_identity_optimal (data : List MyDatum) (hne : data ≠ [])
    (hfit : (data.length : Int) * data.length ≤ 2147483647) :
    (∀ a ∈ (wassersteinNetwork data data).graph.arcs, 0 ≤ a.cost) ∧
      (wassersteinNetwork data data).supply = data.length * data.length ∧
      Feasible (wassersteinNetwork data data) (identityTransport data.length) ∧
      totalCost (wassersteinNetwork data data) (identityTransport data.length) = 0 ∧
      ∀ f, Feasible (wassersteinNetwork data data) f →
        (∀ g, Feasible (wassersteinNetwork data data) g →
          totalCost (wassersteinNetwork data data) f
            ≤ totalCost (wassersteinNetwork data data) g) →
        totalCost (wassersteinNetwork data data) f = 0 ∧ wasserstein data data f = some 0 := by
  have hpos : 0 < data.length := List.length_pos.2 hne
  have hn : (1 : Int) ≤ data.length := by exact_mod_cast hpos
  have h0 : (0 : Int) ≤ (data.length : Int) * data.length := by positivity
  have hw : wrap32 ((data.length : Int) * data.length) = data.length * data.length :=
    wrap32_of_fits _ ⟨by omega, hfit⟩
  have hcost := cost_nonneg_bipartite data data data.length data.length
    (wrap32 (data.length * data.length))
  have hsup : (wassersteinNetwork data data).supply = data.length * data.length := by
    rw [wassersteinNetwork_supply, hw]
  have hid : Feasible (wassersteinNetwork data data) (identityTransport data.length) := by
    unfold Feasible
    rw [hsup, wassersteinNetwork_eq, isFlow_bipartite_iff, hw]
    exact identityTransport_bipartite data.length _ (by nlinarith)
  have hzero : totalCost (wassersteinNetwork data data) (identityTransport data.length) = 0 := by
    rw [wassersteinNetwork_eq]
    exact identityTransport_cost data _ _ _
  refine ⟨by rw [wassersteinNetwork_eq]; exact hcost, hsup, hid, hzero, ?_⟩
  intro f hf hmin
  have h1 := hmin _ hid
  rw [hzero] at h1
  have h2 : 0 ≤ totalCost (wassersteinNetwork data data) f :=
    totalCost_nonneg _ f _ hf (by rw [wassersteinNetwork_eq]; exact hcost)
  have h3 : totalCost (wassersteinNetwork data data) f = 0 := le_antisymm h1 h2
  refine ⟨h3, ?_⟩
  have hne0 : ¬ ((data.length : Int) * data.length = 0) := by nlinarith
  simp only [wasserstein, hw, hne0, if_false, h3, zero_div]

/-- C8, as amended: for a non-empty dataset `D` of `N` items with `N * N` within the range
of a 32-bit `int`, all arc costs of the network of `wasserstein(D, D)` are non-negative and
the identity transport is a feasible flow of value `N * N` with total cost 0; hence every
minimum-cost feasible flow has total cost 0 and `wasserstein(D, D)` returns 0. -/
theorem wasserstein_self_zero (data : List MyDatum) (hne : data ≠ [])
    (hfit : (data.length : Int) * data.length ≤ 2147483647) :
    (∀ a ∈ (wassersteinNetwork data data).graph.arcs, 0 ≤ a.cost) ∧
      (wassersteinNetwork data data).supply = data.length * data.length ∧
      Feasible (wassersteinNetwork data data) (identityTransport data.length) ∧
      totalCost (wassersteinNetwork data data) (identityTransport data.length) = 0 ∧
      ∀ f, Feasible (wassersteinNetwork data data) f →
        (∀ g, Feasible (wassersteinNetwork data data) g →
          totalCost (wassersteinNetwork data data) f
            ≤ totalCost (wassersteinNetwork data data) g) →
        totalCost (wassersteinNetwork data data) f = 0 ∧ wasserstein data data f = some 0 :=
  modeB_identity_optimal data hne hfit

theorem wasserstein_self_zero_witness :
    twoPoints ≠ [] ∧ (twoPoints.length : Int) * twoPoints.length ≤ 2147483647 ∧
      Feasible (wassersteinNetwork twoPoints twoPoints) (identityTransport twoPoints.length) ∧
      wasserstein twoPoints twoPoints (identityTransport twoPoints.length) = some 0 := by
  have h := wasserstein_self_zero twoPoints (List.cons_ne_nil _ _) (by decide)
  obtain ⟨hc, _, hid, hz, hmin⟩ := h
  refine ⟨List.cons_ne_nil _ _, by decide, hid, (hmin _ hid (fun g hg => ?_)).2⟩
  rw [hz]
  exact totalCost_nonneg _ g _ hg hc

/-- C8 fails as stated. For the empty dataset the zero flow is the flow the solver returns
and the value `0 / 0` that `wasserstein` computes is not a number. For a dataset of 65536
items the product `N * N = 2 ^ 32` wraps to the supply 0, the identity transport is not a
flow of the network built, and the returned value is again `0 / 0`. -/
theorem wasserstein_self_not_zero :
    (Feasible (wassersteinNetwork [] []) zeroFlow ∧
      wasserstein [] [] zeroFlow = none) ∧
    ((wassersteinNetwork manyPoints manyPoints).supply = 0 ∧
      ¬ Feasible (wassersteinNetwork manyPoints manyPoints) (identityTransport 65536) ∧
      Feasible (wassersteinNetwork manyPoints manyPoints) zeroFlow ∧
      wasserstein manyPoints manyPoints zeroFlow = none) := by
  have l1 : manyPoints.length = 65536 := List.length_replicate _ _
  have hw : wrap32 (((65536 : Nat) : Int) * ((65536 : Nat) : Int)) = 0 := by decide
  have hsup : (wassersteinNetwork manyPoints manyPoints).supply = 0 := by
    rw [wassersteinNetwork_supply, l1]
    exact hw
  refine ⟨⟨by decide, by decide⟩, hsup, ?_, ?_, ?_⟩
  · intro h
    unfold Feasible at h
    rw [hsup, wassersteinNetwork_eq, isFlow_bipartite_iff, l1] at h
    have h1 := h.2.1
    have h2 := (identityTransport_bipartite 65536 65536 (le_refl _)).2.1
    rw [h1] at h2
    exact absurd h2 (by decide)
  · unfold Feasible
    rw [hsup, wassersteinNetwork_eq, isFlow_bipartite_iff, l1]
    have hb : (0 : Int) ≤ ((65536 : Nat) : Int) := by decide
    refine ⟨⟨fun _ _ => ⟨le_refl _, hb⟩, fun _ _ => ⟨le_refl _, hb⟩,
      fun _ _ _ _ => ⟨le_refl _, le_of_eq hw.symm⟩⟩, ?_, ?_, fun _ _ => ?_, fun _ _ => ?_⟩ <;>
    simp [zeroFlow]
  · simp only [wasserstein, l1]
    rw [if_pos hw]

/-- C9: the network of `wasserstein` for two single-point datasets `{a}` and `{b}` has the
three arcs `S -> left[0]`, `right[0] -> T` and `left[0] -> right[0]`, its supply is 1, its
feasible flows are exactly the arc maps carrying one unit on each of the three arcs, and for
such a flow the total cost and the value `wasserstein` returns are `distance(a, b)`. -/
theorem wasserstein_single_points (a b : MyDatum) (f : Nat → Int) :
    (wassersteinNetwork [a] [b]).graph.arcs =
        [⟨0, 2, 1, 0⟩, ⟨3, 1, 1, 0⟩, ⟨2, 3, 1, distance a.feature b.feature⟩] ∧
      (wassersteinNetwork [a] [b]).supply = 1 ∧
      (Feasible (wassersteinNetwork [a] [b]) f ↔ f 0 = 1 ∧ f 1 = 1 ∧ f 2 = 1) ∧
      (Feasible (wassersteinNetwork [a] [b]) f →
        totalCost (wassersteinNetwork [a] [b]) f = distance a.feature b.feature ∧
        wasserstein [a] [b] f = some (distance a.feature b.feature)) := by
  have hw : wrap32 (1 * 1) = 1 := by decide
  have hnet : wassersteinNetwork [a] [b] = bipartiteNetwork [a] [b] 1 1 1 := by
    rw [wassersteinNetwork_eq]
    simp only [List.length_singleton, Nat.cast_one, hw]
  have hiff : Feasible (wassersteinNetwork [a] [b]) f ↔ f 0 = 1 ∧ f 1 = 1 ∧ f 2 = 1 := by
    unfold Feasible
    rw [hnet, isFlow_bipartite_iff]
    simp only [BipartiteFlow, bipartiteNetwork, List.length_singleton, Finset.sum_range_one,
      Nat.lt_one_iff, forall_eq, Nat.add_zero, Nat.zero_mul]
    constructor
    · rintro ⟨_, h1, h2, h3, _⟩
      exact ⟨h1, h2, by rw [← h1]; exact h3⟩
    · rintro ⟨h0, h1, h2⟩
      simp [h0, h1, h2]
  have hcost : totalCost (wassersteinNetwork [a] [b]) f =
      (f 2 : ℚ) * distance a.feature b.feature := by
    rw [hnet, totalCost_bipartite]
    simp [featureAt]
  refine ⟨?_, ?_, hiff, fun hf => ?_⟩
  · rw [hnet]
    simp [bipartiteNetwork]
  · rw [hnet]
    rfl
  · obtain ⟨_, _, h2⟩ := hiff.1 hf
    have hc : totalCost (wassersteinNetwork [a] [b]) f = distance a.feature b.feature := by
      rw [hcost, h2]
      simp
    refine ⟨hc, ?_⟩
    have hw1 : wrap32 1 = 1 := by decide
    simp [wasserstein, hw1, hc]

theorem wasserstein_single_points_witness :
    Feasible (wassersteinNetwork [⟨0, [(0, 1)]⟩] [⟨1, [(0, 3), (2, 1)]⟩]) (fun _ => 1) ∧
      wasserstein [⟨0, [(0, 1)]⟩] [⟨1, [(0, 3), (2, 1)]⟩] (fun _ => 1)
        = some (distance [(0, 1)] [(0, 3), (2, 1)]) := by
  have h := wasserstein_single_points ⟨0, [(0, 1)]⟩ ⟨1, [(0, 3), (2, 1)]⟩ (fun _ => 1)
  have hf := h.2.2.1.2 ⟨rfl, rfl, rfl⟩
  exact ⟨hf, (h.2.2.2 hf).2⟩

theorem labelAt_cons_succ (d : MyDatum) (t : List MyDatum) (i : Nat) :
    labelAt (d :: t) (i + 1) = labelAt t i := by
  simp only [labelAt, List.getD_cons_succ]

theorem countBefore_eq_classCount (data : List MyDatum) (c : Nat)
    (hnn : ∀ d ∈ data, 0 ≤ d.label) :
    countBefore data c data.length = classCount data c := by
  induction data with
  | nil => simp [countBefore, classCount]
  | cons d t ih =>
    have ht := ih (fun e he => hnn e (List.mem_cons_of_mem _ he))
    have hd := hnn d (List.mem_cons_self _ _)
    unfold countBefore classCount at ht ⊢
    rw [List.length_cons, Finset.sum_range_succ']
    simp only [labelAt_cons_succ, ht, List.countP_cons]
    have h0 : labelAt (d :: t) 0 = d.label.toNat := by simp [labelAt]
    rw [h0]
    by_cases h : d.label = (c : Int)
    · have h1 : d.label.toNat = c := by omega
      simp [h, h1]
    · have h1 : ¬ d.label.toNat = c := by omega
      simp [h, h1]

theorem modeA_selectionFlow_feasible (data : List MyDatum) (sizes : List Int)
    (hlab : ∀ d ∈ data, 0 ≤ d.label ∧ d.label < sizes.length)
    (hnn : ∀ sz ∈ sizes, 0 ≤ sz)
    (hle : ∀ c, c < sizes.length → sizes.getD c 0 ≤ classCount data c)
    (hfit : (data.length : Int) * sizes.sum ≤ 2147483647) :
    biasedSamplingNetwork data sizes = some (modeANetwork data sizes) ∧
      Feasible (modeANetwork data sizes) (selectionFlow data sizes) := by
  have hl := labelAt_lt data sizes.length hlab
  have hnn' : ∀ c, c < sizes.length → 0 ≤ sizes.getD c 0 := fun c hc => by
    rw [List.getD_eq_getElem _ _ hc]
    exact hnn _ (List.getElem_mem hc)
  have hle' : ∀ c, c < sizes.length → sizes.getD c 0 ≤ countBefore data c data.length :=
    fun c hc => by
      rw [countBefore_eq_classCount data c (fun d hd => (hlab d hd).1)]
      exact hle c hc
  have hK : 0 ≤ sizes.sum := List.sum_nonneg hnn
  have hn : (0 : Int) ≤ data.length := by positivity
  have hKle : sizes.sum ≤ 2147483647 := by
    rcases Nat.eq_zero_or_pos data.length with h0 | hpos
    · have hz : ∀ c ∈ Finset.range sizes.length, sizes.getD c 0 = 0 := fun c hc => by
        have h1 := hle' c (Finset.mem_range.1 hc)
        have h2 := hnn' c (Finset.mem_range.1 hc)
        rw [h0] at h1
        simp only [countBefore, Finset.range_zero, Finset.sum_empty] at h1
        omega
      rw [← sum_getD_range, Finset.sum_eq_zero hz]
      decide
    · have h1 : (1 : Int) ≤ data.length := by exact_mod_cast hpos
      nlinarith
  have hfits : NoOverflow data sizes := by
    refine ⟨⟨by omega, hKle⟩, fun sz hsz => ?_, ⟨?_, hfit⟩⟩
    · have h1 : sz ≤ sizes.sum := List.single_le_sum hnn sz hsz
      have h2 := hnn sz hsz
      constructor
      · nlinarith
      · nlinarith
    · nlinarith
  refine ⟨biasedSamplingNetwork_exact data sizes hlab hfits, ?_⟩
  unfold Feasible
  rw [modeANetwork_eq_layered, isFlow_layered_iff _ _ _ _ _ _ _ _ hl]
  exact selectionFlow_layered data sizes _ _ _ hl hnn' hle' (fun _ _ => rfl) rfl rfl

/-- C10, as amended: when the labels are non-negative and below the number of class sizes,
the sizes are non-negative, no class size exceeds the number of items that carry its label,
and `N * K` fits a 32-bit `int`, the network built by `biasedSampling` is feasible: an
integer flow respects every capacity, conserves flow at every node other than `S` and `T`
and ships the required `N * K` units. -/
theorem biasedSampling_feasible (data : List MyDatum) (sizes : List Int)
    (hlab : ∀ d ∈ data, 0 ≤ d.label ∧ d.label < sizes.length)
    (hnn : ∀ sz ∈ sizes, 0 ≤ sz)
    (hle : ∀ c, c < sizes.length → sizes.getD c 0 ≤ classCount data c)
    (hfit : (data.length : Int) * sizes.sum ≤ 2147483647) :
    ∃ net, biasedSamplingNetwork data sizes = some net ∧
      net.supply = data.length * sizes.sum ∧ ∃ f, Feasible net f :=
  ⟨modeANetwork data sizes, (modeA_selectionFlow_feasible data sizes hlab hnn hle hfit).1, rfl,
    selectionFlow data sizes, (modeA_selectionFlow_feasible data sizes hlab hnn hle hfit).2⟩

theorem biasedSampling_feasible_witness :
    (∀ d ∈ threePoints, 0 ≤ d.label ∧ d.label < ([2, 1] : List Int).length) ∧
      (∀ sz ∈ ([2, 1] : List Int), 0 ≤ sz) ∧
      (∀ c, c < ([2, 1] : List Int).length →
        ([2, 1] : List Int).getD c 0 ≤ classCount threePoints c) ∧
      ((threePoints.length : Int) * ([2, 1] : List Int).sum ≤ 2147483647) ∧
      ∃ net, biasedSamplingNetwork threePoints [2, 1] = some net ∧
        net.supply = threePoints.length * ([2, 1] : List Int).sum ∧ ∃ f, Feasible net f :=
  ⟨by decide, by decide, by decide, by decide,
    biasedSampling_feasible threePoints [2, 1] (by decide) (by decide) (by decide) (by decide)⟩

/-- C10 fails as stated. For one item of label 0 and the class size 2 (a non-negative size,
the label has its entry) the network built by `biasedSampling` asks for 2 units, of which
the single arc into the only left vertex, of capacity `N = 1`, can carry one: no flow is
feasible. For 46341 items of label 0 and the class size 46341 the product `N * K` exceeds
the range of `int`, the supply handed to the solver is negative, and again no flow is
feasible. -/
theorem biasedSampling_infeasible :
    ((∀ d ∈ onePoint, 0 ≤ d.label ∧ d.label < ([2] : List Int).length) ∧
      (∀ sz ∈ ([2] : List Int), 0 ≤ sz) ∧
      biasedSamplingNetwork onePoint [2] = some (modeANetwork onePoint [2]) ∧
      (modeANetwork onePoint [2]).supply = 2 ∧
      ¬ ∃ f, Feasible (modeANetwork onePoint [2]) f) ∧
    ((∀ d ∈ singleClassPoints, 0 ≤ d.label ∧ d.label < ([46341] : List Int).length) ∧
      classCount singleClassPoints 0 = 46341 ∧
      ∃ net, biasedSamplingNetwork singleClassPoints [46341] = some net ∧
        net.supply = -2147479015 ∧ ¬ ∃ f, Feasible net f) := by
  have hlab : ∀ d ∈ onePoint, 0 ≤ d.label ∧ d.label < ([2] : List Int).length := by decide
  have hlab2 : ∀ d ∈ singleClassPoints,
      0 ≤ d.label ∧ d.label < ([46341] : List Int).length := by
    intro d hd
    rw [List.eq_of_mem_replicate hd]
    decide
  have hcount : classCount singleClassPoints 0 = 46341 := by
    unfold classCount singleClassPoints
    rw [List.countP_replicate]
    decide
  have hlen : singleClassPoints.length = 46341 := List.length_replicate _ _
  have hsup : wrap32 (((46341 : Nat) : Int) * sumSizes [46341]) = -2147479015 := by decide
  refine ⟨⟨hlab, by decide, biasedSamplingNetwork_exact onePoint [2] hlab (by decide),
    by decide, ?_⟩, hlab2, hcount, _, biasedSamplingNetwork_eq _ _ hlab2, ?_, ?_⟩
  · rintro ⟨f, hf⟩
    unfold Feasible at hf
    rw [modeANetwork_eq_layered,
      isFlow_layered_iff _ _ _ _ _ _ _ _ (labelAt_lt onePoint _ hlab)] at hf
    obtain ⟨⟨_, hcap, _, _⟩, hS, _, hI, _, _⟩ := hf
    have h1 := (hcap 0 (by decide)).2
    have h2 := hI 0 (by decide)
    have h3 : labelAt onePoint 0 = 0 := by decide
    have hlen1 : onePoint.length = 1 := rfl
    have hsup1 : (layeredNetwork onePoint [2] (fun sz => (onePoint.length : Int) * sz)
        onePoint.length ([2] : List Int).sum
        ((onePoint.length : Int) * ([2] : List Int).sum)).supply = 2 := by decide
    rw [hsup1] at hS
    simp only [hlen1, List.length_singleton, Finset.sum_range_one, Nat.add_zero,
      Nat.cast_one] at h1 h2 hS
    rw [if_pos h3] at h2
    omega
  · show wrap32 ((singleClassPoints.length : Int) * sumSizes [46341]) = -2147479015
    rw [hlen]
    exact hsup
  · rintro ⟨f, hf⟩
    unfold Feasible at hf
    rw [isFlow_layered_iff _ _ _ _ _ _ _ _ (labelAt_lt singleClassPoints _ hlab2)] at hf
    obtain ⟨⟨hcap, _, _, _⟩, hS, _, _, _, _⟩ := hf
    have h1 := (hcap 0 (by decide)).1
    have hS' : f 0 = wrap32 ((singleClassPoints.length : Int) * sumSizes [46341]) := by
      simpa only [List.length_singleton, Finset.sum_range_one] using hS
    rw [hlen, hsup] at hS'
    omega

theorem mem_enumFrom_of_lt {α : Type} (l : List α) (b i : Nat) (h : i < l.length) :
    (b + i, l[i]) ∈ l.enumFrom b := by
  rw [List.mk_mem_enumFrom_iff_le_and_getElem?_sub]
  refine ⟨by omega, ?_⟩
  rw [Nat.add_sub_cancel_left, List.getElem?_eq_getElem h]

theorem exists_label_of_classCount (data : List MyDatum) (c : Nat)
    (h : 1 ≤ classCount data c) : ∃ i, ∃ hi : i < data.length, data[i].label = (c : Int) := by
  unfold classCount at h
  obtain ⟨x, hx, hp⟩ := List.countP_pos_iff.1 h
  obtain ⟨i, hi, rfl⟩ := List.getElem_of_mem hx
  exact ⟨i, hi, by simpa using hp⟩

theorem layered_connected (data : List MyDatum) (sizes : List Int) (capS : Int → Int)
    (capL capR capX : Int)
    (hall : ∀ c, c < sizes.length → 1 ≤ classCount data c) :
    InnerNodesConnected (layeredNetwork data sizes capS capL capR capX) := by
  intro v hv hs ht
  have hs' : v ≠ 0 := hs
  have ht' : v ≠ 1 := ht
  have hv' : v < 2 + sizes.length + data.length + data.length := hv
  simp only [hasIncoming, hasOutgoing, layeredNetwork, List.mem_append, List.mem_map,
    List.mem_flatMap]
  by_cases hc : v < 2 + sizes.length
  · obtain ⟨c, rfl⟩ : ∃ c, v = 2 + c := ⟨v - 2, by omega⟩
    have hcl : c < sizes.length := by omega
    obtain ⟨i, hi, hlab⟩ := exists_label_of_classCount data c (hall c hcl)
    constructor
    · exact ⟨_, Or.inl (Or.inl (Or.inl ⟨_, mem_enumFrom_of_lt sizes 2 c hcl, rfl⟩)), rfl⟩
    · refine ⟨_, Or.inl (Or.inl (Or.inr
        ⟨_, mem_enumFrom_of_lt data (2 + sizes.length) i hi, rfl⟩)), ?_⟩
      simp only [hlab]
      simp
  · by_cases hi : v < 2 + sizes.length + data.length
    · obtain ⟨i, rfl⟩ : ∃ i, v = 2 + sizes.length + i := ⟨v - (2 + sizes.length), by omega⟩
      have hil : i < data.length := by omega
      have h0 : 0 < data.length := by omega
      constructor
      · exact ⟨_, Or.inl (Or.inl (Or.inr
          ⟨_, mem_enumFrom_of_lt data (2 + sizes.length) i hil, rfl⟩)), rfl⟩
      · exact ⟨_, Or.inr ⟨_, mem_enumFrom_of_lt data (2 + sizes.length) i hil,
          _, mem_enumFrom_of_lt data (2 + sizes.length + data.length) 0 h0, rfl⟩, rfl⟩
    · obtain ⟨j, rfl⟩ : ∃ j, v = 2 + sizes.length + data.length + j :=
        ⟨v - (2 + sizes.length + data.length), by omega⟩
      have hjl : j < data.length := by omega
      have h0 : 0 < data.length := by omega
      constructor
      · exact ⟨_, Or.inr ⟨_, mem_enumFrom_of_lt data (2 + sizes.length) 0 h0,
          _, mem_enumFrom_of_lt data (2 + sizes.length + data.length) j hjl, rfl⟩, rfl⟩
      · exact ⟨_, Or.inl (Or.inr
          ⟨_, mem_enumFrom_of_lt data (2 + sizes.length + data.length) j hjl, rfl⟩), rfl⟩

theorem bipartite_connected (data1 data2 : List MyDatum) (capL capR capX : Int)
    (h : data1 = [] ↔ data2 = []) :
    InnerNodesConnected (bipartiteNetwork data1 data2 capL capR capX) := by
  intro v hv hs ht
  have hs' : v ≠ 0 := hs
  have ht' : v ≠ 1 := ht
  have hv' : v < 2 + data1.length + data2.length := hv
  have hpos : 0 < data1.length ∧ 0 < data2.length := by
    by_cases h1 : data1 = []
    · have h2 := h.1 h1
      subst h1; subst h2
      simp at hv'
      omega
    · have h2 : data2 ≠ [] := fun h2 => h1 (h.2 h2)
      exact ⟨List.length_pos.2 h1, List.length_pos.2 h2⟩
  simp only [hasIncoming, hasOutgoing, bipartiteNetwork, List.mem_append, List.mem_map,
    List.mem_flatMap]
  by_cases hi : v < 2 + data1.length
  · obtain ⟨i, rfl⟩ : ∃ i, v = 2 + i := ⟨v - 2, by omega⟩
    have hil : i < data1.length := by omega
    constructor
    · exact ⟨_, Or.inl (Or.inl ⟨_, mem_enumFrom_of_lt data1 2 i hil, rfl⟩), rfl⟩
    · exact ⟨_, Or.inr ⟨_, mem_enumFrom_of_lt data1 2 i hil,
        _, mem_enumFrom_of_lt data2 (2 + data1.length) 0 hpos.2, rfl⟩, rfl⟩
  · obtain ⟨j, rfl⟩ : ∃ j, v = 2 + data1.length + j := ⟨v - (2 + data1.length), by omega⟩
    have hjl : j < data2.length := by omega
    constructor
    · exact ⟨_, Or.inr ⟨_, mem_enumFrom_of_lt data1 2 0 hpos.1,
        _, mem_enumFrom_of_lt data2 (2 + data1.length) j hjl, rfl⟩, rfl⟩
    · exact ⟨_, Or.inl (Or.inr
        ⟨_, mem_enumFrom_of_lt data2 (2 + data1.length) j hjl, rfl⟩), rfl⟩

theorem noOverflow_of_fit (data : List MyDatum) (sizes : List Int) (hne : data ≠ [])
    (hnn : ∀ sz ∈ sizes, 0 ≤ sz)
    (hfit : (data.length : Int) * sizes.sum ≤ 2147483647) : NoOverflow data sizes := by
  have hpos : 0 < data.length := List.length_pos.2 hne
  have h1 : (1 : Int) ≤ data.length := by exact_mod_cast hpos
  have hK : 0 ≤ sizes.sum := List.sum_nonneg hnn
  refine ⟨⟨by omega, by nlinarith⟩, fun sz hsz => ?_, ⟨by nlinarith, hfit⟩⟩
  have h2 : sz ≤ sizes.sum := List.single_le_sum hnn sz hsz
  have h3 := hnn sz hsz
  constructor
  · nlinarith
  · nlinarith

theorem layeredFlow_class_bound (data : List MyDatum) (sizes : List Int) (capR capX : Int)
    (f : Nat → Int) (hne : data ≠ [])
    (hlab : ∀ d ∈ data, 0 ≤ d.label ∧ d.label < sizes.length)
    (h : LayeredFlow data sizes (fun sz => (data.length : Int) * sz) data.length capR capX f
      (data.length * sizes.sum)) :
    ∀ c, c < sizes.length → sizes.getD c 0 ≤ classCount data c := by
  obtain ⟨⟨hcapS, hcapL, _, _⟩, hS, _, hI, _, _⟩ := h
  have hpos : 0 < data.length := List.length_pos.2 hne
  have hN : (0 : Int) < data.length := by exact_mod_cast hpos
  have hsum : ∑ c in Finset.range sizes.length,
      ((data.length : Int) * sizes.getD c 0 - f c) = 0 := by
    rw [Finset.sum_sub_distrib, hS, ← Finset.mul_sum, sum_getD_range]
    ring
  have hzero := (Finset.sum_eq_zero_iff_of_nonneg
    (fun c hc => sub_nonneg.2 (hcapS c (Finset.mem_range.1 hc)).2)).1 hsum
  intro c hc
  have hfc : f c = (data.length : Int) * sizes.getD c 0 := by
    have := hzero c (Finset.mem_range.2 hc)
    simp only at this
    linarith
  have hle : (∑ i in Finset.range data.length,
      if labelAt data i = c then f (sizes.length + i) else 0) ≤
      ∑ i in Finset.range data.length,
        (data.length : Int) * (if labelAt data i = c then 1 else 0) := by
    apply Finset.sum_le_sum
    intro i hi
    split_ifs
    · simpa using (hcapL i (Finset.mem_range.1 hi)).2
    · simp
  rw [hI c hc, hfc, ← Finset.mul_sum] at hle
  have hcount : (∑ i in Finset.range data.length, if labelAt data i = c then (1 : Int) else 0)
      = classCount data c := countBefore_eq_classCount data c (fun d hd => (hlab d hd).1)
  rw [hcount] at hle
  exact le_of_mul_le_mul_left hle hN

theorem modeA_feasible_iff (data : List MyDatum) (sizes : List Int) (hne : data ≠ [])
    (hlab : ∀ d ∈ data, 0 ≤ d.label ∧ d.label < sizes.length)
    (hnn : ∀ sz ∈ sizes, 0 ≤ sz)
    (hfit : (data.length : Int) * sizes.sum ≤ 2147483647) :
    biasedSamplingNetwork data sizes = some (modeANetwork data sizes) ∧
      ((∃ f, IsFlow (modeANetwork data sizes) f (data.length * sizes.sum)) ↔
        ∀ c, c < sizes.length → sizes.getD c 0 ≤ classCount data c) := by
  refine ⟨biasedSamplingNetwork_exact data sizes hlab (noOverflow_of_fit data sizes hne hnn hfit),
    ?_, fun hle => ?_⟩
  · rintro ⟨f, hf⟩
    rw [modeANetwork_eq_layered,
      isFlow_layered_iff _ _ _ _ _ _ _ _ (labelAt_lt data _ hlab)] at hf
    exact layeredFlow_class_bound data sizes _ _ f hne hlab hf
  · exact ⟨selectionFlow data sizes,
      (modeA_selectionFlow_feasible data sizes hlab hnn hle hfit).2⟩

theorem onePoint_no_flow : ¬ ∃ f, Feasible (modeANetwork onePoint [2]) f := by
  have hlab : ∀ d ∈ onePoint, 0 ≤ d.label ∧ d.label < ([2] : List Int).length := by decide
  rintro ⟨f, hf⟩
  unfold Feasible at hf
  rw [modeANetwork_eq_layered,
    isFlow_layered_iff _ _ _ _ _ _ _ _ (labelAt_lt onePoint _ hlab)] at hf
  obtain ⟨⟨_, hcap, _, _⟩, hS, _, hI, _, _⟩ := hf
  have h1 := (hcap 0 (by decide)).2
  have h2 := hI 0 (by decide)
  have h3 : labelAt onePoint 0 = 0 := by decide
  have hlen1 : onePoint.length = 1 := rfl
  have hsup1 : (layeredNetwork onePoint [2] (fun sz => (onePoint.length : Int) * sz)
      onePoint.length ([2] : List Int).sum
      ((onePoint.length : Int) * ([2] : List Int).sum)).supply = 2 := by decide
  rw [hsup1] at hS
  simp only [hlen1, List.length_singleton, Finset.sum_range_one, Nat.add_zero,
    Nat.cast_one] at h1 h2 hS
  rw [if_pos h3] at h2
  omega

theorem totalCost_zeroFlow (net : Network) : totalCost net zeroFlow = 0 := by
  unfold totalCost
  generalize net.graph.arcs = l
  generalize 0 = k
  induction l generalizing k with
  | nil => rfl
  | cons a t ih => simp [arcSumFrom, zeroFlow, ih]

theorem singleClass_no_flow :
    ¬ ∃ f, IsFlow (layeredNetwork singleClassPoints [46341]
      (fun sz => wrap32 ((singleClassPoints.length : Int) * sz)) singleClassPoints.length
      (sumSizes [46341]) (wrap32 ((singleClassPoints.length : Int) * sumSizes [46341]))) f
      (46341 * 46341) := by
  have hlab2 : ∀ d ∈ singleClassPoints,
      0 ≤ d.label ∧ d.label < ([46341] : List Int).length := by
    intro d hd
    rw [List.eq_of_mem_replicate hd]
    decide
  have hlen : singleClassPoints.length = 46341 := List.length_replicate _ _
  have hcap0 : wrap32 (((46341 : Nat) : Int) * ([46341] : List Int).getD 0 0) < 0 := by decide
  rintro ⟨f, hf⟩
  rw [isFlow_layered_iff _ _ _ _ _ _ _ _ (labelAt_lt singleClassPoints _ hlab2)] at hf
  obtain ⟨⟨hcap, _, _, _⟩, _, _, _, _, _⟩ := hf
  have h1 := hcap 0 (by decide)
  simp only [hlen] at h1
  omega

theorem mapCount_iff (m : NbhMap) (key : Nat) : mapCount m key = true ↔ key ∈ keys m := by
  simp only [mapCount, keys, List.any_eq_true, List.mem_map, beq_iff_eq]

theorem keys_mapAssign (m : NbhMap) (key : Nat) (v : ℚ) :
    keys (mapAssign m key v) = if key ∈ keys m then keys m else keys m ++ [key] := by
  unfold mapAssign
  by_cases h : mapCount m key = true
  · have hk := (mapCount_iff m key).1 h
    rw [if_pos h, if_pos hk]
    simp only [keys, List.map_map]
    apply List.map_congr_left
    intro e _
    by_cases he : e.1 = key <;> simp [he]
  · have hk : ¬ key ∈ keys m := fun hk => h ((mapCount_iff m key).2 hk)
    rw [if_neg h, if_neg hk]
    simp [keys]

theorem mem_mapAssign (m : NbhMap) (key : Nat) (v : ℚ) (e : Node)
    (he : e ∈ mapAssign m key v) : e ∈ m ∨ e = (key, v) := by
  unfold mapAssign at he
  split_ifs at he
  · obtain ⟨e', he', rfl⟩ := List.mem_map.1 he
    by_cases h : e'.1 = key
    · right; simp [h]
    · left; simpa [h] using he'
  · rcases List.mem_append.1 he with h | h
    · exact Or.inl h
    · exact Or.inr (by simpa using h)

theorem mem_keys_mapAssign_self (m : NbhMap) (key : Nat) (v : ℚ) :
    key ∈ keys (mapAssign m key v) := by
  rw [keys_mapAssign]
  split_ifs with h
  · exact h
  · simp

theorem mem_keys_mapAssign_of_mem (m : NbhMap) (key : Nat) (v : ℚ) (key' : Nat)
    (h : key' ∈ keys m) : key' ∈ keys (mapAssign m key v) := by
  rw [keys_mapAssign]
  split_ifs
  · exact h
  · exact List.mem_append_left _ h

theorem rowOk_mapAssign (n : Nat) (d : Nat → Nat → ℚ) (i : Nat) (m : NbhMap) (key : Nat)
    (v : ℚ) (hm : RowOk n d i m) (h1 : key ≠ i) (h2 : key < n) (h3 : v = d i key) :
    RowOk n d i (mapAssign m key v) := by
  refine ⟨?_, fun e he => ?_⟩
  · rw [keys_mapAssign]
    split_ifs with h
    · exact hm.1
    · exact List.Nodup.append hm.1 (List.nodup_singleton _) (by simpa using h)
  · rcases mem_mapAssign m key v e he with h | h
    · exact hm.2 e h
    · subst h
      exact ⟨h1, h2, h3⟩

theorem rowOk_nil (n : Nat) (d : Nat → Nat → ℚ) (i : Nat) : RowOk n d i [] := by
  simp [RowOk, keys]

theorem getD_set_eq (nbh : List NbhMap) (i : Nat) (x : NbhMap) (i' : Nat)
    (hi : i < nbh.length) :
    (nbh.set i x).getD i' [] = if i = i' then x else nbh.getD i' [] := by
  simp only [List.getD_eq_getElem?_getD, List.getElem?_set]
  by_cases h : i = i'
  · subst h
    simp [hi]
  · simp [h]

theorem assignAt_ok (n : Nat) (d : Nat → Nat → ℚ) (nbh : List NbhMap) (i key : Nat) (v : ℚ)
    (hinv : PoolsInv n d nbh) (hi : i < n) (h1 : key ≠ i) (h2 : key < n) (h3 : v = d i key) :
    ∃ nbh', assignAt nbh i key v = some nbh' ∧ PoolsInv n d nbh' ∧ KeysLe nbh nbh' ∧
      key ∈ keys (nbh'.getD i []) := by
  have hlen : i < nbh.length := by rw [hinv.1]; exact hi
  refine ⟨nbh.set i (mapAssign (nbh.getD i []) key v), by simp [assignAt, hlen], ?_, ?_, ?_⟩
  · refine ⟨by simp [hinv.1], fun i' hi' => ?_⟩
    rw [getD_set_eq _ _ _ _ hlen]
    split_ifs with h
    · subst h
      exact rowOk_mapAssign n d i _ key v (hinv.2 i hi) h1 h2 h3
    · exact hinv.2 i' hi'
  · intro i' key' hk
    rw [getD_set_eq _ _ _ _ hlen]
    split_ifs with h
    · subst h
      exact mem_keys_mapAssign_of_mem _ _ _ _ hk
    · exact hk
  · rw [getD_set_eq _ _ _ _ hlen, if_pos rfl]
    exact mem_keys_mapAssign_self _ _ _

theorem KeysLe.refl (nbh : List NbhMap) : KeysLe nbh nbh := fun _ _ h => h

theorem KeysLe.trans {a b c : List NbhMap} (h₁ : KeysLe a b) (h₂ : KeysLe b c) : KeysLe a c :=
  fun i key h => h₂ i key (h₁ i key h)

theorem linkPair_ok (n : Nat) (d : Nat → Nat → ℚ) (hsym : ∀ a b, d a b = d b a)
    (nbh : List NbhMap) (i j : Nat) (v : ℚ)
    (hinv : PoolsInv n d nbh) (hi : i < n) (hj : j < n) (hij : j ≠ i) (hv : v = d i j) :
    ∃ nbh', linkPair nbh i j v = some nbh' ∧ PoolsInv n d nbh' ∧ KeysLe nbh nbh' ∧
      j ∈ keys (nbh'.getD i []) := by
  have hlen : i < nbh.length := by rw [hinv.1]; exact hi
  have hget : nbh[i]? = some (nbh.getD i []) := by
    rw [List.getD_eq_getElem _ _ hlen, List.getElem?_eq_getElem hlen]
  have hform : linkPair nbh i j v =
      if mapCount (nbh.getD i []) j then some nbh
      else (assignAt nbh j i v).bind (fun t => assignAt t i j v) := by
    unfold linkPair
    rw [hget]
  rw [hform]
  by_cases hc : mapCount (nbh.getD i []) j = true
  · exact ⟨nbh, by rw [if_pos hc], hinv, KeysLe.refl _, (mapCount_iff _ _).1 hc⟩
  · obtain ⟨t, ht, hinv1, hle1, _⟩ :=
      assignAt_ok n d nbh j i v hinv hj (Ne.symm hij) hi (by rw [hv, hsym])
    obtain ⟨t', ht', hinv2, hle2, hmem⟩ := assignAt_ok n d t i j v hinv1 hi hij hj hv
    exact ⟨t', by rw [if_neg hc, ht, Option.some_bind, ht'], hinv2, hle1.trans hle2, hmem⟩

theorem joinEarlier_ok (n : Nat) (d : Nat → Nat → ℚ) (hsym : ∀ a b, d a b = d b a) (j : Nat)
    (hj : j < n) (earlier : List Node) (nbh : List NbhMap)
    (hinv : PoolsInv n d nbh) (he : ∀ e ∈ earlier, e.1 < n ∧ e.1 ≠ j) :
    ∃ nbh', joinEarlier d j earlier nbh = some nbh' ∧ PoolsInv n d nbh' ∧ KeysLe nbh nbh' := by
  induction earlier generalizing nbh with
  | nil => exact ⟨nbh, rfl, hinv, KeysLe.refl _⟩
  | cons e rest ih =>
    obtain ⟨h1, h2⟩ := he e (List.mem_cons_self _ _)
    obtain ⟨t, ht, hinv1, hle1, _⟩ := linkPair_ok n d hsym nbh j e.1 _ hinv hj h1 h2 rfl
    obtain ⟨t', ht', hinv2, hle2⟩ := ih t hinv1 (fun x hx => he x (List.mem_cons_of_mem _ hx))
    exact ⟨t', by simp [joinEarlier, ht, ht'], hinv2, hle1.trans hle2⟩

theorem gatherItem_ok (n : Nat) (d : Nat → Nat → ℚ) (hsym : ∀ a b, d a b = d b a) (i : Nat)
    (hi : i < n) (remaining earlier : List Node) (nbh : List NbhMap)
    (hinv : PoolsInv n d nbh) (hrow : RowOk n d i (earlier ++ remaining))
    (hin : ∀ e ∈ earlier, e.1 ∈ keys (nbh.getD i [])) :
    ∃ nbh', gatherItem d i earlier remaining nbh = some nbh' ∧ PoolsInv n d nbh' ∧
      KeysLe nbh nbh' ∧ ∀ e ∈ earlier ++ remaining, e.1 ∈ keys (nbh'.getD i []) := by
  induction remaining generalizing earlier nbh with
  | nil =>
    refine ⟨nbh, rfl, hinv, KeysLe.refl _, fun e he => hin e (by simpa using he)⟩
  | cons e rest ih =>
    have hmem : e ∈ earlier ++ e :: rest := by simp
    obtain ⟨h1, h2, h3⟩ := hrow.2 e hmem
    obtain ⟨t, ht, hinv1, hle1, hk1⟩ := linkPair_ok n d hsym nbh i e.1 e.2 hinv hi h2 h1 h3
    have hnd : (keys earlier ++ e.1 :: keys rest).Nodup := by
      have := hrow.1
      simpa [keys] using this
    have hearlier : ∀ x ∈ earlier, x.1 < n ∧ x.1 ≠ e.1 := by
      intro x hx
      refine ⟨(hrow.2 x (List.mem_append_left _ hx)).2.1, fun hxe => ?_⟩
      have hdisj := (List.nodup_append.1 hnd).2.2
      exact hdisj (List.mem_map.2 ⟨x, hx, rfl⟩) (by rw [hxe]; exact List.mem_cons_self _ _)
    obtain ⟨t', ht', hinv2, hle2⟩ := joinEarlier_ok n d hsym e.1 h2 earlier t hinv1 hearlier
    have hrow' : RowOk n d i ((earlier ++ [e]) ++ rest) := by simpa using hrow
    have hin' : ∀ x ∈ earlier ++ [e], x.1 ∈ keys (t'.getD i []) := by
      intro x hx
      rcases List.mem_append.1 hx with h | h
      · exact hle2 i _ (hle1 i _ (hin x h))
      · have : x = e := by simpa using h
        subst this
        exact hle2 i _ hk1
    obtain ⟨t'', ht'', hinv3, hle3, hall⟩ := ih (earlier ++ [e]) t' hinv2 hrow' hin'
    refine ⟨t'', by simp [gatherItem, ht, ht', ht''], hinv3, (hle1.trans hle2).trans hle3, ?_⟩
    intro x hx
    exact hall x (by simpa using hx)

theorem gatherFrom_ok (n : Nat) (d : Nat → Nat → ℚ) (hsym : ∀ a b, d a b = d b a)
    (rows : List (List Node)) (i : Nat) (nbh : List NbhMap)
    (hinv : PoolsInv n d nbh) (hle : i + rows.length ≤ n)
    (hrows : ∀ t, t < rows.length → RowOk n d (i + t) (rows.getD t [])) :
    ∃ nbh', gatherFrom d i rows nbh = some nbh' ∧ PoolsInv n d nbh' ∧ KeysLe nbh nbh' ∧
      ∀ t, t < rows.length → ∀ e ∈ rows.getD t [], e.1 ∈ keys (nbh'.getD (i + t) []) := by
  induction rows generalizing i nbh with
  | nil => exact ⟨nbh, rfl, hinv, KeysLe.refl _, fun t ht => absurd ht (by simp)⟩
  | cons row rest ih =>
    simp only [List.length_cons] at hle
    have hrow : RowOk n d i ([] ++ row) := by
      simpa using hrows 0 (by simp)
    obtain ⟨t1, ht1, hinv1, hle1, hall1⟩ :=
      gatherItem_ok n d hsym i (by omega) row [] nbh hinv hrow (by simp)
    have hrest : ∀ t, t < rest.length → RowOk n d (i + 1 + t) (rest.getD t []) := by
      intro t ht
      have := hrows (t + 1) (by simpa using ht)
      simpa [List.getD_cons_succ, Nat.add_assoc, Nat.add_comm 1 t] using this
    obtain ⟨t2, ht2, hinv2, hle2, hall2⟩ := ih (i + 1) t1 hinv1 (by omega) hrest
    refine ⟨t2, by simp [gatherFrom, ht1, ht2], hinv2, hle1.trans hle2, ?_⟩
    intro t ht e he
    cases t with
    | zero =>
      have he' : e ∈ [] ++ row := by simpa using he
      exact hle2 i _ (hall1 e he')
    | succ t =>
      have := hall2 t (by simpa using ht) e (by simpa using he)
      simpa [Nat.add_assoc, Nat.add_comm 1 t] using this

theorem poolsInv_replicate (n : Nat) (d : Nat → Nat → ℚ) :
    PoolsInv n d (List.replicate n []) := by
  refine ⟨by simp, fun i hi => ?_⟩
  have : (List.replicate n ([] : NbhMap)).getD i [] = [] := by
    simp [List.getD_eq_getElem?_getD, List.getElem?_replicate, hi]
  rw [this]
  exact rowOk_nil n d i

theorem gatherPools_ok (n k : Nat) (d : Nat → Nat → ℚ) (hsym : ∀ a b, d a b = d b a)
    (adj : List (List Node)) (hinv : CandidateInv n k d adj) :
    ∃ pools, gatherPools d adj = some pools ∧ PoolsInv n d pools ∧
      ∀ i, i < n → ∀ e ∈ adj.getD i [], e.1 ∈ keys (pools.getD i []) := by
  obtain ⟨hlen, hrows⟩ := hinv
  obtain ⟨pools, hp, hpi, _, hall⟩ := gatherFrom_ok n d hsym adj 0 (List.replicate n [])
    (poolsInv_replicate n d) (by omega)
    (fun t ht => by simpa using (hrows t (by omega)).2)
  refine ⟨pools, by rw [gatherPools, hlen]; exact hp, hpi, fun i hi e he => ?_⟩
  simpa using hall i (by omega) e he

theorem selectItem_eq (k : Nat) (row : List Node) (pool : NbhMap) :
    selectItem k row pool =
      if k ≤ pool.length ∧ k ≤ row.length then
        some ((List.insertionSort byDistance pool).take k ++ row.drop k,
          (List.zip (row.take k) ((List.insertionSort byDistance pool).take k)).any
            (fun p => decide (p.1.2 ≠ p.2.2)))
      else none := by
  unfold selectItem partialSort overwriteFirst
  by_cases h1 : k ≤ pool.length
  · by_cases h2 : k ≤ row.length
    · simp [h1, h2]
    · simp [h1, h2]
  · simp [h1]

theorem selectAll_spec (k : Nat) (rows : List (List Node)) (pools : List NbhMap)
    (rows' : List (List Node)) (c : Bool) (h : selectAll k rows pools = some (rows', c)) :
    rows'.length = rows.length ∧
      (∀ i, i < rows.length → ∃ ci,
        selectItem k (rows.getD i []) (pools.getD i []) = some (rows'.getD i [], ci)) ∧
      (c = true ↔ ∃ i, i < rows.length ∧ ∃ r,
        selectItem k (rows.getD i []) (pools.getD i []) = some (r, true)) := by
  induction rows generalizing pools rows' c with
  | nil =>
    simp only [selectAll, Option.some.injEq, Prod.mk.injEq] at h
    obtain ⟨rfl, rfl⟩ := h
    simp
  | cons row rest ih =>
    cases pools with
    | nil => simp [selectAll] at h
    | cons pool ps =>
      simp only [selectAll] at h
      cases h1 : selectItem k row pool with
      | none => simp [h1] at h
      | some r =>
        cases h2 : selectAll k rest ps with
        | none => simp [h1, h2] at h
        | some rs =>
          simp only [h1, h2, Option.some_bind, Option.map_some', Option.some.injEq,
            Prod.mk.injEq] at h
          obtain ⟨rfl, rfl⟩ := h
          obtain ⟨r1, c1⟩ := r
          obtain ⟨rs1, c2⟩ := rs
          obtain ⟨hl, hall, hc⟩ := ih ps rs1 c2 h2
          refine ⟨by simp [hl], fun i hi => ?_, ?_⟩
          · cases i with
            | zero => exact ⟨c1, by simpa using h1⟩
            | succ i =>
              have := hall i (by simpa using hi)
              simpa using this
          · simp only [Bool.or_eq_true]
            constructor
            · rintro (hc1 | hc2)
              · subst hc1
                exact ⟨0, by simp, r1, by simpa using h1⟩
              · obtain ⟨i, hi, r, hr⟩ := hc.1 hc2
                exact ⟨i + 1, by simpa using hi, r, by simpa using hr⟩
            · rintro ⟨i, hi, r, hr⟩
              cases i with
              | zero =>
                left
                have : some (r1, c1) = some (r, true) := by
                  rw [← h1]; simpa using hr
                simp only [Option.some.injEq, Prod.mk.injEq] at this
                exact this.2
              | succ i =>
                right
                exact hc.2 ⟨i, by simpa using hi, r, by simpa using hr⟩

theorem selectAll_ok (k : Nat) (rows : List (List Node)) (pools : List NbhMap)
    (hlen : rows.length ≤ pools.length)
    (h : ∀ i, i < rows.length →
      k ≤ (pools.getD i []).length ∧ k ≤ (rows.getD i []).length) :
    ∃ r, selectAll k rows pools = some r := by
  induction rows generalizing pools with
  | nil => exact ⟨_, rfl⟩
  | cons row rest ih =>
    cases pools with
    | nil => simp at hlen
    | cons pool ps =>
      have h0 := h 0 (by simp)
      simp only [List.getD_cons_zero] at h0
      obtain ⟨rs, hrs⟩ := ih ps (by simpa using hlen) (fun i hi => by
        have := h (i + 1) (by simpa using hi)
        simpa using this)
      have hform : selectAll k (row :: rest) (pool :: ps) =
          (selectItem k row pool).bind (fun r =>
            (selectAll k rest ps).map (fun rs => (r.1 :: rs.1, r.2 || rs.2))) := rfl
      rw [hform, selectItem_eq, if_pos h0, Option.some_bind, hrs, Option.map_some']
      exact ⟨_, rfl⟩

theorem update_eq_some_iff (k : Nat) (d : Nat → Nat → ℚ) (adj : List (List Node))
    (r : List (List Node) × Bool) :
    update k d adj = some r ↔
      ∃ pools, gatherPools d adj = some pools ∧ selectAll k adj pools = some r := by
  unfold update
  cases gatherPools d adj with
  | none => simp
  | some pools => simp

theorem selectItem_selected (k : Nat) (row : List Node) (pool : NbhMap) (row' : List Node)
    (c : Bool) (hrow : row.length = k) (h : selectItem k row pool = some (row', c)) :
    row' = (List.insertionSort byDistance pool).take k ∧ k ≤ pool.length ∧
      SelectedFrom k row' pool := by
  rw [selectItem_eq] at h
  split_ifs at h with hk
  simp only [Option.some.injEq, Prod.mk.injEq] at h
  have hdrop : row.drop k = [] := List.drop_eq_nil_of_le (by omega)
  rw [hdrop, List.append_nil] at h
  obtain ⟨rfl, _⟩ := h
  have hsorted := List.sorted_insertionSort byDistance pool
  have hsplit : (List.insertionSort byDistance pool).take k ++
      (List.insertionSort byDistance pool).drop k = List.insertionSort byDistance pool :=
    List.take_append_drop _ _
  refine ⟨rfl, hk.1, ?_, ?_, (List.insertionSort byDistance pool).drop k, ?_, ?_⟩
  · rw [List.length_take, List.length_insertionSort]
    omega
  · exact hsorted.sublist (List.take_sublist _ _)
  · rw [hsplit]
    exact (List.perm_insertionSort byDistance pool).symm
  · intro e he e' he'
    have hp : List.Pairwise byDistance ((List.insertionSort byDistance pool).take k ++
        (List.insertionSort byDistance pool).drop k) := by
      rw [hsplit]; exact hsorted
    exact (List.pairwise_append.1 hp).2.2 e' he' e he

theorem selectedFrom_rowOk (n k : Nat) (d : Nat → Nat → ℚ) (i : Nat) (row' : List Node)
    (pool : NbhMap) (hpool : RowOk n d i pool) (h : SelectedFrom k row' pool) :
    RowOk n d i row' := by
  obtain ⟨_, _, rest, hperm, _⟩ := h
  refine ⟨?_, fun e he => hpool.2 e (hperm.symm.subset (List.mem_append_left _ he))⟩
  have h1 : (keys (row' ++ rest)).Nodup := ((hperm.map Prod.fst).nodup_iff).1 hpool.1
  have h2 : keys (row' ++ rest) = keys row' ++ keys rest := by simp [keys]
  rw [h2] at h1
  exact (List.nodup_append.1 h1).1

theorem length_le_of_keys_subset (row : List Node) (pool : NbhMap)
    (hnd : (keys row).Nodup) (hsub : ∀ e ∈ row, e.1 ∈ keys pool) :
    row.length ≤ pool.length := by
  have h1 : keys row ⊆ keys pool := by
    intro x hx
    obtain ⟨e, he, rfl⟩ := List.mem_map.1 hx
    exact hsub e he
  have h2 := (List.subperm_of_subset hnd h1).length_le
  simpa [keys] using h2

theorem update_preserves_inv (n k : Nat) (d : Nat → Nat → ℚ) (hsym : ∀ a b, d a b = d b a)
    (adj : List (List Node)) (hinv : CandidateInv n k d adj) :
    ∃ pools adj' cont, gatherPools d adj = some pools ∧
      (∀ i, i < n → k ≤ (pools.getD i []).length) ∧
      update k d adj = some (adj', cont) ∧ CandidateInv n k d adj' := by
  obtain ⟨pools, hp, hpi, hsub⟩ := gatherPools_ok n k d hsym adj hinv
  have hsize : ∀ i, i < n → k ≤ (pools.getD i []).length := by
    intro i hi
    have h := length_le_of_keys_subset (adj.getD i []) (pools.getD i [])
      (hinv.2 i hi).2.1 (hsub i hi)
    rw [(hinv.2 i hi).1] at h
    exact h
  obtain ⟨⟨adj', cont⟩, hsel⟩ := selectAll_ok k adj pools (by rw [hinv.1, hpi.1])
    (fun i hi => ⟨hsize i (by rw [← hinv.1]; exact hi),
      le_of_eq (hinv.2 i (by rw [← hinv.1]; exact hi)).1.symm⟩)
  obtain ⟨hl, hall, _⟩ := selectAll_spec k adj pools adj' cont hsel
  refine ⟨pools, adj', cont, hp, hsize, (update_eq_some_iff _ _ _ _).2 ⟨pools, hp, hsel⟩,
    by rw [hl, hinv.1], fun i hi => ?_⟩
  obtain ⟨ci, hci⟩ := hall i (by rw [hinv.1]; exact hi)
  obtain ⟨_, _, hs⟩ := selectItem_selected k _ _ _ ci (hinv.2 i hi).1 hci
  exact ⟨hs.1, selectedFrom_rowOk n k d i _ _ (hpi.2 i hi) hs⟩

theorem initItem_spec (n k : Nat) (d : Nat → Nat → ℚ) (i : Nat) (hn : 0 < n)
    (draws : List Nat) (cur row : List Node) (rest : List Nat)
    (hcur : cur.length ≤ k) (hP : ∀ e ∈ cur, e.1 ≠ i ∧ e.1 < n ∧ e.2 = d i e.1)
    (h : initItem n k d i draws cur = some (row, rest)) :
    row.length = k ∧ ∀ e ∈ row, e.1 ≠ i ∧ e.1 < n ∧ e.2 = d i e.1 := by
  induction draws generalizing cur with
  | nil =>
    simp only [initItem] at h
    split_ifs at h with hlt
    simp only [Option.some.injEq, Prod.mk.injEq] at h
    obtain ⟨rfl, _⟩ := h
    exact ⟨by omega, hP⟩
  | cons r rs ih =>
    simp only [initItem] at h
    split_ifs at h with hlt hne
    · refine ih (cur ++ [(r % n, d i (r % n))]) (by simp; omega) ?_ h
      intro e he
      rcases List.mem_append.1 he with h1 | h1
      · exact hP e h1
      · have : e = (r % n, d i (r % n)) := by simpa using h1
        subst this
        exact ⟨fun h2 => hne h2.symm, Nat.mod_lt _ hn, rfl⟩
    · exact ih cur hcur hP h
    · simp only [Option.some.injEq, Prod.mk.injEq] at h
      obtain ⟨rfl, _⟩ := h
      exact ⟨by omega, hP⟩

theorem initFrom_spec (n k : Nat) (d : Nat → Nat → ℚ) (hn : 0 < n) (m i : Nat)
    (draws : List Nat) (adj : List (List Node)) (rest : List Nat)
    (h : initFrom n k d m i draws = some (adj, rest)) :
    adj.length = m ∧ ∀ t, t < m → (adj.getD t []).length = k ∧
      ∀ e ∈ adj.getD t [], e.1 ≠ i + t ∧ e.1 < n ∧ e.2 = d (i + t) e.1 := by
  induction m generalizing i draws adj rest with
  | zero =>
    simp only [initFrom, Option.some.injEq, Prod.mk.injEq] at h
    obtain ⟨rfl, _⟩ := h
    exact ⟨rfl, fun t ht => absurd ht (by omega)⟩
  | succ m ih =>
    simp only [initFrom] at h
    cases h1 : initItem n k d i draws [] with
    | none => simp [h1] at h
    | some r =>
      obtain ⟨row, rest1⟩ := r
      cases h2 : initFrom n k d m (i + 1) rest1 with
      | none => simp [h1, h2] at h
      | some rs =>
        obtain ⟨rows, rest2⟩ := rs
        simp only [h1, h2, Option.some_bind, Option.map_some', Option.some.injEq,
          Prod.mk.injEq] at h
        obtain ⟨rfl, _⟩ := h
        obtain ⟨hl, hall⟩ := ih (i + 1) rest1 rows rest2 h2
        have hrow := initItem_spec n k d i hn draws [] row rest1 (by simp) (by simp) h1
        refine ⟨by simp [hl], fun t ht => ?_⟩
        cases t with
        | zero => simpa using hrow
        | succ t =>
          have := hall t (by omega)
          simpa [Nat.add_assoc, Nat.add_comm 1 t] using this

theorem initAdj_spec (n k : Nat) (d : Nat → Nat → ℚ) (draws : List Nat)
    (adj : List (List Node)) (h : initAdj n k d draws = some adj) : InitOk n k d adj := by
  unfold initAdj at h
  cases h1 : initFrom n k d n 0 draws with
  | none => simp [h1] at h
  | some r =>
    obtain ⟨adj1, rest⟩ := r
    simp only [h1, Option.map_some', Option.some.injEq] at h
    subst h
    rcases Nat.eq_zero_or_pos n with h0 | hn
    · subst h0
      simp only [initFrom, Option.some.injEq, Prod.mk.injEq] at h1
      obtain ⟨rfl, _⟩ := h1
      exact ⟨rfl, fun i hi => absurd hi (by omega)⟩
    · obtain ⟨hl, hall⟩ := initFrom_spec n k d hn n 0 draws adj1 rest h1
      exact ⟨hl, fun i hi => by simpa using hall i hi⟩

theorem rowsLen_of_initOk (n k : Nat) (d : Nat → Nat → ℚ) (adj : List (List Node))
    (h : InitOk n k d adj) : RowsLen k adj := by
  intro row hrow
  obtain ⟨i, hi, rfl⟩ := List.getElem_of_mem hrow
  have := (h.2 i (by rw [← h.1]; exact hi)).1
  rwa [List.getD_eq_getElem _ _ hi] at this

theorem rowsLen_getD (k : Nat) (adj : List (List Node)) (h : RowsLen k adj) (i : Nat)
    (hi : i < adj.length) : (adj.getD i []).length = k := by
  rw [List.getD_eq_getElem _ _ hi]
  exact h _ (List.getElem_mem hi)

theorem update_rowsLen (k : Nat) (d : Nat → Nat → ℚ) (adj adj' : List (List Node)) (c : Bool)
    (hlen : RowsLen k adj) (h : update k d adj = some (adj', c)) :
    adj'.length = adj.length ∧ RowsLen k adj' := by
  obtain ⟨pools, _, hsel⟩ := (update_eq_some_iff _ _ _ _).1 h
  obtain ⟨hl, hall, _⟩ := selectAll_spec k adj pools adj' c hsel
  refine ⟨hl, fun row hrow => ?_⟩
  obtain ⟨i, hi, rfl⟩ := List.getElem_of_mem hrow
  obtain ⟨ci, hci⟩ := hall i (by rw [← hl]; exact hi)
  have hs := (selectItem_selected k _ _ _ ci
    (rowsLen_getD k adj hlen i (by rw [← hl]; exact hi)) hci).2.2.1
  rwa [List.getD_eq_getElem _ _ hi] at hs

theorem refineLoop_last (k : Nat) (d : Nat → Nat → ℚ) (cap : Nat) (adj r : List (List Node))
    (hlen : RowsLen k adj) (h : refineLoop k d (cap + 1) adj = some r) :
    ∃ adj0 c, RowsLen k adj0 ∧ adj0.length = adj.length ∧ update k d adj0 = some (r, c) := by
  induction cap generalizing adj with
  | zero =>
    simp only [refineLoop] at h
    cases hu : update k d adj with
    | none => simp [hu] at h
    | some s =>
      obtain ⟨adj', c⟩ := s
      simp only [hu] at h
      have : adj' = r := by
        split_ifs at h <;> simpa using h
      subst this
      exact ⟨adj, c, hlen, rfl, hu⟩
  | succ cap ih =>
    rw [refineLoop] at h
    cases hu : update k d adj with
    | none => simp [hu] at h
    | some s =>
      obtain ⟨adj', c⟩ := s
      simp only [hu] at h
      split_ifs at h with hc
      · obtain ⟨h1, h2⟩ := update_rowsLen k d adj adj' c hlen hu
        obtain ⟨adj0, c0, h3, h4, h5⟩ := ih adj' h2 h
        exact ⟨adj0, c0, h3, by rw [h4, h1], h5⟩
      · have : adj' = r := by simpa using h
        subst this
        exact ⟨adj, c, hlen, rfl, hu⟩

theorem update_selected (k : Nat) (d : Nat → Nat → ℚ) (adj : List (List Node))
    (pools : List NbhMap) (adj' : List (List Node)) (cont : Bool)
    (hlen : RowsLen k adj) (hp : gatherPools d adj = some pools)
    (hu : update k d adj = some (adj', cont)) :
    adj'.length = adj.length ∧
      ∀ i, i < adj.length → SelectedFrom k (adj'.getD i []) (pools.getD i []) := by
  obtain ⟨pools', hp', hsel⟩ := (update_eq_some_iff _ _ _ _).1 hu
  rw [hp, Option.some.injEq] at hp'
  subst hp'
  obtain ⟨hl, hall, _⟩ := selectAll_spec k adj pools adj' cont hsel
  refine ⟨hl, fun i hi => ?_⟩
  obtain ⟨ci, hci⟩ := hall i hi
  exact (selectItem_selected k _ _ _ ci (rowsLen_getD k adj hlen i hi) hci).2.2

theorem nnDescent_last_round (n k : Nat) (d : Nat → Nat → ℚ) (draws : List Nat)
    (result : List (List Node)) (h : NNDescent n k d draws = some result) :
    ∃ adj pools cont, RowsLen k adj ∧ adj.length = n ∧ gatherPools d adj = some pools ∧
      update k d adj = some (result, cont) ∧ result.length = n ∧
      ∀ i, i < n → SelectedFrom k (result.getD i []) (pools.getD i []) := by
  unfold NNDescent at h
  cases hi : initAdj n k d draws with
  | none => simp [hi] at h
  | some adj0 =>
    simp only [hi, Option.some_bind] at h
    have hok := initAdj_spec n k d draws adj0 hi
    obtain ⟨adj, c, hlen, hl, hu⟩ :=
      refineLoop_last k d 19 adj0 result (rowsLen_of_initOk n k d adj0 hok) h
    obtain ⟨pools, hp, _⟩ := (update_eq_some_iff _ _ _ _).1 hu
    obtain ⟨h1, h2⟩ := update_selected k d adj pools result c hlen hp hu
    have hn : adj.length = n := by rw [hl, hok.1]
    exact ⟨adj, pools, c, hlen, hn, hp, hu, by rw [h1, hn],
      fun i hi => h2 i (by rw [hn]; exact hi)⟩

theorem distanceAt_take_append (s row : List Node) (k j : Nat) (hj : j < k)
    (hk : k ≤ s.length) : distanceAt (s.take k ++ row) j = distanceAt s j := by
  have h1 : j < (s.take k).length := by rw [List.length_take]; omega
  have h2 : j < (s.take k ++ row).length := by rw [List.length_append]; omega
  have h3 : j < s.length := by omega
  unfold distanceAt
  rw [List.getD_eq_getElem _ _ h2, List.getD_eq_getElem _ _ h3, List.getElem_append_left h1,
    List.getElem_take]

theorem zip_any_ne_iff (k : Nat) (row s : List Node) (h1 : k ≤ row.length)
    (h2 : k ≤ s.length) :
    (List.zip (row.take k) (s.take k)).any (fun p => decide (p.1.2 ≠ p.2.2)) = true ↔
      ∃ j, j < k ∧ distanceAt row j ≠ distanceAt s j := by
  have hlz : (List.zip (row.take k) (s.take k)).length = k := by
    simp [List.length_zip, List.length_take, h1, h2]
  rw [List.any_eq_true]
  constructor
  · rintro ⟨p, hp, hne⟩
    obtain ⟨j, hj, rfl⟩ := List.getElem_of_mem hp
    have hjk : j < k := by rw [← hlz]; exact hj
    refine ⟨j, hjk, ?_⟩
    rw [List.getElem_zip] at hne
    simp only [List.getElem_take, ne_eq, decide_eq_true_eq] at hne
    unfold distanceAt
    rw [List.getD_eq_getElem _ _ (by omega), List.getD_eq_getElem _ _ (by omega)]
    exact hne
  · rintro ⟨j, hjk, hne⟩
    have hj : j < (List.zip (row.take k) (s.take k)).length := by rw [hlz]; exact hjk
    refine ⟨(List.zip (row.take k) (s.take k))[j], List.getElem_mem hj, ?_⟩
    rw [List.getElem_zip]
    simp only [List.getElem_take, ne_eq, decide_eq_true_eq]
    unfold distanceAt at hne
    rw [List.getD_eq_getElem _ _ (by omega), List.getD_eq_getElem _ _ (by omega)] at hne
    exact hne

theorem selectItem_flag (k : Nat) (row : List Node) (pool : NbhMap) (row' : List Node)
    (c : Bool) (h : selectItem k row pool = some (row', c)) :
    (c = true ↔ ∃ j, j < k ∧ distanceAt row j ≠ distanceAt row' j) := by
  rw [selectItem_eq] at h
  split_ifs at h with hk
  simp only [Option.some.injEq, Prod.mk.injEq] at h
  obtain ⟨rfl, rfl⟩ := h
  have hs : k ≤ (List.insertionSort byDistance pool).length := by
    rw [List.length_insertionSort]; exact hk.1
  rw [zip_any_ne_iff k row _ hk.2 hs]
  constructor
  · rintro ⟨j, hj, hne⟩
    exact ⟨j, hj, by rw [distanceAt_take_append _ _ k j hj hs]; exact hne⟩
  · rintro ⟨j, hj, hne⟩
    exact ⟨j, hj, by rw [distanceAt_take_append _ _ k j hj hs] at hne; exact hne⟩

theorem update_flag_iff (k : Nat) (d : Nat → Nat → ℚ) (adj adj' : List (List Node))
    (cont : Bool) (h : update k d adj = some (adj', cont)) :
    (cont = true ↔ ∃ i, i < adj.length ∧ ∃ j, j < k ∧
      distanceAt (adj.getD i []) j ≠ distanceAt (adj'.getD i []) j) := by
  obtain ⟨pools, _, hsel⟩ := (update_eq_some_iff _ _ _ _).1 h
  obtain ⟨_, hall, hc⟩ := selectAll_spec k adj pools adj' cont hsel
  rw [hc]
  constructor
  · rintro ⟨i, hi, r, hr⟩
    obtain ⟨ci, hci⟩ := hall i hi
    have : (adj'.getD i [], ci) = (r, true) := by
      rw [hci, Option.some.injEq] at hr
      exact hr
    simp only [Prod.mk.injEq] at this
    obtain ⟨rfl, rfl⟩ := this
    exact ⟨i, hi, (selectItem_flag k _ _ _ _ hci).1 rfl⟩
  · rintro ⟨i, hi, hj⟩
    obtain ⟨ci, hci⟩ := hall i hi
    have hct := (selectItem_flag k _ _ _ _ hci).2 hj
    subst hct
    exact ⟨i, hi, _, hci⟩

theorem refineLoop_iff_rounds (k : Nat) (d : Nat → Nat → ℚ) (cap : Nat)
    (adj r : List (List Node)) :
    refineLoop k d cap adj = some r ↔
      ∃ m, m ≤ cap ∧ (∃ c, roundsFrom k d m (adj, true) = some (r, c) ∧
        (c = false ∨ m = cap)) ∧
        ∀ m', m' < m → ∃ s, roundsFrom k d m' (adj, true) = some (s, true) := by
  induction cap generalizing adj with
  | zero =>
    simp only [refineLoop, Option.some.injEq, Nat.le_zero]
    constructor
    · rintro rfl
      exact ⟨0, rfl, ⟨true, rfl, Or.inr rfl⟩, fun m' hm' => absurd hm' (by omega)⟩
    · rintro ⟨m, rfl, ⟨c, hc, _⟩, _⟩
      simp only [roundsFrom, Option.some.injEq, Prod.mk.injEq] at hc
      exact hc.1
  | succ cap ih =>
    rw [refineLoop]
    cases hu : update k d adj with
    | none =>
      refine ⟨fun h => absurd h (by simp), ?_⟩
      rintro ⟨m, _, ⟨c, hc, hor⟩, _⟩
      exfalso
      cases m with
      | zero =>
        simp only [roundsFrom, Option.some.injEq, Prod.mk.injEq] at hc
        rcases hor with h | h
        · rw [h] at hc; exact absurd hc.2 (by simp)
        · omega
      | succ m => simp [roundsFrom, hu] at hc
    | some s =>
      obtain ⟨adj', c0⟩ := s
      have hstep : ∀ m, roundsFrom k d (m + 1) (adj, true) = roundsFrom k d m (adj', c0) := by
        intro m
        simp [roundsFrom, hu]
      simp only []
      by_cases hc0 : c0 = true
      · subst hc0
        rw [if_pos rfl, ih adj']
        constructor
        · rintro ⟨m, hm, ⟨c, hc, hor⟩, hall⟩
          refine ⟨m + 1, by omega, ⟨c, by rw [hstep]; exact hc, ?_⟩, fun m' hm' => ?_⟩
          · rcases hor with h | h
            · exact Or.inl h
            · exact Or.inr (by omega)
          · cases m' with
            | zero => exact ⟨adj, rfl⟩
            | succ m' =>
              rw [hstep]
              exact hall m' (by omega)
        · rintro ⟨m, hm, ⟨c, hc, hor⟩, hall⟩
          cases m with
          | zero =>
            simp only [roundsFrom, Option.some.injEq, Prod.mk.injEq] at hc
            rcases hor with h | h
            · rw [h] at hc; exact absurd hc.2 (by simp)
            · omega
          | succ m =>
            rw [hstep] at hc
            refine ⟨m, by omega, ⟨c, hc, ?_⟩, fun m' hm' => ?_⟩
            · rcases hor with h | h
              · exact Or.inl h
              · exact Or.inr (by omega)
            · have := hall (m' + 1) (by omega)
              rwa [hstep] at this
      · have hc0' : c0 = false := by simpa using hc0
        subst hc0'
        simp only [Bool.false_eq_true, if_false, Option.some.injEq]
        constructor
        · rintro rfl
          refine ⟨1, by omega, ⟨false, by rw [hstep]; rfl, Or.inl rfl⟩, fun m' hm' => ?_⟩
          have : m' = 0 := by omega
          subst this
          exact ⟨adj, rfl⟩
        · rintro ⟨m, hm, ⟨c, hc, hor⟩, hall⟩
          cases m with
          | zero =>
            simp only [roundsFrom, Option.some.injEq, Prod.mk.injEq] at hc
            rcases hor with h | h
            · rw [h] at hc; exact absurd hc.2 (by simp)
            · omega
          | succ m =>
            cases m with
            | zero =>
              rw [hstep] at hc
              simp only [roundsFrom, Option.some.injEq, Prod.mk.injEq] at hc
              exact hc.1
            | succ m =>
              obtain ⟨s, hs⟩ := hall 1 (by omega)
              rw [hstep] at hs
              simp only [roundsFrom, Option.some.injEq, Prod.mk.injEq] at hs
              exact absurd hs.2 (by simp)

theorem initItem_one (k : Nat) (d : Nat → Nat → ℚ) (hk : 1 ≤ k) (draws : List Nat) :
    initItem 1 k d 0 draws [] = none := by
  induction draws with
  | nil => simp [initItem]; omega
  | cons r rs ih =>
    have h1 : ([] : List Node).length < k := by simp; omega
    have h2 : ¬ (0 ≠ r % 1) := by simp [Nat.mod_one]
    rw [initItem, if_pos h1, if_neg h2]
    exact ih

theorem initAdj_one (k : Nat) (d : Nat → Nat → ℚ) (hk : 1 ≤ k) (draws : List Nat) :
    initAdj 1 k d draws = none := by
  simp [initAdj, initFrom, initItem_one k d hk draws]

theorem nnDescent_zero (k : Nat) (d : Nat → Nat → ℚ) (draws : List Nat) :
    NNDescent 0 k d draws = some [] := by
  simp [NNDescent, initAdj, initFrom, refineLoop, update, gatherPools, gatherFrom, selectAll]

theorem initItem_done (n k : Nat) (d : Nat → Nat → ℚ) (i : Nat) (draws : List Nat)
    (cur : List Node) (h : cur.length = k) :
    initItem n k d i draws cur = some (cur, draws) := by
  cases draws with
  | nil => simp [initItem, h]
  | cons r rs => simp [initItem, h]

theorem initItem_replicate (n k : Nat) (d : Nat → Nat → ℚ) (i r : Nat) (hr : i ≠ r % n)
    (m : Nat) (rest : List Nat) (cur : List Node) (h : cur.length + m = k) :
    ∃ row, initItem n k d i (List.replicate m r ++ rest) cur = some (row, rest) ∧
      row.length = k := by
  induction m generalizing cur with
  | zero =>
    exact ⟨cur, by simpa using initItem_done n k d i rest cur (by omega), by omega⟩
  | succ m ih =>
    have h1 : cur.length < k := by omega
    obtain ⟨row, hrow, hl⟩ := ih (cur ++ [(r % n, d i (r % n))]) (by simp; omega)
    refine ⟨row, ?_, hl⟩
    rw [List.replicate_succ, List.cons_append, initItem, if_pos h1, if_pos hr]
    exact hrow

theorem initFrom_zeros (n k : Nat) (d : Nat → Nat → ℚ) (m i : Nat) (hi : 1 ≤ i)
    (hle : i + m ≤ n) (rest : List Nat) :
    ∃ rows, initFrom n k d m i (List.replicate (m * k) 0 ++ rest) = some (rows, rest) ∧
      rows.length = m ∧ RowsLen k rows := by
  induction m generalizing i with
  | zero => exact ⟨[], by simp [initFrom], rfl, by simp [RowsLen]⟩
  | succ m ih =>
    have hsplit : List.replicate ((m + 1) * k) 0 ++ rest =
        List.replicate k 0 ++ (List.replicate (m * k) 0 ++ rest) := by
      have hk : (m + 1) * k = k + m * k := by ring
      rw [hk, List.replicate_add, List.append_assoc]
    have h0 : i ≠ 0 % n := by
      rw [Nat.zero_mod]; omega
    obtain ⟨row, hrow, hl⟩ :=
      initItem_replicate n k d i 0 h0 k (List.replicate (m * k) 0 ++ rest) [] (by simp)
    obtain ⟨rows, hrows, hlen, hall⟩ := ih (i + 1) (by omega) (by omega)
    refine ⟨row :: rows, ?_, by simp [hlen], ?_⟩
    · rw [hsplit, initFrom, hrow, Option.some_bind]
      simp only [hrows, Option.map_some']
    · intro x hx
      rcases List.mem_cons.1 hx with h | h
      · rw [h]; exact hl
      · exact hall x h

theorem initAdj_finishes (n k : Nat) (d : Nat → Nat → ℚ) (hn : 2 ≤ n) :
    ∃ adj, initAdj n k d (List.replicate k 1 ++ List.replicate ((n - 1) * k) 0) = some adj ∧
      adj.length = n ∧ RowsLen k adj := by
  obtain ⟨m, rfl⟩ : ∃ m, n = m + 1 := ⟨n - 1, by omega⟩
  have h1 : 0 ≠ 1 % (m + 1) := by
    rw [Nat.mod_eq_of_lt (by omega)]; omega
  obtain ⟨row, hrow, hl⟩ := initItem_replicate (m + 1) k d 0 1 h1 k
    (List.replicate (m * k) 0 ++ []) [] (by simp)
  obtain ⟨rows, hrows, hlen, hall⟩ := initFrom_zeros (m + 1) k d m 1 (by omega) (by omega) []
  refine ⟨row :: rows, ?_, by simp [hlen], ?_⟩
  · have hd : List.replicate k 1 ++ List.replicate ((m + 1 - 1) * k) 0 =
        List.replicate k 1 ++ (List.replicate (m * k) 0 ++ []) := by simp
    rw [initAdj, hd, initFrom, hrow, Option.some_bind]
    simp only [Nat.zero_add, hrows, Option.map_some']
  · intro x hx
    rcases List.mem_cons.1 hx with h | h
    · rw [h]; exact hl
    · exact hall x h

theorem assignAt_length (nbh : List NbhMap) (i key : Nat) (v : ℚ) (t : List NbhMap)
    (h : assignAt nbh i key v = some t) : t.length = nbh.length := by
  unfold assignAt at h
  split_ifs at h
  cases h
  simp

theorem linkPair_length (nbh : List NbhMap) (i j : Nat) (v : ℚ) (t : List NbhMap)
    (h : linkPair nbh i j v = some t) : t.length = nbh.length := by
  unfold linkPair at h
  cases hget : nbh[i]? with
  | none => simp [hget] at h
  | some m =>
    simp only [hget] at h
    split_ifs at h
    · cases h
      rfl
    · cases h1 : assignAt nbh j i v with
      | none => simp [h1] at h
      | some t1 =>
        rw [h1, Option.some_bind] at h
        rw [assignAt_length _ _ _ _ _ h, assignAt_length _ _ _ _ _ h1]

theorem joinEarlier_length (d : Nat → Nat → ℚ) (j : Nat) (earlier : List Node)
    (nbh t : List NbhMap) (h : joinEarlier d j earlier nbh = some t) :
    t.length = nbh.length := by
  induction earlier generalizing nbh with
  | nil =>
    simp only [joinEarlier, Option.some.injEq] at h
    rw [h]
  | cons e rest ih =>
    simp only [joinEarlier] at h
    cases h1 : linkPair nbh j e.1 (d j e.1) with
    | none => simp [h1] at h
    | some t1 =>
      rw [h1, Option.some_bind] at h
      rw [ih t1 h, linkPair_length _ _ _ _ _ h1]

theorem gatherItem_length (d : Nat → Nat → ℚ) (i : Nat) (row earlier : List Node)
    (nbh t : List NbhMap) (h : gatherItem d i earlier row nbh = some t) :
    t.length = nbh.length := by
  induction row generalizing earlier nbh with
  | nil =>
    simp only [gatherItem, Option.some.injEq] at h
    rw [h]
  | cons e rest ih =>
    simp only [gatherItem] at h
    cases h1 : linkPair nbh i e.1 e.2 with
    | none => simp [h1] at h
    | some t1 =>
      rw [h1, Option.some_bind] at h
      cases h2 : joinEarlier d e.1 earlier t1 with
      | none => simp [h2] at h
      | some t2 =>
        rw [h2, Option.some_bind] at h
        rw [ih _ t2 h, joinEarlier_length _ _ _ _ _ h2, linkPair_length _ _ _ _ _ h1]

theorem gatherFrom_length (d : Nat → Nat → ℚ) (rows : List (List Node)) (i : Nat)
    (nbh t : List NbhMap) (h : gatherFrom d i rows nbh = some t) :
    t.length = nbh.length := by
  induction rows generalizing i nbh with
  | nil =>
    simp only [gatherFrom, Option.some.injEq] at h
    rw [h]
  | cons row rest ih =>
    simp only [gatherFrom] at h
    cases h1 : gatherItem d i [] row nbh with
    | none => simp [h1] at h
    | some t1 =>
      rw [h1, Option.some_bind] at h
      rw [ih _ t1 h, gatherItem_length _ _ _ _ _ _ h1]

theorem gatherPools_length (d : Nat → Nat → ℚ) (adj : List (List Node)) (pools : List NbhMap)
    (h : gatherPools d adj = some pools) : pools.length = adj.length := by
  unfold gatherPools at h
  rw [gatherFrom_length _ _ _ _ _ h, List.length_replicate]

theorem update_returns (k : Nat) (d : Nat → Nat → ℚ) (adj : List (List Node))
    (pools : List NbhMap) (hlen : RowsLen k adj) (hp : gatherPools d adj = some pools)
    (hk : ∀ i, i < adj.length → k ≤ (pools.getD i []).length) :
    ∃ adj' cont, update k d adj = some (adj', cont) := by
  obtain ⟨r, hr⟩ := selectAll_ok k adj pools (le_of_eq (gatherPools_length d adj pools hp).symm)
    (fun i hi => ⟨hk i hi, le_of_eq (rowsLen_getD k adj hlen i hi).symm⟩)
  exact ⟨r.1, r.2, (update_eq_some_iff _ _ _ _).2 ⟨pools, hp, hr⟩⟩

theorem foldl_max_ge (l : List Node) (a : ℚ) :
    a ≤ l.foldl (fun m x => max m x.2) a ∧ ∀ e ∈ l, e.2 ≤ l.foldl (fun m x => max m x.2) a := by
  induction l generalizing a with
  | nil => simp
  | cons x t ih =>
    simp only [List.foldl_cons, List.mem_cons, forall_eq_or_imp]
    obtain ⟨h1, h2⟩ := ih (max a x.2)
    exact ⟨le_trans (le_max_left _ _) h1, le_trans (le_max_right _ _) h1, h2⟩

theorem foldl_max_mem (l : List Node) (a : ℚ) :
    l.foldl (fun m x => max m x.2) a = a ∨ ∃ e ∈ l, e.2 = l.foldl (fun m x => max m x.2) a := by
  induction l generalizing a with
  | nil => simp
  | cons x t ih =>
    simp only [List.foldl_cons, List.mem_cons]
    rcases ih (max a x.2) with h | ⟨e, he, h⟩
    · rw [h]
      rcases max_choice a x.2 with hm | hm
      · exact Or.inl hm
      · exact Or.inr ⟨x, Or.inl rfl, hm.symm⟩
    · exact Or.inr ⟨e, Or.inr he, h⟩

theorem le_maxDistance (row : List Node) (e : Node) (he : e ∈ row) : e.2 ≤ maxDistance row := by
  cases row with
  | nil => simp at he
  | cons x t =>
    simp only [maxDistance]
    rcases List.mem_cons.1 he with h | h
    · rw [h]
      exact (foldl_max_ge t x.2).1
    · exact (foldl_max_ge t x.2).2 e h

theorem maxDistance_mem (row : List Node) (h : row ≠ []) :
    ∃ e ∈ row, e.2 = maxDistance row := by
  cases row with
  | nil => exact absurd rfl h
  | cons x t =>
    simp only [maxDistance]
    rcases foldl_max_mem t x.2 with hm | ⟨e, he, hm⟩
    · exact ⟨x, List.mem_cons_self _ _, hm.symm⟩
    · exact ⟨e, List.mem_cons_of_mem _ he, hm⟩

theorem rowOk_nodup (n : Nat) (d : Nat → Nat → ℚ) (i : Nat) (row : List Node)
    (h : RowOk n d i row) : row.Nodup :=
  List.Nodup.of_map _ h.1

theorem mem_pool_of_key (n : Nat) (d : Nat → Nat → ℚ) (i : Nat) (row : List Node)
    (pool : NbhMap) (hrow : RowOk n d i row) (hpool : RowOk n d i pool) (e : Node)
    (he : e ∈ row) (hk : e.1 ∈ keys pool) : e ∈ pool := by
  obtain ⟨e', he', hkey⟩ := List.mem_map.1 hk
  have h2 : e'.2 = e.2 := by
    rw [(hpool.2 e' he').2.2, (hrow.2 e he).2.2, hkey]
  have : e' = e := Prod.ext hkey h2
  rw [← this]
  exact he'

theorem selected_max_le (n k : Nat) (d : Nat → Nat → ℚ) (i : Nat) (row row' : List Node)
    (pool : NbhMap) (hlen : row.length = k) (hrow : RowOk n d i row)
    (hpool : RowOk n d i pool) (hsub : ∀ e ∈ row, e.1 ∈ keys pool)
    (hsel : SelectedFrom k row' pool) : maxDistance row' ≤ maxDistance row := by
  obtain ⟨hlen', _, rest, hperm, hrest⟩ := hsel
  by_cases hnil : row' = []
  · have hk : k = 0 := by rw [← hlen', hnil]; rfl
    have : row = [] := List.length_eq_zero.1 (by rw [hlen, hk])
    rw [hnil, this]
  · obtain ⟨m, hm, hmax⟩ := maxDistance_mem row' hnil
    by_contra hlt
    have hlt' : maxDistance row < m.2 := by
      rw [hmax]
      exact lt_of_not_le hlt
    have hsubset : row ⊆ row' := by
      intro e he
      have hep : e ∈ pool := mem_pool_of_key n d i row pool hrow hpool e he (hsub e he)
      rcases List.mem_append.1 (hperm.subset hep) with h | h
      · exact h
      · have h1 := hrest e h m hm
        have h2 := le_maxDistance row e he
        exact absurd (lt_of_le_of_lt (le_trans h1 h2) hlt') (lt_irrefl _)
    have hsp : List.Subperm row row' :=
      List.subperm_of_subset (rowOk_nodup n d i row hrow) hsubset
    have hp : List.Perm row row' := hsp.perm_of_length_le (by rw [hlen, hlen'])
    have := le_maxDistance row m (hp.symm.subset hm)
    exact absurd (lt_of_le_of_lt this hlt') (lt_irrefl _)

theorem update_max_le (n k : Nat) (d : Nat → Nat → ℚ) (hsym : ∀ a b, d a b = d b a)
    (adj adj' : List (List Node)) (cont : Bool) (hinv : CandidateInv n k d adj)
    (hu : update k d adj = some (adj', cont)) (i : Nat) (hi : i < n) :
    maxDistance (adj'.getD i []) ≤ maxDistance (adj.getD i []) := by
  obtain ⟨pools, hp, hpinv, hkeys⟩ := gatherPools_ok n k d hsym adj hinv
  have hrl : RowsLen k adj := by
    intro row hrow
    obtain ⟨t, ht, rfl⟩ := List.getElem_of_mem hrow
    have := (hinv.2 t (by rw [← hinv.1]; exact ht)).1
    rwa [List.getD_eq_getElem _ _ ht] at this
  have hsel := (update_selected k d adj pools adj' cont hrl hp hu).2 i (by rw [hinv.1]; exact hi)
  exact selected_max_le n k d i _ _ _ (hinv.2 i hi).1 (hinv.2 i hi).2 (hpinv.2 i hi)
    (hkeys i hi) hsel

/-- C11, as amended: when the solver reports `feasible = false`, `biasedSampling` and
`wasserstein` write the line "infeasible" to the error stream and then return what they
return after a successful solve, the weights read from the flow map and the total cost
divided by `N1 * N2`; the caller receives no failure value. -/
theorem infeasible_is_only_logged (data : List MyDatum) (sizes : List Int)
    (data1 data2 : List MyDatum) (flow : Nat → Int) :
    biasedSamplingRun data sizes false flow
        = (biasedSampling data sizes flow).map (fun weight => (["infeasible"], weight)) ∧
      (biasedSamplingRun data sizes false flow).map Prod.snd
        = (biasedSamplingRun data sizes true flow).map Prod.snd ∧
      wassersteinRun data1 data2 false flow = (["infeasible"], wasserstein data1 data2 flow) ∧
      (wassersteinRun data1 data2 false flow).2 = (wassersteinRun data1 data2 true flow).2 := by
  refine ⟨?_, ?_, rfl, rfl⟩
  · unfold biasedSamplingRun biasedSampling
    cases biasedSamplingNetwork data sizes <;> rfl
  · unfold biasedSamplingRun
    cases biasedSamplingNetwork data sizes <;> rfl

/-- C11 fails as stated: for one item of label 0 and the class size 2 no flow is feasible,
so the solver reports `false`, and `biasedSampling` still returns a weight vector;
`wasserstein` likewise returns a distance value when the solver reports `false`. -/
theorem infeasible_still_returns :
    (¬ ∃ f, Feasible (modeANetwork onePoint [2]) f) ∧
      biasedSamplingNetwork onePoint [2] = some (modeANetwork onePoint [2]) ∧
      biasedSamplingRun onePoint [2] false zeroFlow = some (["infeasible"], [0]) ∧
      wassersteinRun twoPoints twoPoints false zeroFlow = (["infeasible"], some 0) := by
  have hnet := biasedSamplingNetwork_exact onePoint [2] (by decide) (by decide)
  refine ⟨onePoint_no_flow, hnet, ?_, ?_⟩
  · rw [biasedSamplingRun, hnet]
    decide
  · have hw : wrap32 ((twoPoints.length : Int) * (twoPoints.length : Int)) = 4 := by decide
    simp [wassersteinRun, infeasibleMessage, wasserstein, hw, totalCost_zeroFlow]

/-- C12, as amended: for `n = 0` and every `k`, and for `n = 1` and every `k >= 1`, the
constructor does not fail fast, as it never compares `k` with `n`: for `n = 0` it returns
the empty family of candidate sets on every sequence of draws, and for `n = 1` its random
initialization finishes on no sequence of draws, `rand() % 1` being the item itself every
time, so that no candidate sets are returned. -/
theorem nnDescent_checks_nothing (k : Nat) (d : Nat → Nat → ℚ) (draws : List Nat) :
    NNDescent 0 k d draws = some [] ∧
      (1 ≤ k → initAdj 1 k d draws = none ∧ NNDescent 1 k d draws = none) := by
  refine ⟨nnDescent_zero k d draws, fun hk => ?_⟩
  have h := initAdj_one k d hk draws
  exact ⟨h, by simp [NNDescent, h]⟩

theorem nnDescent_checks_nothing_witness :
    (1 ≤ 3) ∧ NNDescent 0 3 dSq [0, 5, 7] = some [] ∧
      initAdj 1 3 dSq [0, 5, 7] = none ∧ NNDescent 1 3 dSq [0, 5, 7] = none :=
  ⟨by decide, (nnDescent_checks_nothing 3 dSq [0, 5, 7]).1,
    (nnDescent_checks_nothing 3 dSq [0, 5, 7]).2 (by decide)⟩

/-- C12 fails as stated: with `n = 2` and `k = 2` the constructor returns candidate sets,
and with `n = 1` and `k = 1` the random initialization finishes on no sequence of draws;
neither case ends in a failure outcome. -/
theorem nnDescent_no_fail_fast :
    NNDescent 2 2 dSq [1, 1, 0, 0] = some [[(0, 0), (1, 1)], [(1, 0), (0, 1)]] ∧
      ∀ draws, initAdj 1 1 dSq draws = none := by
  refine ⟨by decide, fun draws => initAdj_one 1 dSq (le_refl _) draws⟩

/-- C13, as amended: in the network `biasedSampling` builds for a dataset with labels in
range in which every label below the number of class sizes is carried by at least one item,
and in the network `wasserstein` builds for two datasets that are both empty or both
non-empty, every node other than the source and the sink has at least one incoming arc and
at least one outgoing arc. -/
theorem inner_nodes_connected (data : List MyDatum) (sizes : List Int)
    (data1 data2 : List MyDatum)
    (hlab : ∀ d ∈ data, 0 ≤ d.label ∧ d.label < sizes.length)
    (hall : ∀ c, c < sizes.length → 1 ≤ classCount data c)
    (hboth : data1 = [] ↔ data2 = []) :
    (∃ net, biasedSamplingNetwork data sizes = some net ∧ InnerNodesConnected net) ∧
      InnerNodesConnected (wassersteinNetwork data1 data2) := by
  refine ⟨⟨_, biasedSamplingNetwork_eq data sizes hlab,
    layered_connected data sizes _ _ _ _ hall⟩, ?_⟩
  rw [wassersteinNetwork_eq]
  exact bipartite_connected data1 data2 _ _ _ hboth

theorem inner_nodes_connected_witness :
    (∀ d ∈ threePoints, 0 ≤ d.label ∧ d.label < ([2, 1] : List Int).length) ∧
      (∀ c, c < ([2, 1] : List Int).length → 1 ≤ classCount threePoints c) ∧
      (threePoints = [] ↔ twoPoints = []) ∧
      (∃ net, biasedSamplingNetwork threePoints [2, 1] = some net ∧
        InnerNodesConnected net) ∧
      InnerNodesConnected (wassersteinNetwork threePoints twoPoints) :=
  ⟨by decide, by decide, by simp [threePoints, twoPoints],
    inner_nodes_connected threePoints [2, 1] threePoints twoPoints (by decide) (by decide)
      (by simp [threePoints, twoPoints])⟩

/-- C13 fails as stated: for one item of label 0 and the class sizes `[1, 1]` the
intermediate node of label 1 (node 3) has no outgoing arc, and in the network of
`wasserstein` for one point against the empty dataset the only left node (node 2) has no
outgoing arc. -/
theorem inner_node_without_outgoing_arc :
    (biasedSamplingNetwork onePoint [1, 1] = some (modeANetwork onePoint [1, 1]) ∧
      3 < (modeANetwork onePoint [1, 1]).graph.nodeNum ∧
      ¬ hasOutgoing (modeANetwork onePoint [1, 1]) 3) ∧
    (2 < (wassersteinNetwork onePoint []).graph.nodeNum ∧
      ¬ hasOutgoing (wassersteinNetwork onePoint []) 2) := by
  refine ⟨⟨biasedSamplingNetwork_exact onePoint [1, 1] (by decide) (by decide), by decide,
    by decide⟩, by decide, by decide⟩

/-- C14, evaluated at the failing input: for three items, `k = 2` and the draws 1, 1, 0, 2,
0, 1, the random initialization leaves item 0 with the candidate set (1, 1), whose two
entries name the same item. -/
theorem init_repeats_neighbor :
    initAdj 3 2 dSq repeatedDraws = some repeatedAdj ∧
      NNDescent.nbh repeatedAdj 0 = [1, 1] ∧
      ¬ (NNDescent.nbh repeatedAdj 0).Nodup := by
  decide

set_option maxRecDepth 100000 in
/-- C15, evaluated at the failing input: from the candidate sets the initialization leaves
on the draws 1, 1, 0, 2, 0, 1, one round gives item 1 the candidate set (1, 0), which has
at most `k = 2` entries and contains item 1 itself. -/
theorem update_adds_self :
    initAdj 3 2 dSq repeatedDraws = some repeatedAdj ∧
      update 2 dSq repeatedAdj
        = some ([[(1, 1), (2, 4)], [(1, 0), (0, 1)], [(1, 1), (0, 4)]], true) ∧
      NNDescent.nbh [[(1, 1), (2, 4)], [(1, 0), (0, 1)], [(1, 1), (0, 4)]] 1 = [1, 0] ∧
      1 ∈ NNDescent.nbh [[(1, 1), (2, 4)], [(1, 0), (0, 1)], [(1, 1), (0, 4)]] 1 := by
  decide

set_option maxRecDepth 100000 in
/-- C16, evaluated at the failing input: from the candidate sets the initialization leaves
on the draws 1, 1, 0, 2, 0, 1, one round raises the largest distance in item 0's candidate
set from 1 to 4. -/
theorem update_raises_max_distance :
    initAdj 3 2 dSq repeatedDraws = some repeatedAdj ∧
      (∃ adj' cont, update 2 dSq repeatedAdj = some (adj', cont) ∧
        maxDistance (repeatedAdj.getD 0 []) = 1 ∧
        maxDistance (adj'.getD 0 []) = 4) := by
  refine ⟨by decide, [[(1, 1), (2, 4)], [(1, 0), (0, 1)], [(1, 1), (0, 4)]], true, ?_⟩
  decide

/-- C17, as amended: a round reports true exactly when, for some item, the distance stored
at one of the first `k` positions of its candidate set differs from the distance the round
puts there, the k-th smallest distance being only the last of those positions; `NNDescent`
returns after the first round that reports false, or after round 20, and runs at least one
round. -/
theorem update_flag_and_round_cap (k : Nat) (d : Nat → Nat → ℚ) :
    (∀ adj adj' cont, update k d adj = some (adj', cont) →
      (cont = true ↔ ∃ i, i < adj.length ∧ ∃ j, j < k ∧
        distanceAt (adj.getD i []) j ≠ distanceAt (adj'.getD i []) j)) ∧
    (∀ n draws result, NNDescent n k d draws = some result ↔
      ∃ adj0, initAdj n k d draws = some adj0 ∧ ∃ m, 1 ≤ m ∧ m ≤ 20 ∧
        (∃ c, roundsFrom k d m (adj0, true) = some (result, c) ∧ (c = false ∨ m = 20)) ∧
        ∀ m', m' < m → ∃ s, roundsFrom k d m' (adj0, true) = some (s, true)) := by
  refine ⟨fun adj adj' cont h => ?_, fun n draws result => ?_⟩
  · exact update_flag_iff k d adj adj' cont h
  · unfold NNDescent
    cases hinit : initAdj n k d draws with
    | none => simp
    | some adj0 =>
      rw [Option.some_bind, refineLoop_iff_rounds]
      constructor
      · rintro ⟨m, hm, ⟨c, hc, hor⟩, hall⟩
        refine ⟨adj0, rfl, m, ?_, hm, ⟨c, hc, hor⟩, hall⟩
        rcases Nat.eq_zero_or_pos m with h0 | h0
        · subst h0
          simp only [roundsFrom, Option.some.injEq, Prod.mk.injEq] at hc
          rcases hor with hor | hor
          · rw [hor] at hc
            exact absurd hc.2 (by decide)
          · exact absurd hor (by decide)
        · exact h0
      · rintro ⟨adj1, h1, m, _, hm, hc, hall⟩
        cases h1
        exact ⟨m, hm, hc, hall⟩

set_option maxRecDepth 100000 in
theorem update_flag_and_round_cap_witness :
    update 2 dSq distinctAdj = some (sortedAdj, true) ∧
      (∃ i, i < distinctAdj.length ∧ ∃ j, j < 2 ∧
        distanceAt (distinctAdj.getD i []) j ≠ distanceAt (sortedAdj.getD i []) j) :=
  have h : update 2 dSq distinctAdj = some (sortedAdj, true) := by decide
  ⟨h, ((update_flag_and_round_cap 2 dSq).1 distinctAdj sortedAdj true h).1 rfl⟩

set_option maxRecDepth 100000 in
/-- C17 fails as stated: from the candidate sets the initialization leaves on the draws 2,
1, 0, 2, 0, 1, a round reports true and the 2nd smallest distance of every item is the same
before and after; the round only puts item 0's and item 2's two entries in ascending
order. -/
theorem update_flag_not_kth_smallest :
    initAdj 3 2 dSq distinctDraws = some distinctAdj ∧
      update 2 dSq distinctAdj = some (sortedAdj, true) ∧
      ∀ i, i < 3 → kthSmallest 2 (distinctAdj.getD i []) = kthSmallest 2 (sortedAdj.getD i []) := by
  decide

/-- C18: a round returns whenever every pool gathered in it holds at least `k` entries; in
every round, and so in the last round of a run of `NNDescent` that returns, the candidate
set written for each item consists of `k` entries of the pool gathered for that item in the
round, in ascending order of distance, and no entry of the pool left out is closer than an
entry kept. -/
theorem round_keeps_k_closest (k : Nat) (d : Nat → Nat → ℚ) :
    (∀ adj pools, RowsLen k adj → gatherPools d adj = some pools →
      (∀ i, i < adj.length → k ≤ (pools.getD i []).length) →
      ∃ adj' cont, update k d adj = some (adj', cont)) ∧
    (∀ adj pools adj' cont, RowsLen k adj → gatherPools d adj = some pools →
      update k d adj = some (adj', cont) →
      adj'.length = adj.length ∧
        ∀ i, i < adj.length → SelectedFrom k (adj'.getD i []) (pools.getD i [])) ∧
    (∀ n draws result, NNDescent n k d draws = some result →
      ∃ adj pools cont, RowsLen k adj ∧ adj.length = n ∧ gatherPools d adj = some pools ∧
        update k d adj = some (result, cont) ∧ result.length = n ∧
        ∀ i, i < n → SelectedFrom k (result.getD i []) (pools.getD i [])) :=
  ⟨fun adj pools h1 h2 h3 => update_returns k d adj pools h1 h2 h3,
    fun adj pools adj' cont h1 h2 h3 => update_selected k d adj pools adj' cont h1 h2 h3,
    fun n draws result h => nnDescent_last_round n k d draws result h⟩

set_option maxRecDepth 100000 in
theorem round_keeps_k_closest_witness :
    NNDescent 3 2 dSq distinctDraws = some sortedAdj ∧
      ∃ adj pools cont, RowsLen 2 adj ∧ adj.length = 3 ∧ gatherPools dSq adj = some pools ∧
        update 2 dSq adj = some (sortedAdj, cont) ∧ sortedAdj.length = 3 ∧
        ∀ i, i < 3 → SelectedFrom 2 (sortedAdj.getD i []) (pools.getD i []) :=
  have h : NNDescent 3 2 dSq distinctDraws = some sortedAdj := by decide
  ⟨h, (round_keeps_k_closest 2 dSq).2.2 3 distinctDraws sortedAdj h⟩

/-- C19, as amended: for a non-empty dataset with labels in range, non-negative class sizes
and `N * K` within the range of a 32-bit signed int, the network `biasedSampling` builds
carries a flow of value `N * K` exactly when no class size `sizes[c]` exceeds the number of
items with label `c`. -/
theorem modeA_feasible_iff_class_sizes (data : List MyDatum) (sizes : List Int)
    (hne : data ≠ [])
    (hlab : ∀ d ∈ data, 0 ≤ d.label ∧ d.label < sizes.length)
    (hnn : ∀ sz ∈ sizes, 0 ≤ sz)
    (hfit : (data.length : Int) * sizes.sum ≤ 2147483647) :
    biasedSamplingNetwork data sizes = some (modeANetwork data sizes) ∧
      ((∃ f, IsFlow (modeANetwork data sizes) f ((data.length : Int) * sizes.sum)) ↔
        ∀ c, c < sizes.length → sizes.getD c 0 ≤ classCount data c) :=
  modeA_feasible_iff data sizes hne hlab hnn hfit

theorem modeA_feasible_iff_class_sizes_witness :
    threePoints ≠ [] ∧
      (∀ d ∈ threePoints, 0 ≤ d.label ∧ d.label < ([2, 1] : List Int).length) ∧
      (∀ sz ∈ ([2, 1] : List Int), 0 ≤ sz) ∧
      (threePoints.length : Int) * ([2, 1] : List Int).sum ≤ 2147483647 ∧
      biasedSamplingNetwork threePoints [2, 1] = some (modeANetwork threePoints [2, 1]) ∧
      ((∃ f, IsFlow (modeANetwork threePoints [2, 1]) f
          ((threePoints.length : Int) * ([2, 1] : List Int).sum)) ↔
        ∀ c, c < ([2, 1] : List Int).length →
          ([2, 1] : List Int).getD c 0 ≤ classCount threePoints c) :=
  ⟨List.cons_ne_nil _ _, by decide, by decide, by decide,
    modeA_feasible_iff_class_sizes threePoints [2, 1] (List.cons_ne_nil _ _) (by decide)
      (by decide) (by decide)⟩

/-- C19 fails as stated: for 46341 items of label 0 and the class size 46341 no class size
exceeds the number of items of its label, and the network `biasedSampling` builds carries no
flow of value `N * K`, the capacity of the arc from the source being negative after the
product `N * sizes[0]` wraps around. -/
theorem class_sizes_not_sufficient :
    (∀ c, c < ([46341] : List Int).length →
        ([46341] : List Int).getD c 0 ≤ classCount singleClassPoints c) ∧
      ∃ net, biasedSamplingNetwork singleClassPoints [46341] = some net ∧
        ¬ ∃ f, IsFlow net f (46341 * 46341) := by
  have hlab2 : ∀ d ∈ singleClassPoints,
      0 ≤ d.label ∧ d.label < ([46341] : List Int).length := by
    intro d hd
    rw [List.eq_of_mem_replicate hd]
    decide
  refine ⟨?_, _, biasedSamplingNetwork_eq singleClassPoints [46341] hlab2,
    singleClass_no_flow⟩
  intro c hc
  have hc0 : c = 0 := by
    simp only [List.length_singleton] at hc
    omega
  subst hc0
  have hcount : classCount singleClassPoints 0 = 46341 := by
    unfold classCount singleClassPoints
    rw [List.countP_replicate]
    simp
  rw [hcount]
  decide

/-- C20: for `k < n` and a symmetric distance, if every item holds exactly `k` pairwise
distinct neighbors, each an item other than itself and each stored with its distance to the
item, then in a round every pool holds at least `k` entries, the round returns, and
afterwards every item again holds exactly `k` pairwise distinct neighbors, none of them the
item itself. -/
theorem update_keeps_candidate_sets (n k : Nat) (d : Nat → Nat → ℚ) (_hk : k < n)
    (hsym : ∀ i j, d i j = d j i) (adj : List (List Node))
    (hinv : CandidateInv n k d adj) :
    ∃ pools adj' cont, gatherPools d adj = some pools ∧
      (∀ i, i < n → k ≤ (pools.getD i []).length) ∧
      update k d adj = some (adj', cont) ∧ CandidateInv n k d adj' :=
  update_preserves_inv n k d hsym adj hinv

set_option maxRecDepth 100000 in
theorem update_keeps_candidate_sets_witness :
    2 < 3 ∧ (∀ i j, dSq i j = dSq j i) ∧ CandidateInv 3 2 dSq distinctAdj ∧
      ∃ pools adj' cont, gatherPools dSq distinctAdj = some pools ∧
        (∀ i, i < 3 → 2 ≤ (pools.getD i []).length) ∧
        update 2 dSq distinctAdj = some (adj', cont) ∧ CandidateInv 3 2 dSq adj' :=
  have hsym : ∀ i j, dSq i j = dSq j i := fun i j => by
    unfold dSq
    congr 1
    ring
  ⟨by decide, hsym, by decide,
    update_keeps_candidate_sets 3 2 dSq (by decide) hsym distinctAdj (by decide)⟩

end StealthSampling
